import Mathlib

/-! Poyo route registry: a shallow embedding of `tools/poyo`.

The Go sources embedded here are `cmd/route_add.go`, `cmd/route_sync.go`,
`internal/routes/routes.go`, `internal/scaffold/*.go`.

Modelling conventions.

* A Go `string` is a list of Unicode scalar values (`GoString`), i.e. valid
  UTF-8.  Byte-wise comparison of valid UTF-8 agrees with comparison of the
  code-point sequences, so `<` on strings is the lexicographic order on code
  points.
* The Go standard library is not part of the repository.  `strings`,
  `unicode`, `regexp`, `sort`, `os`, `path/filepath` and `encoding/json` are
  modelled from their documented behaviour.  The Unicode tables (case
  mappings and categories of the runes above `MaxASCII`) are a parameter
  `U : Unicode`; the ASCII behaviour is fixed by the definitions.
* Slices are lists; a `nil` slice or map is identified with the empty one.
* The file system is a tree of directories and regular files; paths are the
  component lists of clean absolute paths (Unix separators).  Symbolic links,
  permissions and failures of the device are not modelled: a system call
  fails only when path resolution does.
* A file with JSON text is held as the JSON document; the text layer of
  `encoding/json` is not modelled.
* Console output (`fmt.Printf`) is not part of the state.
-/

namespace Poyo

/-- A Go string: a sequence of Unicode scalar values. -/
abbrev GoString := List Char

/-- The Go string literal with the given text. -/
abbrev lit (s : String) : GoString := s.toList

/-! ## Package `unicode` -/

/-- The tables of package `unicode` for the runes above `MaxASCII`:
case mappings, the categories used by `strings.Title`, and the relation
"the `SimpleFold` orbit of the smaller rune reaches the larger one". -/
structure Unicode where
  ToLower : Char → Char
  ToUpper : Char → Char
  ToTitle : Char → Char
  IsLetter : Char → Bool
  IsDigit : Char → Bool
  IsSpace : Char → Bool
  FoldReaches : Char → Char → Bool

/-- A table set that leaves every rune above `MaxASCII` alone; it is used to
evaluate the model on ASCII inputs, where the tables are never consulted. -/
def Unicode.ascii : Unicode where
  ToLower := id
  ToUpper := id
  ToTitle := id
  IsLetter := fun _ => false
  IsDigit := fun _ => false
  IsSpace := fun _ => false
  FoldReaches := fun _ _ => false

namespace unicode

def MaxASCII : Nat := 0x7F

/-- Go `unicode.ToLower`. -/
def ToLower (U : Unicode) (r : Char) : Char :=
  if r.toNat ≤ MaxASCII then
    if 'A'.toNat ≤ r.toNat ∧ r.toNat ≤ 'Z'.toNat then Char.ofNat (r.toNat + 32) else r
  else U.ToLower r

/-- Go `unicode.ToUpper`. -/
def ToUpper (U : Unicode) (r : Char) : Char :=
  if r.toNat ≤ MaxASCII then
    if 'a'.toNat ≤ r.toNat ∧ r.toNat ≤ 'z'.toNat then Char.ofNat (r.toNat - 32) else r
  else U.ToUpper r

/-- Go `unicode.ToTitle`: title case is upper case for ASCII. -/
def ToTitle (U : Unicode) (r : Char) : Char :=
  if r.toNat ≤ MaxASCII then
    if 'a'.toNat ≤ r.toNat ∧ r.toNat ≤ 'z'.toNat then Char.ofNat (r.toNat - 32) else r
  else U.ToTitle r

end unicode

/-! ## Package `strings` -/

namespace strings

/-- Go `strings.isSeparator`: ASCII alphanumerics and underscore are not
separators; above ASCII, letters and digits are not separators and spaces
are. -/
def isSeparator (U : Unicode) (r : Char) : Bool :=
  if r.toNat ≤ 0x7F then
    if '0'.toNat ≤ r.toNat ∧ r.toNat ≤ '9'.toNat then false
    else if 'a'.toNat ≤ r.toNat ∧ r.toNat ≤ 'z'.toNat then false
    else if 'A'.toNat ≤ r.toNat ∧ r.toNat ≤ 'Z'.toNat then false
    else if r = '_' then false
    else true
  else if U.IsLetter r || U.IsDigit r then false
  else U.IsSpace r

/-- The closure of Go `strings.Title`: `prev` is the previous rune of the
input; a rune that follows a separator is mapped to title case. -/
def Title.go (U : Unicode) : Char → GoString → GoString
  | _, [] => []
  | prev, r :: rs =>
    (if isSeparator U prev then unicode.ToTitle U r else r) :: Title.go U r rs

/-- Go `strings.Title`: `prev` starts as a space. -/
def Title (U : Unicode) (s : GoString) : GoString := Title.go U ' ' s

/-- Go `strings.ToLower`. -/
def ToLower (U : Unicode) (s : GoString) : GoString := s.map (unicode.ToLower U)

/-- Go `strings.Split(s, sep)` for a separator of one rune. -/
def Split (s : GoString) (sep : Char) : List GoString := s.splitOn sep

/-- Go `strings.Join`. -/
def Join (elems : List GoString) (sep : GoString) : GoString := sep.intercalate elems

/-- Go `strings.Contains`. -/
def Contains (s substr : GoString) : Bool := decide (substr <:+: s)

/-- Go `strings.HasPrefix`. -/
def HasPrefix (s pre : GoString) : Bool := pre.isPrefixOf s

/-- Go `strings.HasSuffix`. -/
def HasSuffix (s suffix : GoString) : Bool := suffix.isSuffixOf s

/-- Go `strings.TrimPrefix`. -/
def TrimPrefix (s pre : GoString) : GoString :=
  if HasPrefix s pre then s.drop pre.length else s

/-- Go `strings.TrimSuffix`. -/
def TrimSuffix (s suffix : GoString) : GoString :=
  if HasSuffix s suffix then s.take (s.length - suffix.length) else s

/-- One step of Go `strings.EqualFold`: the runes are equal, or, once ordered,
they are an ASCII upper/lower pair, or (when the larger one is above ASCII)
the `SimpleFold` orbit of the smaller reaches the larger. -/
def equalFoldRune (U : Unicode) (sr tr : Char) : Bool :=
  if tr = sr then true
  else
    let lo := if tr.toNat < sr.toNat then tr else sr
    let hi := if tr.toNat < sr.toNat then sr else tr
    if hi.toNat < 0x80 then
      decide ('A'.toNat ≤ lo.toNat ∧ lo.toNat ≤ 'Z'.toNat ∧ hi.toNat = lo.toNat + 32)
    else U.FoldReaches lo hi

/-- Go `strings.EqualFold`. -/
def EqualFold (U : Unicode) : GoString → GoString → Bool
  | [], [] => true
  | sr :: s, tr :: t => equalFoldRune U sr tr && EqualFold U s t
  | _, _ => false

/-- Go `s < t` on strings. -/
def less : GoString → GoString → Bool
  | [], [] => false
  | [], _ :: _ => true
  | _ :: _, [] => false
  | a :: s, b :: t => decide (a.toNat < b.toNat) || (decide (a = b) && less s t)

end strings

/-! ## `internal/routes`: the route record and path resolution -/

namespace routes

/-- Go `routes.Files`. -/
structure Files where
  React : GoString
  View : GoString
deriving DecidableEq

/-- The loop body of the flat branch of `ResolvePaths`: the state is
`(parts, current)`. -/
def ResolvePaths.step (st : List GoString × GoString) (c : Char) : List GoString × GoString :=
  if c = '/' ∨ c = '\\' then
    if st.2 ≠ [] then (st.1 ++ [st.2], []) else st
  else (st.1, st.2 ++ [c])

/-- The `parts` of the flat branch of `ResolvePaths` after the scan and the
final flush of `current`. -/
def ResolvePaths.parts (name : GoString) : List GoString :=
  let st := name.foldl ResolvePaths.step ([], [])
  if st.2 ≠ [] then st.1 ++ [st.2] else st.1

/-- The `basePath` of the flat branch of `ResolvePaths`: the parent segments
joined with `/` by the indexed loop, then a closing `/`; empty when there is
no parent. -/
def ResolvePaths.basePath (parent : List GoString) : GoString :=
  if parent.length > 0 then
    (parent.enum.foldl
      (fun acc (ip : Nat × GoString) => (if ip.1 > 0 then acc ++ lit "/" else acc) ++ ip.2) [])
      ++ lit "/"
  else []

/-- Go `routes.ResolvePaths`.  `none` is the run-time panic of
`parts[len(parts)-1]` on an empty `parts`. -/
def ResolvePaths (U : Unicode) (name : GoString) (isFlat : Bool) : Option Files :=
  if isFlat then
    let parts := ResolvePaths.parts name
    match parts.getLast? with
    | none => none
    | some leaf =>
      let parent := parts.take (parts.length - 1)
      let basePath := ResolvePaths.basePath parent
      some {
        React := lit "src/pages/" ++ basePath ++ strings.ToLower U leaf ++ lit ".page.tsx"
        View := lit "Views/" ++ basePath ++ leaf ++ lit ".cshtml" }
  else
    some {
      React := lit "src/pages/" ++ name ++ lit "/index.page.tsx"
      View := lit "Views/" ++ name ++ lit "/Index.cshtml" }

end routes

/-! ## `cmd/route_add.go`: normalization -/

/-- The errors and the run-time panic a command can end with. -/
inductive Err where
  /-- "invalid path detected" of `runAdd`, for a path with a colon. -/
  | invalidPath (urlPath : GoString)
  /-- "route already exists: ..." of `runAdd`. -/
  | routeExists (pascalPath : GoString)
  /-- "if --controller is specified, --action must also be specified". -/
  | controllerWithoutAction
  /-- "action already exists" of `EnsureController`. -/
  | actionExists
  /-- "invalid controller file" of `EnsureController`. -/
  | invalidControllerFile
  /-- An error of package `os`. -/
  | os (op : GoString)
  /-- An error of `json.Unmarshal`. -/
  | json
  /-- A run-time panic (index out of range). -/
  | indexOutOfRange
  /-- "route not found: ..." of `runUpdate` and `runRemove`. -/
  | routeNotFound (urlPath : GoString)
deriving DecidableEq

namespace cmd

/-- The `pascalParts` of `runAdd`: the non-empty `/`-separated pieces of the
argument, each passed through `strings.Title(strings.ToLower(p))`. -/
def pascalParts (U : Unicode) (urlPath : GoString) : List GoString :=
  ((strings.Split urlPath '/').filter (fun p => p ≠ [])).map
    (fun p => strings.Title U (strings.ToLower U p))

/-- The `pascalPath` of `runAdd`. -/
def pascalPath (U : Unicode) (urlPath : GoString) : GoString :=
  lit "/" ++ strings.Join (pascalParts U urlPath) (lit "/")

/-- The `name` of `runAdd`. -/
def name (U : Unicode) (urlPath : GoString) : GoString :=
  strings.Join (pascalParts U urlPath) (lit "/")

/-- Lines 44-59 of `runAdd`: the colon guard, then `(pascalPath, name)`. -/
def normalize (U : Unicode) (urlPath : GoString) : Except Err (GoString × GoString) :=
  if strings.Contains urlPath (lit ":") then .error (.invalidPath urlPath)
  else .ok (pascalPath U urlPath, name U urlPath)

end cmd

/-! ## The statements of the specification, in its own words -/

namespace Spec

/-- The segment rewriting as the specification words it: first character
upper-cased, all remaining characters lower-cased. -/
def titleCase (U : Unicode) : GoString → GoString
  | [] => []
  | c :: cs => unicode.ToUpper U c :: cs.map (unicode.ToLower U)

/-- The `Name` of the specification: the non-empty `/`-separated segments,
each title-cased, joined by `/`. -/
def Name (U : Unicode) (raw : GoString) : GoString :=
  strings.Join (((strings.Split raw '/').filter (fun p => p ≠ [])).map (titleCase U)) (lit "/")

/-- The flat page and view of the specification: `Name` is split on `/`,
the parent is every segment but the last, the leaf is the last. -/
def flatFiles (U : Unicode) (name : GoString) : Option routes.Files :=
  let segs := strings.Split name '/'
  match segs.getLast? with
  | none => none
  | some leaf =>
    let parent := segs.take (segs.length - 1)
    let pre := if parent = [] then [] else strings.Join parent (lit "/") ++ lit "/"
    some {
      React := lit "src/pages/" ++ pre ++ strings.ToLower U leaf ++ lit ".page.tsx"
      View := lit "Views/" ++ pre ++ leaf ++ lit ".cshtml" }

end Spec


namespace Spec

/-- The segment rewriting that `runAdd` performs, stated by position: every
rune is lower-cased, and the rune at position `0` and every rune whose
(lower-cased) predecessor is a separator is then title-cased. -/
def wordCase (U : Unicode) (seg : GoString) : GoString :=
  (List.range seg.length).map (fun i =>
    let c := unicode.ToLower U (seg.getD i ' ')
    if i = 0 ∨ strings.isSeparator U (unicode.ToLower U (seg.getD (i - 1) ' ')) = true
    then unicode.ToTitle U c else c)

end Spec

namespace Spec

/-- The view pairing as the specification words it: the nested path if it
is among the untracked views, otherwise the flat path if that one is,
otherwise the nested path. -/
def pairedView (nested flat : GoString) (views : List GoString) : GoString :=
  if nested ∈ views then nested else if flat ∈ views then flat else nested

end Spec

namespace Spec

/-- The pieces of a name as the specification words them: the name is cut
at every `/` and every `\`, and the empty pieces are dropped. -/
def pieces (name : GoString) : List GoString :=
  (name.splitOnP (fun c => c == '/' || c == '\\')).filter (fun p => p ≠ [])

end Spec

/-- The ASCII branch of `unicode.ToLower`. -/
def asciiLower (r : Char) : Char :=
  if 'A'.toNat ≤ r.toNat ∧ r.toNat ≤ 'Z'.toNat then Char.ofNat (r.toNat + 32) else r

/-- The ASCII branch of `unicode.ToUpper` and of `unicode.ToTitle`. -/
def asciiUpper (r : Char) : Char :=
  if 'a'.toNat ≤ r.toNat ∧ r.toNat ≤ 'z'.toNat then Char.ofNat (r.toNat - 32) else r

/-- The ASCII branch of `strings.isSeparator`. -/
def asciiSeparator (r : Char) : Bool :=
  if '0'.toNat ≤ r.toNat ∧ r.toNat ≤ '9'.toNat then false
  else if 'a'.toNat ≤ r.toNat ∧ r.toNat ≤ 'z'.toNat then false
  else if 'A'.toNat ≤ r.toNat ∧ r.toNat ≤ 'Z'.toNat then false
  else if r = '_' then false
  else true

/-! ## Package `encoding/json` and the route record -/

namespace json

/-- A JSON document.  The text layer of `encoding/json` (tokens, white
space, escapes, indentation) is not modelled: a file with JSON text is held
as the document the text denotes. -/
inductive Value where
  | null
  | bool (b : Bool)
  | number (text : GoString)
  | string (s : GoString)
  | array (elems : List Value)
  | object (members : List (GoString × Value))

end json

/-- A Go `map[string]string`: the entries in ascending key order, one per
key.  `nil` and the empty map are both `[]`. -/
abbrev StringMap := List (GoString × GoString)

/-- The entries are in strictly ascending key order: the list stands for a
map. -/
def StringMap.Ordered (m : StringMap) : Prop :=
  m.Pairwise (fun a b => strings.less a.1 b.1 = true)

instance (m : StringMap) : Decidable (StringMap.Ordered m) := by
  unfold StringMap.Ordered; infer_instance

/-- Go `m[k] = v`. -/
def StringMap.set : StringMap → GoString → GoString → StringMap
  | [], k, v => [(k, v)]
  | (k1, v1) :: m, k, v =>
    if k = k1 then (k, v) :: m
    else if strings.less k k1 then (k, v) :: (k1, v1) :: m
    else (k1, v1) :: StringMap.set m k v

namespace routes

/-- Go `routes.Route`. -/
structure Route where
  Path : GoString
  Name : GoString
  Files : Files
  IsPublic : Bool
  IsGuestOnly : Bool
  Controller : GoString
  Action : GoString
  SEO : StringMap
deriving DecidableEq

/-- The zero value of `Route`. -/
def Route.zero : Route :=
  { Path := [], Name := [], Files := { React := [], View := [] }, IsPublic := false,
    IsGuestOnly := false, Controller := [], Action := [], SEO := [] }

/-- The JSON object `json.Marshal` writes for a `Route`: the fields in
declaration order under their tags, the `omitempty` ones left out when
false, empty or of length zero; a map is written with its keys in ascending
order. -/
def marshalRoute (r : Route) : json.Value :=
  .object (
    [ (lit "path", .string r.Path),
      (lit "name", .string r.Name),
      (lit "files", .object [(lit "react", .string r.Files.React),
                             (lit "view", .string r.Files.View)]) ]
    ++ (if r.IsPublic then [(lit "isPublic", .bool true)] else [])
    ++ (if r.IsGuestOnly then [(lit "isGuestOnly", .bool true)] else [])
    ++ (if r.Controller ≠ [] then [(lit "controller", .string r.Controller)] else [])
    ++ (if r.Action ≠ [] then [(lit "action", .string r.Action)] else [])
    ++ (if r.SEO ≠ [] then
          [(lit "seo", .object (r.SEO.map (fun kv => (kv.1, json.Value.string kv.2))))]
        else []))

/-- Go `json.MarshalIndent(routes, "", "  ")` on a `[]Route`. -/
def Marshal (routes : List Route) : json.Value :=
  .array (routes.map marshalRoute)

/-- Decoding into a `string` field: a JSON string is stored, `null` leaves
the field alone, anything else is an `UnmarshalTypeError`. -/
def unmarshalString (old : GoString) : json.Value → Except Err GoString
  | .string s => .ok s
  | .null => .ok old
  | _ => .error .json

/-- Decoding into a `bool` field. -/
def unmarshalBool (old : Bool) : json.Value → Except Err Bool
  | .bool b => .ok b
  | .null => .ok old
  | _ => .error .json

/-- One member of the object decoded into `Files`; a key names a field when
it equals the tag under case folding, other keys are skipped. -/
def unmarshalFilesMember (U : Unicode) (acc : Except Err Files) (kv : GoString × json.Value) :
    Except Err Files :=
  match acc with
  | .error e => .error e
  | .ok f =>
    if strings.EqualFold U kv.1 (lit "react") then
      (unmarshalString f.React kv.2).map (fun s => { f with React := s })
    else if strings.EqualFold U kv.1 (lit "view") then
      (unmarshalString f.View kv.2).map (fun s => { f with View := s })
    else .ok f

/-- Decoding into the `Files` field. -/
def unmarshalFiles (U : Unicode) (old : Files) : json.Value → Except Err Files
  | .object members => members.foldl (unmarshalFilesMember U) (.ok old)
  | .null => .ok old
  | _ => .error .json

/-- One member of the object decoded into the `SEO` map: the value of a
key is a string, or `null` for the zero value. -/
def unmarshalMapMember (acc : Except Err StringMap) (kv : GoString × json.Value) :
    Except Err StringMap :=
  match acc with
  | .error e => .error e
  | .ok m =>
    match kv.2 with
    | .string s => .ok (m.set kv.1 s)
    | .null => .ok (m.set kv.1 [])
    | _ => .error .json

/-- Decoding into the `SEO` field. -/
def unmarshalMap (old : StringMap) : json.Value → Except Err StringMap
  | .object members => members.foldl unmarshalMapMember (.ok old)
  | .null => .ok old
  | _ => .error .json

/-- One member of the object decoded into a `Route`. -/
def unmarshalRouteMember (U : Unicode) (acc : Except Err Route) (kv : GoString × json.Value) :
    Except Err Route :=
  match acc with
  | .error e => .error e
  | .ok r =>
    if strings.EqualFold U kv.1 (lit "path") then
      (unmarshalString r.Path kv.2).map (fun s => { r with Path := s })
    else if strings.EqualFold U kv.1 (lit "name") then
      (unmarshalString r.Name kv.2).map (fun s => { r with Name := s })
    else if strings.EqualFold U kv.1 (lit "files") then
      (unmarshalFiles U r.Files kv.2).map (fun f => { r with Files := f })
    else if strings.EqualFold U kv.1 (lit "isPublic") then
      (unmarshalBool r.IsPublic kv.2).map (fun b => { r with IsPublic := b })
    else if strings.EqualFold U kv.1 (lit "isGuestOnly") then
      (unmarshalBool r.IsGuestOnly kv.2).map (fun b => { r with IsGuestOnly := b })
    else if strings.EqualFold U kv.1 (lit "controller") then
      (unmarshalString r.Controller kv.2).map (fun s => { r with Controller := s })
    else if strings.EqualFold U kv.1 (lit "action") then
      (unmarshalString r.Action kv.2).map (fun s => { r with Action := s })
    else if strings.EqualFold U kv.1 (lit "seo") then
      (unmarshalMap r.SEO kv.2).map (fun m => { r with SEO := m })
    else .ok r

/-- Decoding one array element into a fresh `Route`. -/
def unmarshalRoute (U : Unicode) : json.Value → Except Err Route
  | .object members => members.foldl (unmarshalRouteMember U) (.ok Route.zero)
  | .null => .ok Route.zero
  | _ => .error .json

/-- Go `json.Unmarshal(data, &routes)` for `var routes []Route`: an array is
decoded element by element, `null` leaves the slice `nil`, anything else is
an error. -/
def Unmarshal (U : Unicode) : json.Value → Except Err (List Route)
  | .array elems => elems.mapM (unmarshalRoute U)
  | .null => .ok []
  | _ => .error .json

/-- What is found at the path of `routes.json`. -/
inductive RegistryFile where
  /-- Nothing: `os.Stat` fails. -/
  | absent
  /-- A directory: `os.ReadFile` and `os.WriteFile` fail. -/
  | directory
  /-- A file whose bytes are not a JSON text. -/
  | text
  /-- A file with the text of a JSON document. -/
  | json (doc : json.Value)

/-- Go `routes.Read`. -/
def Read (U : Unicode) : RegistryFile → Except Err (List Route)
  | .absent => .ok []
  | .directory => .error (.os (lit "read"))
  | .text => .error .json
  | .json doc => Unmarshal U doc

/-- Go `sort.Slice(routes, func(i, j int) bool { return routes[i].Path < routes[j].Path })`.
The library promises an ordering by `less` and no stability; the model
orders routes of equal `Path` as an insertion sort does, and the theorems
below do not depend on that order. -/
def sortSlice (routes : List Route) : List Route :=
  routes.insertionSort (fun a b => strings.less b.Path a.Path = false)

/-- Go `routes.Write`: sort, marshal, write the file. -/
def Write (file : RegistryFile) (routes : List Route) : Except Err RegistryFile :=
  let routes := sortSlice routes
  let data := Marshal routes
  match file with
  | .directory => .error (.os (lit "write"))
  | _ => .ok (.json data)

end routes

/-! ## Packages `os` and `path/filepath`: the file tree -/

/-- A clean absolute path, as its list of components (`[]` is the root). -/
abbrev Path := List GoString

/-- The error numbers of the system calls used. -/
inductive Errno where
  | ENOENT
  | ENOTDIR
  | EISDIR
deriving DecidableEq

/-- A node of the file tree: a regular file with its content, or a directory
with its entries (the first entry of a name is the one that counts). -/
inductive Node where
  | file (data : GoString)
  | dir (entries : List (GoString × Node))

/-- Replace the entry called `c`, or add it. -/
def Node.setEntry : List (GoString × Node) → GoString → Node → List (GoString × Node)
  | [], c, n => [(c, n)]
  | (k, m) :: es, c, n => if k = c then (c, n) :: es else (k, m) :: Node.setEntry es c n

namespace filepath

/-- Go `filepath.Join(dir, elem)` for a clean absolute `dir`: the components
of `elem` are walked from `dir`; empty ones and `.` are skipped, `..` steps
up (and stays at the root). -/
def Join (dir : Path) (elem : GoString) : Path :=
  (strings.Split elem '/').foldl
    (fun acc c =>
      if c = [] ∨ c = lit "." then acc
      else if c = lit ".." then acc.dropLast
      else acc ++ [c])
    dir

/-- Go `filepath.Dir` on a clean absolute path. -/
def Dir (p : Path) : Path := p.dropLast

end filepath

namespace os

/-- Go `os.Stat`: the path is resolved component by component. -/
def Stat : Node → Path → Except Errno Node
  | n, [] => .ok n
  | .file _, _ :: _ => .error .ENOTDIR
  | .dir es, c :: cs =>
    match es.lookup c with
    | none => .error .ENOENT
    | some child => Stat child cs

/-- Go `os.IsNotExist` on the error of a system call. -/
def IsNotExist (e : Errno) : Bool := e = .ENOENT

/-- Go `os.MkdirAll`: every missing directory on the way is created; a file
on the way is an error. -/
def MkdirAll : Node → Path → Except Errno Node
  | .file _, _ => .error .ENOTDIR
  | .dir es, [] => .ok (.dir es)
  | .dir es, c :: cs =>
    match es.lookup c with
    | some child => (MkdirAll child cs).map (fun n => .dir (Node.setEntry es c n))
    | none => (MkdirAll (.dir []) cs).map (fun n => .dir (Node.setEntry es c n))

/-- Go `os.WriteFile`: the parent must be a directory, the target is created
or truncated, and must not be a directory. -/
def WriteFile : Node → Path → GoString → Except Errno Node
  | _, [], _ => .error .EISDIR
  | .file _, _ :: _, _ => .error .ENOTDIR
  | .dir es, [c], data =>
    match es.lookup c with
    | some (.dir _) => .error .EISDIR
    | _ => .ok (.dir (Node.setEntry es c (.file data)))
  | .dir es, c :: c2 :: cs, data =>
    match es.lookup c with
    | some child => (WriteFile child (c2 :: cs) data).map (fun n => .dir (Node.setEntry es c n))
    | none => .error .ENOENT

/-- Go `os.ReadFile`. -/
def ReadFile (fs : Node) (p : Path) : Except Errno GoString :=
  match Stat fs p with
  | .ok (.file data) => .ok data
  | .ok (.dir _) => .error .EISDIR
  | .error e => .error e

end os

/-- The name of a failed system call, for `Err.os`. -/
def Errno.toErr : Errno → Err
  | .ENOENT => .os (lit "no such file or directory")
  | .ENOTDIR => .os (lit "not a directory")
  | .EISDIR => .os (lit "is a directory")

/-! ## `internal/config` -/

namespace config

/-- The directories of `internal/config`, resolved once at start-up. -/
structure Config where
  ClientDir : Path
  ServerDir : Path

/-- Go `config.ControllersDir`. -/
def Config.ControllersDir (cfg : Config) : Path := filepath.Join cfg.ServerDir (lit "Controllers")

end config

/-! ## Package `regexp`: the one pattern of `EnsureController` -/

namespace regexp

/-- The class `\s` of Go regular expressions: `[\t\n\f\r ]`. -/
def isSpace (c : Char) : Bool :=
  c = '\t' || c = '\n' || c = Char.ofNat 12 || c = '\r' || c = ' '

/-- A literal under `(?i)`: each rune of the literal matches the runes of
its case-folding orbit.  The result is the input left after the literal. -/
def matchLiteral (U : Unicode) : GoString → GoString → Option GoString
  | [], s => some s
  | _ :: _, [] => none
  | l :: ls, c :: s => if strings.equalFoldRune U l c then matchLiteral U ls s else none

/-- The tail of the pattern after the literal of the action: `\s*\(`. -/
def matchOpenParen (s : GoString) : Bool :=
  (s.dropWhile isSpace).head? = some '('

/-- The pattern after `IActionResult\s`, one space already consumed: the
rest of `\s+`, then the action as a literal, then `\s*\(`. -/
def matchSpacesAction (U : Unicode) (action : GoString) : GoString → Bool
  | [] =>
    match matchLiteral U action [] with
    | some rest => matchOpenParen rest
    | none => false
  | c :: s =>
    (match matchLiteral U action (c :: s) with
     | some rest => matchOpenParen rest
     | none => false)
    || (isSpace c && matchSpacesAction U action s)

/-- The pattern `(?i)IActionResult\s+<action>\s*\(` anchored at the start of
the input; `regexp.QuoteMeta` makes the action a literal. -/
def matchActionAt (U : Unicode) (action : GoString) (s : GoString) : Bool :=
  match matchLiteral U (lit "IActionResult") s with
  | some (c :: rest) => isSpace c && matchSpacesAction U action rest
  | _ => false

/-- Go `re.MatchString(content)` for that pattern: a match may start
anywhere. -/
def MatchAction (U : Unicode) (action : GoString) (content : GoString) : Bool :=
  content.tails.any (matchActionAt U action)

end regexp

/-! ## `internal/scaffold` -/

namespace scaffold

/-- Go `scaffold.ReactPage`. -/
def ReactPage (name : GoString) : GoString :=
  let component :=
    if strings.Contains name (lit "/") then
      let parts := strings.Split name '/'
      parts.getLastD []
    else name
  lit "import type React from 'react';\n\nconst " ++ component
    ++ lit ": React.FC = () => \x7b\n  return (\n    <div className=\"p-4\">\n      <h1 className=\"text-2xl font-bold\">"
    ++ name
    ++ lit "</h1>\n    </div>\n  );\n\x7d\n\nexport default " ++ component ++ lit ";\n"

/-- Go `scaffold.MVCView`. -/
def MVCView (name : GoString) : GoString :=
  lit "@\x7b\n    ViewBag.Title = \"" ++ name
    ++ lit "\";\n\x7d\n\n<div id=\"react-root\" data-page-name=\"" ++ name ++ lit "\"></div>\n"

/-- Go `scaffold.ControllerTemplate`. -/
def ControllerTemplate (ctrl action view : GoString) : GoString :=
  lit "using Microsoft.AspNetCore.Mvc;\n\nnamespace Poyo.Server.Controllers;\n\npublic class "
    ++ ctrl ++ lit " : Controller\n\x7b\n    public IActionResult " ++ action
    ++ lit "()\n    \x7b\n        return View(\"~/" ++ view ++ lit "\");\n    \x7d\n\x7d\n"

/-- Go `scaffold.ActionTemplate`. -/
def ActionTemplate (action view : GoString) : GoString :=
  lit "\n    public IActionResult " ++ action
    ++ lit "()\n    \x7b\n        return View(\"~/" ++ view ++ lit "\");\n    \x7d\n"

/-- Go `strings.LastIndex(content, "}")`: the index of the last `}`, if
any. -/
def lastIndexBrace (content : GoString) : Option Nat :=
  match content.reverse.indexOf? (Char.ofNat 125) with
  | none => none
  | some i => some (content.length - 1 - i)

/-- Go `scaffold.EnsureController`: the two results and the file tree
after the call. -/
def EnsureController (U : Unicode) (path : Path) (name action view : GoString) (fs : Node) :
    (GoString × Option Err) × Node :=
  let name := if ¬ strings.HasSuffix name (lit "Controller") then name ++ lit "Controller" else name
  let file := filepath.Join path (name ++ lit ".cs")
  match os.Stat fs file with
  | .error _ =>
    let content := ControllerTemplate name action view
    match os.WriteFile fs file content with
    | .ok fs1 => ((name, none), fs1)
    | .error e => ((name, some e.toErr), fs)
  | .ok _ =>
    match os.ReadFile fs file with
    | .error e => (([], some e.toErr), fs)
    | .ok content =>
      if regexp.MatchAction U action content then (([], some .actionExists), fs)
      else
        match lastIndexBrace content with
        | none => (([], some .invalidControllerFile), fs)
        | some idx =>
          let out := content.take idx ++ ActionTemplate action view ++ content.drop idx
          match os.WriteFile fs file out with
          | .ok fs1 => ((name, none), fs1)
          | .error e => ((name, some e.toErr), fs)

/-- Go `scaffold.ScaffoldOptions`. -/
structure ScaffoldOptions where
  NoView : Bool

/-- Go `scaffold.ControllerInfo`. -/
structure ControllerInfo where
  Name : GoString
  Action : GoString

/-- Step 1 or 2 of `ScaffoldRouteFiles`: when `os.Stat` answers "does not
exist", make the parent directories and write the stub; otherwise leave the
tree alone. -/
def scaffoldFile (fullPath : Path) (content : GoString) (fs : Node) : Option Err × Node :=
  match os.Stat fs fullPath with
  | .ok _ => (none, fs)
  | .error e =>
    if os.IsNotExist e then
      match os.MkdirAll fs (filepath.Dir fullPath) with
      | .error e1 => (some e1.toErr, fs)
      | .ok fs1 =>
        match os.WriteFile fs1 fullPath content with
        | .error e2 => (some e2.toErr, fs1)
        | .ok fs2 => (none, fs2)
    else (none, fs)

/-- Go `scaffold.ScaffoldRouteFiles`: the returned error (if any) and the
file tree after the call. -/
def ScaffoldRouteFiles (U : Unicode) (cfg : config.Config) (name : GoString) (files : routes.Files)
    (options : ScaffoldOptions) (controller : Option ControllerInfo) (fs : Node) :
    Option Err × Node :=
  let pageFullPath := filepath.Join cfg.ClientDir files.React
  let viewFullPath := filepath.Join cfg.ServerDir files.View
  -- 1. React Page
  match scaffoldFile pageFullPath (ReactPage name) fs with
  | (some e, fs1) => (some e, fs1)
  | (none, fs1) =>
    -- 2. MVC View
    match (if ¬ options.NoView then scaffoldFile viewFullPath (MVCView name) fs1
           else (none, fs1)) with
    | (some e, fs2) => (some e, fs2)
    | (none, fs2) =>
      -- 3. Controller Injection
      match controller with
      | none => (none, fs2)
      | some c =>
        match EnsureController U cfg.ControllersDir c.Name c.Action files.View fs2 with
        | ((_, none), fs3) => (none, fs3)
        | ((_, some e), fs3) => if e = .actionExists then (none, fs3) else (some e, fs3)

end scaffold

/-! ## `cmd`: the commands -/

/-- The state the commands act on: the file `routes.json` and the file
tree with the pages, the views and the controllers.  `routes.json` is kept
apart from the tree: none of the generated paths is the registry path. -/
structure World where
  routesJSON : routes.RegistryFile
  fs : Node

namespace cmd

/-- The flags of `route add`. -/
structure AddFlags where
  addPublic : Bool
  addGuest : Bool
  addFlat : Bool
  addController : GoString
  addAction : GoString
  addNoView : Bool

/-- The `controllerInfo` of `runAdd` (lines 75-85, after the check that an
action comes with the controller). -/
def runAdd.controllerInfo (flags : AddFlags) : Option scaffold.ControllerInfo :=
  if flags.addController ≠ [] then
    some { Name := flags.addController, Action := flags.addAction }
  else none

/-- The `newRoute` of `runAdd` as it stands at line 104: the record, with
`Controller` and `Action` taken from `controllerInfo` when there is one. -/
def runAdd.newRoute (flags : AddFlags) (pascalPath name : GoString) (files : routes.Files)
    (controllerInfo : Option scaffold.ControllerInfo) : routes.Route :=
  { Path := pascalPath, Name := name, Files := files,
    IsPublic := flags.addPublic, IsGuestOnly := flags.addGuest,
    Controller := match controllerInfo with
      | some ci => ci.Name
      | none => [],
    Action := match controllerInfo with
      | some ci => ci.Action
      | none => [],
    SEO := (StringMap.set [] (lit "title") name).set (lit "description")
      (lit "Page for " ++ name) }

/-- Lines 110-127 of `runAdd`: with controller info, `EnsureController` is
called; an error other than "action already exists" ends the command,
otherwise `newRoute.Controller` is set to `safeName` (the assignment of
`strings.TrimSuffix(safeName, ".cs")` just before is overwritten).  The
result is the error, the route and the file tree. -/
def runAdd.ensure (U : Unicode) (cfg : config.Config) (files : routes.Files)
    (newRoute : routes.Route) (fs : Node) :
    Option scaffold.ControllerInfo → Option Err × routes.Route × Node
  | none => (none, newRoute, fs)
  | some ci =>
    match scaffold.EnsureController U cfg.ControllersDir ci.Name ci.Action files.View fs with
    | ((safeName, err), fs1) =>
      if err ≠ none ∧ err ≠ some .actionExists then (err, newRoute, fs1)
      else (none, { newRoute with Controller := safeName }, fs1)

/-- Lines 129-166 of `runAdd`: the route is appended, the registry written,
and the page and view files scaffolded. -/
def runAdd.finish (U : Unicode) (cfg : config.Config) (flags : AddFlags) (name : GoString)
    (files : routes.Files) (r : List routes.Route) (w : World) :
    Option Err × routes.Route × Node → Option Err × World
  | (some e, _, fs1) => (some e, { w with fs := fs1 })
  | (none, newRoute, fs1) =>
    match routes.Write w.routesJSON (r ++ [newRoute]) with
    | .error e => (some e, { w with fs := fs1 })
    | .ok file =>
      match scaffold.ScaffoldRouteFiles U cfg name files { NoView := flags.addNoView } none
          fs1 with
      | (err, fs2) => (err, { routesJSON := file, fs := fs2 })

/-- Go `cmd.runAdd`: the returned error (if any) and the state after the
command. -/
def runAdd (U : Unicode) (cfg : config.Config) (flags : AddFlags) (urlPath : GoString)
    (w : World) : Option Err × World :=
  -- Guard: a colon in the path
  if strings.Contains urlPath (lit ":") then (some (.invalidPath urlPath), w)
  else
    -- Check if exists
    match routes.Read U w.routesJSON with
    | .error e => (some e, w)
    | .ok r =>
      if r.any (fun rt => strings.EqualFold U rt.Path (pascalPath U urlPath)) then
        (some (.routeExists (pascalPath U urlPath)), w)
      else
        match routes.ResolvePaths U (name U urlPath) flags.addFlat with
        | none => (some .indexOutOfRange, w)
        | some files =>
          -- Controller Logic
          if flags.addController ≠ [] ∧ flags.addAction = [] then
            (some .controllerWithoutAction, w)
          else
            runAdd.finish U cfg flags (name U urlPath) files r w
              (runAdd.ensure U cfg files
                (runAdd.newRoute flags (pascalPath U urlPath) (name U urlPath) files
                  (runAdd.controllerInfo flags))
                w.fs (runAdd.controllerInfo flags))

/-- The candidate route of the `add_untracked` branch of `runSync` for one
untracked page. -/
def adoptCandidate (U : Unicode) (untrackedViews : List GoString) (reactFile : GoString) :
    routes.Route :=
  let rel := strings.TrimPrefix reactFile (lit "src/pages/")
  let name :=
    if strings.HasSuffix rel (lit "/index.page.tsx") then
      strings.TrimSuffix rel (lit "/index.page.tsx")
    else strings.TrimSuffix rel (lit ".page.tsx")
  let parts := (strings.Split name '/').map
    (fun p => if p.length > 0 then strings.Title U (strings.ToLower U p) else p)
  let name := strings.Join parts (lit "/")
  let pathStr := lit "/" ++ name
  -- View guess
  let viewCandidate := lit "Views/" ++ name ++ lit "/Index.cshtml"
  let viewCandidateFlat := lit "Views/" ++ name ++ lit ".cshtml"
  let finalView :=
    match untrackedViews.find? (fun v => v = viewCandidate ∨ v = viewCandidateFlat) with
    | some v => if v = viewCandidate then viewCandidate else viewCandidateFlat
    | none => viewCandidate
  { Path := pathStr, Name := name, Files := { React := reactFile, View := finalView },
    IsPublic := false, IsGuestOnly := false, Controller := [], Action := [],
    SEO := (StringMap.set [] (lit "title") name).set (lit "description")
      (lit "Page for " ++ name) }

/-- The loop "Add selected" of `runSync`: a selected candidate is appended
to the routes, and its view is written when `os.Stat` answers "does not
exist" (the errors of `MkdirAll` and `WriteFile` are dropped).  The flag is
`true` when the loop ran to its end, `false` when an index was out of range
(a panic), with the state reached by then. -/
def adoptSelected (cfg : config.Config) (newRoutesToAdd : List routes.Route) :
    List Nat → List routes.Route × Node → Bool × List routes.Route × Node
  | [], st => (true, st)
  | idx :: rest, (r, fs) =>
    match newRoutesToAdd[idx]? with
    | none => (false, r, fs)
    | some routeToAdd =>
      let r := r ++ [routeToAdd]
      let vPath := filepath.Join cfg.ServerDir routeToAdd.Files.View
      let fs :=
        match os.Stat fs vPath with
        | .ok _ => fs
        | .error e =>
          if os.IsNotExist e then
            let fs1 := match os.MkdirAll fs (filepath.Dir vPath) with
              | .ok fs1 => fs1
              | .error _ => fs
            match os.WriteFile fs1 vPath (scaffold.MVCView routeToAdd.Name) with
            | .ok fs2 => fs2
            | .error _ => fs1
          else fs
      adoptSelected cfg newRoutesToAdd rest (r, fs)

/-- The branch `add_untracked` of `runSync` (lines 167-260): `r` is the
registry read at the start, `untrackedReact` and `untrackedViews` are the
results of the reverse pass, `selected` is the answer of `tui.Checkbox`
(the indices of the chosen candidates, or an error). -/
def syncAddUntracked (U : Unicode) (cfg : config.Config) (r : List routes.Route)
    (untrackedReact untrackedViews : List GoString) (selected : Except Err (List Nat))
    (w : World) : Option Err × World :=
  let newRoutesToAdd := untrackedReact.map (adoptCandidate U untrackedViews)
  if newRoutesToAdd.length = 0 ∧ untrackedViews.length > 0 then (none, w)
  else if newRoutesToAdd.length > 0 then
    match selected with
    | .error e => (some e, w)
    | .ok selectedIndices =>
      match adoptSelected cfg newRoutesToAdd selectedIndices (r, w.fs) with
      | (false, _, fs) => (some .indexOutOfRange, { w with fs := fs })
      | (true, r, fs) =>
        if selectedIndices.length > 0 then
          match routes.Write w.routesJSON r with
          | .error e => (some e, { w with fs := fs })
          | .ok file => (none, { routesJSON := file, fs := fs })
        else (none, { w with fs := fs })
  else (none, w)

end cmd

/-! ## The registry invariant and the scenarios -/

namespace routes

/-- The registry invariant: no two routes have case-insensitively equal
`Path`s. -/
def UniquePaths (U : Unicode) (rs : List Route) : Prop :=
  rs.Pairwise (fun a b => strings.EqualFold U a.Path b.Path = false)

/-- The route invariant: `Action` is set if and only if `Controller` is. -/
def Route.ActionIffController (r : Route) : Prop :=
  r.Action ≠ [] ↔ r.Controller ≠ []

end routes

namespace Example

/-- A project at `/proj` with its client and server directories. -/
def cfg : config.Config :=
  { ClientDir := [lit "proj", lit "poyo.client"], ServerDir := [lit "proj", lit "Poyo.Server"] }

/-- The tree of a fresh project: the client directory, and the server
directory with an empty `Controllers`; no page, view or controller file. -/
def tree : Node :=
  .dir [(lit "proj", .dir [
    (lit "poyo.client", .dir []),
    (lit "Poyo.Server", .dir [(lit "Controllers", .dir [])])])]

/-- The flags `--controller Blog --action List`. -/
def blogList : cmd.AddFlags :=
  { addPublic := false, addGuest := false, addFlat := false,
    addController := lit "Blog", addAction := lit "List", addNoView := false }

/-- The route the end-to-end scenario registers. -/
def blogPosts : routes.Route :=
  { Path := lit "/Blog/Posts", Name := lit "Blog/Posts",
    Files := { React := lit "src/pages/Blog/Posts/index.page.tsx",
               View := lit "Views/Blog/Posts/Index.cshtml" },
    IsPublic := false, IsGuestOnly := false,
    Controller := lit "BlogController", Action := lit "List",
    SEO := [(lit "description", lit "Page for Blog/Posts"), (lit "title", lit "Blog/Posts")] }

/-- A public route without controller. -/
def about : routes.Route :=
  { Path := lit "/About", Name := lit "About",
    Files := { React := lit "src/pages/about.page.tsx", View := lit "Views/About.cshtml" },
    IsPublic := true, IsGuestOnly := false, Controller := [], Action := [],
    SEO := [(lit "title", lit "About")] }

/-- The tree of the fresh project after `route add /blog/posts --controller
Blog --action List`. -/
def blogTree : Node :=
  .dir [(lit "proj", .dir [
    (lit "poyo.client", .dir [(lit "src", .dir [(lit "pages", .dir [(lit "Blog", .dir [
      (lit "Posts", .dir [
        (lit "index.page.tsx", .file (scaffold.ReactPage (lit "Blog/Posts")))])])])])]),
    (lit "Poyo.Server", .dir [
      (lit "Controllers", .dir [
        (lit "BlogController.cs", .file (scaffold.ControllerTemplate (lit "BlogController")
          (lit "List") (lit "Views/Blog/Posts/Index.cshtml")))]),
      (lit "Views", .dir [(lit "Blog", .dir [(lit "Posts", .dir [
        (lit "Index.cshtml", .file (scaffold.MVCView (lit "Blog/Posts")))])])])])])]

/-- The project after `route add /blog/posts --controller Blog --action List`
on the fresh tree. -/
def afterBlogPosts : World :=
  { routesJSON := .json (routes.Marshal [blogPosts]), fs := blogTree }

/-- The route that `route add /blog/archive --controller Blog --action List`
registers once `BlogController.cs` holds the action `List`: an `Action`
without `Controller`. -/
def blogArchive : routes.Route :=
  { Path := lit "/Blog/Archive", Name := lit "Blog/Archive",
    Files := { React := lit "src/pages/Blog/Archive/index.page.tsx",
               View := lit "Views/Blog/Archive/Index.cshtml" },
    IsPublic := false, IsGuestOnly := false,
    Controller := [], Action := lit "List",
    SEO := [(lit "description", lit "Page for Blog/Archive"), (lit "title", lit "Blog/Archive")] }

/-- The candidate route of adoption for a page of the name `Foo`. -/
def foo (reactFile : GoString) : routes.Route :=
  { Path := lit "/Foo", Name := lit "Foo",
    Files := { React := reactFile, View := lit "Views/Foo/Index.cshtml" },
    IsPublic := false, IsGuestOnly := false, Controller := [], Action := [],
    SEO := [(lit "description", lit "Page for Foo"), (lit "title", lit "Foo")] }

/-- A fresh project in which two untracked pages were made by hand, a
nested one and a flat one, both for the name `Foo`. -/
def twoPages : World :=
  { routesJSON := .absent,
    fs := .dir [(lit "proj", .dir [
      (lit "poyo.client", .dir [(lit "src", .dir [(lit "pages", .dir [
        (lit "Foo", .dir [(lit "index.page.tsx", .file (lit "export default 1;\n"))]),
        (lit "Foo.page.tsx", .file (lit "export default 2;\n"))])])]),
      (lit "Poyo.Server", .dir [(lit "Controllers", .dir [])])])] }

end Example

namespace cmd

/-- The branch `prune` of `runSync` (lines 150-165): the routes whose `Path`
is the `Path` of a route with missing files are dropped, and the registry is
written. -/
def syncPrune (missingRoutes : List routes.Route) (r : List routes.Route) (w : World) :
    Option Err × World :=
  let toRemove := missingRoutes.map (fun m => m.Path)
  let newRoutes := r.filter (fun rt => ¬ rt.Path ∈ toRemove)
  match routes.Write w.routesJSON newRoutes with
  | .error e => (some e, w)
  | .ok file => (none, { w with routesJSON := file })

end cmd

namespace scaffold

/-- The controller name as `EnsureController` completes it: `Controller` is
appended unless the name already ends in it. -/
def safeName (name : GoString) : GoString :=
  if ¬ strings.HasSuffix name (lit "Controller") then name ++ lit "Controller" else name

/-- The `file` of `EnsureController`. -/
def controllerFile (path : Path) (name : GoString) : Path :=
  filepath.Join path (safeName name ++ lit ".cs")

end scaffold

namespace cmd

/-- The lookup loop of `runUpdate` (lines 39-49) and of `runRemove` (lines
35-45): the index of the first route whose `Path` is case-insensitively
equal to the argument, or to the argument with its leading `/` put back. -/
def lookup (U : Unicode) (r : List routes.Route) (urlPath : GoString) : Option Nat :=
  r.findIdx? (fun rt =>
    strings.EqualFold U rt.Path urlPath ||
    strings.EqualFold U rt.Path (lit "/" ++ strings.TrimPrefix urlPath (lit "/")))

/-- The outcome of `route update` and `route remove` when the lookup finds
nothing: the error "route not found: ..." with the state unchanged; `none`
when the lookup finds a route and the command goes on. -/
def lookupFailure (U : Unicode) (urlPath : GoString) (w : World) : Option (Err × World) :=
  match routes.Read U w.routesJSON with
  | .error e => some (e, w)
  | .ok r =>
    match lookup U r urlPath with
    | none => some (.routeNotFound urlPath, w)
    | some _ => none

end cmd

namespace Example

/-- The flags `--flat`. -/
def flat : cmd.AddFlags :=
  { addPublic := false, addGuest := false, addFlat := true,
    addController := [], addAction := [], addNoView := false }

/-- No flags. -/
def noFlags : cmd.AddFlags :=
  { addPublic := false, addGuest := false, addFlat := false,
    addController := [], addAction := [], addNoView := false }

/-- The route that `route add //User/Profile` registers. -/
def userProfile : routes.Route :=
  { Path := lit "/User/Profile", Name := lit "User/Profile",
    Files := { React := lit "src/pages/User/Profile/index.page.tsx",
               View := lit "Views/User/Profile/Index.cshtml" },
    IsPublic := false, IsGuestOnly := false, Controller := [], Action := [],
    SEO := [(lit "description", lit "Page for User/Profile"), (lit "title", lit "User/Profile")] }

end Example

namespace Example

/-- The tree of the fresh project after `route add //User/Profile`. -/
def userProfileTree : Node :=
  .dir [(lit "proj", .dir [
    (lit "poyo.client", .dir [(lit "src", .dir [(lit "pages", .dir [(lit "User", .dir [
      (lit "Profile", .dir [
        (lit "index.page.tsx", .file (scaffold.ReactPage (lit "User/Profile")))])])])])]),
    (lit "Poyo.Server", .dir [
      (lit "Controllers", .dir []),
      (lit "Views", .dir [(lit "User", .dir [(lit "Profile", .dir [
        (lit "Index.cshtml", .file (scaffold.MVCView (lit "User/Profile")))])])])])])]

/-- The project after `route add //User/Profile` on the fresh tree. -/
def afterUserProfile : World :=
  { routesJSON := .json (routes.Marshal [userProfile]), fs := userProfileTree }

end Example

namespace cmd

/-- The `viewCandidate` of the adoption loop of `runSync`: the nested view
path of a name. -/
def viewCandidate (name : GoString) : GoString := lit "Views/" ++ name ++ lit "/Index.cshtml"

/-- The `viewCandidateFlat` of the adoption loop of `runSync`: the flat view
path of a name. -/
def viewCandidateFlat (name : GoString) : GoString := lit "Views/" ++ name ++ lit ".cshtml"

end cmd

namespace Spec

/-- The position at which a view is first listed; the length of the list
when it is not listed. -/
def position (views : List GoString) (v : GoString) : Nat :=
  views.findIdx (fun x => decide (x = v))

end Spec

/-! ## `os.Remove`, `os.ReadDir`, `internal/fsutil` and the passes of `runSync` -/

namespace os

/-- Go `os.Remove`: a file or an empty directory is taken out of its parent.
`none` is a failed call: nothing at the path, a file on the way, a directory
that has entries, or the root. -/
def Remove : Node → Path → Option Node
  | _, [] => none
  | .file _, _ :: _ => none
  | .dir es, [c] =>
    match es.lookup c with
    | none => none
    | some (.dir (_ :: _)) => none
    | some _ => some (.dir (es.filter (fun e => e.1 ≠ c)))
  | .dir es, c :: c2 :: cs =>
    match es.lookup c with
    | none => none
    | some child => (Remove child (c2 :: cs)).map (fun n => .dir (Node.setEntry es c n))

/-- Go `os.ReadDir`: the names of the entries of a directory. -/
def ReadDir (fs : Node) (p : Path) : Except Errno (List GoString) :=
  match Stat fs p with
  | .ok (.dir es) => .ok (es.map Prod.fst)
  | .ok (.file _) => .error .ENOTDIR
  | .error e => .error e

/-- The test `_, err := os.Stat(p); os.IsNotExist(err)`. -/
def statIsNotExist (fs : Node) (p : Path) : Bool :=
  match Stat fs p with
  | .ok _ => false
  | .error e => IsNotExist e

end os

/-- What `os.Stat` tells of a node without looking into it: a file with its
content, or a directory. -/
def Node.shallow : Node → Node
  | .file d => .file d
  | .dir _ => .dir []

namespace filepath

/-- The string `filepath.Abs` returns for a clean absolute path: `/` and the
components joined by `/`. -/
def Abs (p : Path) : GoString := lit "/" ++ strings.Join p (lit "/")

end filepath

namespace fsutil

/-- The loop of `DeleteEmptyParents`.  The directory `absDir` is held by its
components from the last to the first, so that `filepath.Dir(absDir)` is the
tail.  `none`: the loop does not end (`filepath.Dir("/")` is `/` again). -/
def DeleteEmptyParents.loop (absRootDir : GoString) : List GoString → Node → Option Node
  | [], fs =>
    if filepath.Abs [] ≠ absRootDir ∧ strings.HasPrefix (filepath.Abs []) absRootDir then
      match os.ReadDir fs [] with
      | .error _ => some fs
      | .ok entries => if entries.length = 0 then none else some fs
    else some fs
  | c :: up, fs =>
    if filepath.Abs (c :: up).reverse ≠ absRootDir ∧
        strings.HasPrefix (filepath.Abs (c :: up).reverse) absRootDir then
      match os.ReadDir fs (c :: up).reverse with
      | .error _ => some fs
      | .ok entries =>
        if entries.length = 0 then
          loop absRootDir up ((os.Remove fs (c :: up).reverse).getD fs)
        else some fs
    else some fs

/-- Go `fsutil.DeleteEmptyParents(filePath, rootDir)`: the tree it leaves. -/
def DeleteEmptyParents (filePath rootDir : Path) (fs : Node) : Option Node :=
  DeleteEmptyParents.loop (filepath.Abs rootDir) (filepath.Dir filePath).reverse fs

end fsutil

namespace cmd

/-- The `MissingRoute` of `runSync`. -/
structure MissingRoute where
  Route : routes.Route
  MissingFiles : List GoString
deriving DecidableEq

/-- The `missing` of one route in the forward pass of `runSync`. -/
def syncMissing (cfg : config.Config) (fs : Node) (rt : routes.Route) : List GoString :=
  let reactFullPath := filepath.Join cfg.ClientDir rt.Files.React
  let viewFullPath := filepath.Join cfg.ServerDir rt.Files.View
  let missing : List GoString := []
  let missing := if os.statIsNotExist fs reactFullPath then missing ++ [lit "React Page"]
    else missing
  let missing := if os.statIsNotExist fs viewFullPath then missing ++ [lit "MVC View"]
    else missing
  missing

/-- The forward pass of `runSync` (lines 35-57): the `missingRoutes`. -/
def syncForward (cfg : config.Config) (fs : Node) (r : List routes.Route) :
    List MissingRoute :=
  r.foldl
    (fun missingRoutes rt =>
      if (syncMissing cfg fs rt).length > 0 then
        missingRoutes ++ [{ Route := rt, MissingFiles := syncMissing cfg fs rt }]
      else missingRoutes)
    []

/-- The loop of the branch `delete_untracked` of `runSync` (lines 288-304)
over the selected files: the tree it leaves, `none` if a call of
`DeleteEmptyParents` does not return. -/
def syncDeleteUntracked (cfg : config.Config) : List GoString → Node → Option Node
  | [], fs => some fs
  | f :: rest, fs =>
    let fullPath :=
      if strings.HasPrefix f (lit "src") then filepath.Join cfg.ClientDir f
      else filepath.Join cfg.ServerDir f
    let root := if strings.HasPrefix f (lit "src") then cfg.ClientDir else cfg.ServerDir
    match os.Remove fs fullPath with
    | some fs1 =>
      match fsutil.DeleteEmptyParents fullPath root fs1 with
      | some fs2 => syncDeleteUntracked cfg rest fs2
      | none => none
    | none => syncDeleteUntracked cfg rest fs

end cmd

namespace Spec

/-- The cleanup as the specification words it: starting at a directory, an
empty directory other than the root is removed and the walk goes on at its
parent; the walk stops at the root, and at the first directory that is not
empty or cannot be read. -/
inductive Cleanup (root : Path) : Path → Node → Node → Prop where
  | root (fs : Node) : Cleanup root root fs fs
  | stop (dir : Path) (fs : Node) (h : os.ReadDir fs dir ≠ .ok []) : Cleanup root dir fs fs
  | step (dir : Path) (fs fs1 fs2 : Node) (hne : dir ≠ root) (hempty : os.ReadDir fs dir = .ok [])
      (hremove : os.Remove fs dir = some fs1) (hrest : Cleanup root (filepath.Dir dir) fs1 fs2) :
      Cleanup root dir fs fs2

end Spec

namespace Example

/-- The route that `route add /foo/index --flat` registers: its page and its
view are those of the nested route `/Foo`. -/
def fooIndex : routes.Route :=
  { Path := lit "/Foo/Index", Name := lit "Foo/Index",
    Files := { React := lit "src/pages/Foo/index.page.tsx", View := lit "Views/Foo/Index.cshtml" },
    IsPublic := false, IsGuestOnly := false, Controller := [], Action := [],
    SEO := [(lit "description", lit "Page for Foo/Index"), (lit "title", lit "Foo/Index")] }

/-- The tree of the fresh project after `route add /foo`. -/
def fooTree : Node :=
  .dir [(lit "proj", .dir [
    (lit "poyo.client", .dir [(lit "src", .dir [(lit "pages", .dir [(lit "Foo", .dir [
      (lit "index.page.tsx", .file (scaffold.ReactPage (lit "Foo")))])])])]),
    (lit "Poyo.Server", .dir [
      (lit "Controllers", .dir []),
      (lit "Views", .dir [(lit "Foo", .dir [
        (lit "Index.cshtml", .file (scaffold.MVCView (lit "Foo")))])])])])]

/-- The tree `fooTree` once the page of `/Foo` is deleted. -/
def fooTreeNoPage : Node :=
  .dir [(lit "proj", .dir [
    (lit "poyo.client", .dir [(lit "src", .dir [(lit "pages", .dir [(lit "Foo", .dir [])])])]),
    (lit "Poyo.Server", .dir [
      (lit "Controllers", .dir []),
      (lit "Views", .dir [(lit "Foo", .dir [
        (lit "Index.cshtml", .file (scaffold.MVCView (lit "Foo")))])])])])]

/-- A tree in which `src/pages/Foo` is a regular file, so that there is no
page `src/pages/Foo/index.page.tsx`. -/
def fooFileTree : Node :=
  .dir [(lit "proj", .dir [
    (lit "poyo.client", .dir [(lit "src", .dir [(lit "pages", .dir [
      (lit "Foo", .file (lit "notes\n"))])])]),
    (lit "Poyo.Server", .dir [
      (lit "Controllers", .dir []),
      (lit "Views", .dir [(lit "Foo", .dir [
        (lit "Index.cshtml", .file (scaffold.MVCView (lit "Foo")))])])])])]

end Example

namespace Example

/-- The fresh project with one page made by hand, not in the registry. -/
def onePage : Node :=
  .dir [(lit "proj", .dir [
    (lit "poyo.client", .dir [(lit "src", .dir [(lit "pages", .dir [
      (lit "Foo", .dir [(lit "index.page.tsx", .file (lit "export default 1;\n"))])])])]),
    (lit "Poyo.Server", .dir [(lit "Controllers", .dir [])])])]

end Example

namespace Spec

/-- A rune on which the case mappings are stable: lower-casing twice is
lower-casing once, lower-casing the title case of the lower-cased rune gives
the lower-cased rune back, and no case mapping makes a `/` of another rune.
Every ASCII rune is of this kind. -/
def CaseStable (U : Unicode) (c : Char) : Prop :=
  unicode.ToLower U (unicode.ToLower U c) = unicode.ToLower U c ∧
  unicode.ToLower U (unicode.ToTitle U (unicode.ToLower U c)) = unicode.ToLower U c ∧
  (c ≠ '/' → unicode.ToLower U c ≠ '/' ∧ unicode.ToTitle U (unicode.ToLower U c) ≠ '/')

end Spec

namespace Spec

/-- The number of method signatures for an action in a text: the number of
positions at which the pattern of `EnsureController` matches. -/
def signatureCount (U : Unicode) (action : GoString) : GoString → Nat
  | [] => if regexp.matchActionAt U action [] then 1 else 0
  | c :: s => (if regexp.matchActionAt U action (c :: s) then 1 else 0) + signatureCount U action s

/-- An identifier: ASCII letters, digits and underscores. -/
def Identifier (s : GoString) : Prop := ∀ c ∈ s, asciiSeparator c = false

/-- A text without a rune of the class `\s`. -/
def NoSpace (s : GoString) : Prop := ∀ c ∈ s, regexp.isSpace c = false

end Spec

namespace regexp

/-- A literal cannot match at the start of a text that begins with `t`: an
ASCII rune of the literal meets an ASCII rune of `t` to which it does not
fold. -/
def clash : GoString → GoString → Bool
  | x :: l, y :: t =>
    if strings.equalFoldRune Unicode.ascii x y then clash l t
    else decide (x.toNat < 0x80 ∧ y.toNat < 0x80)
  | _, _ => false

/-- No match of the pattern starts inside the text `w`, whatever follows
`w`. -/
def noStart (w : GoString) : Bool :=
  w.tails.all (fun t => t.isEmpty || clash (lit "IActionResult") t)

end regexp

namespace Example

/-- A project with its client and server directories and nothing else: no
`Controllers` directory, no page, view or controller file. -/
def bareTree : Node :=
  .dir [(lit "proj", .dir [
    (lit "poyo.client", .dir []),
    (lit "Poyo.Server", .dir [])])]

end Example

/-! ## `path/filepath`, `sort` and `fsutil.FindFiles`: the reverse pass of `runSync` -/

namespace sort

/-- Go `sort.Strings`: the strings in ascending order of `<`. -/
def Strings (x : List GoString) : List GoString :=
  x.insertionSort (fun a b => strings.less b a = false)

end sort

mutual
/-- A tree as a file system holds it: in every directory the names of the
entries are pairwise distinct and none contains the separator `/`. -/
def Node.wellFormed : Node → Bool
  | .file _ => true
  | .dir es => decide (es.map Prod.fst).Nodup && Node.wellFormedEntries es
/-- The entries of a directory of a well-formed tree. -/
def Node.wellFormedEntries : List (GoString × Node) → Bool
  | [] => true
  | (c, n) :: es => decide ('/' ∉ c) && Node.wellFormed n && Node.wellFormedEntries es
end

mutual
/-- Go `filepath.Walk` from a node: the paths it visits, relative to the
node, in the order of the visit, each with its `info.IsDir()`.  A file is
visited alone.  A directory is visited, then `readDirNames` reads its names
and sorts them with `sort.Strings`, and each name is looked up and walked in
that order. -/
def Node.walk : Node → List (Path × Bool)
  | .file _ => [([], false)]
  | .dir es =>
    ([], true) :: (sort.Strings (es.map Prod.fst)).flatMap (fun name =>
      match (Node.walkEntries es).lookup name with
      | some visited => visited.map (fun v => (name :: v.1, v.2))
      | none => [])
/-- The walk from each entry of a directory, under the entry's name. -/
def Node.walkEntries : List (GoString × Node) → List (GoString × List (Path × Bool))
  | [] => []
  | (c, n) :: es => (c, Node.walk n) :: Node.walkEntries es
end

namespace filepath

/-- The order of the visit of `filepath.Walk`: a path comes before the paths
below it, and of two paths that part at a component the one with the smaller
component comes first. -/
def walkLess : Path → Path → Bool
  | [], [] => false
  | [], _ :: _ => true
  | _ :: _, [] => false
  | a :: p, b :: q => strings.less a b || (decide (a = b) && walkLess p q)

/-- Go `filepath.Base` on a path string: the trailing slashes are cut, then
what follows the last slash is kept. -/
def Base (path : GoString) : GoString :=
  if path = [] then lit "."
  else
    let path := (path.reverse.dropWhile (fun c => c == '/')).reverse
    let path := (path.reverse.takeWhile (fun c => c != '/')).reverse
    if path = [] then lit "/" else path

/-- Go `filepath.ToSlash` where the separator is `/`: the string itself. -/
def ToSlash (path : GoString) : GoString := path

/-- The components of `filepath.Rel`: what is common at the start of both
paths is dropped, every component left of the base is a `..`, and the
components left of the target follow. -/
def Rel.go : Path → Path → List GoString
  | b :: base, t :: targ =>
    if b = t then Rel.go base targ
    else (b :: base).map (fun _ => lit "..") ++ t :: targ
  | base, targ => base.map (fun _ => lit "..") ++ targ

/-- Go `filepath.Rel(basepath, targpath)` on two clean absolute paths (it
has no error there): `.` when they are the same path. -/
def Rel (basepath targpath : Path) : GoString :=
  match Rel.go basepath targpath with
  | [] => lit "."
  | comps => strings.Join comps (lit "/")

end filepath

namespace fsutil

/-- Go `fsutil.FindFiles(dir, predicate, rootDir)`: nothing when `os.Stat`
fails on `dir`; otherwise the walk from `dir`, of which the directories are
passed over and the files whose path string satisfies the predicate are
listed, in the order of the visit, relative to `rootDir`. -/
def FindFiles (fs : Node) (dir : Path) (predicate : GoString → Bool) (rootDir : Path) :
    List GoString :=
  match os.Stat fs dir with
  | .error _ => []
  | .ok n =>
    (n.walk.filter (fun v => !v.2 && predicate (filepath.Abs (dir ++ v.1)))).map
      (fun v => filepath.ToSlash (filepath.Rel rootDir (dir ++ v.1)))

end fsutil

namespace cmd

/-- The predicate of the views in the reverse pass of `runSync` (lines
69-72). -/
def syncViewPredicate (path : GoString) : Bool :=
  let name := filepath.Base path
  strings.HasSuffix path (lit ".cshtml") && !strings.Contains path (lit "Shared") &&
    !strings.HasPrefix name (lit "_")

/-- The `viewPages` of `runSync` (lines 67-74). -/
def syncViewPages (cfg : config.Config) (fs : Node) : List GoString :=
  fsutil.FindFiles fs (filepath.Join cfg.ServerDir (lit "Views")) syncViewPredicate cfg.ServerDir

/-- The `untrackedViews` of `runSync` (lines 78-82 and 90-95): the view
pages that no route of the registry has as its view, in the order of
`viewPages`. -/
def syncUntrackedViews (cfg : config.Config) (fs : Node) (r : List routes.Route) :
    List GoString :=
  (syncViewPages cfg fs).filter
    (fun f => decide (filepath.ToSlash f ∉ r.map (fun rt => filepath.ToSlash rt.Files.View)))

end cmd

namespace Example

/-- A project with the page of `/Foo` and four views made by hand: the flat
and the nested view of `Foo` (the flat one first among the entries of
`Views`), a view `Bar.cshtml` and a layout under `Shared`. -/
def twoViews : Node :=
  .dir [(lit "proj", .dir [
    (lit "poyo.client", .dir [(lit "src", .dir [(lit "pages", .dir [
      (lit "Foo", .dir [(lit "index.page.tsx", .file (lit "export default 1;\n"))])])])]),
    (lit "Poyo.Server", .dir [
      (lit "Controllers", .dir []),
      (lit "Views", .dir [
        (lit "Foo.cshtml", .file (lit "flat\n")),
        (lit "Shared", .dir [(lit "_Layout.cshtml", .file (lit "layout\n"))]),
        (lit "Foo", .dir [(lit "Index.cshtml", .file (lit "nested\n"))]),
        (lit "Bar.cshtml", .file (lit "bar\n"))])])])]

end Example

/-! # Theorems -/

/-! ## Strings -/

theorem strings.Title_go_length (U : Unicode) :
    ∀ (s : GoString) (prev : Char), (strings.Title.go U prev s).length = s.length
  | [], _ => rfl
  | _ :: rs, _ => by simp [strings.Title.go, strings.Title_go_length U rs]

/-- The rune `strings.Title` produces at position `i`. -/
theorem strings.Title_go_getElem? (U : Unicode) :
    ∀ (s : GoString) (prev : Char) (i : Nat), i < s.length →
      (strings.Title.go U prev s)[i]? =
        some (if strings.isSeparator U (if i = 0 then prev else s.getD (i - 1) ' ') = true
              then unicode.ToTitle U (s.getD i ' ') else s.getD i ' ')
  | [], _, _, h => by simp at h
  | r :: rs, prev, 0, _ => by simp [strings.Title.go]
  | r :: rs, prev, i + 1, h => by
    have h2 : i < rs.length := by simpa using h
    have ih := strings.Title_go_getElem? U rs r i h2
    simp only [strings.Title.go, List.getElem?_cons_succ, ih]
    cases i with
    | zero => simp
    | succ j => simp

theorem strings.Title_ToLower_eq_wordCase (U : Unicode) (seg : GoString) :
    strings.Title U (strings.ToLower U seg) = Spec.wordCase U seg := by
  apply List.ext_getElem?
  intro i
  by_cases hi : i < seg.length
  · have hl : i < (strings.ToLower U seg).length := by simpa [strings.ToLower] using hi
    rw [strings.Title, strings.Title_go_getElem? U _ _ i hl]
    simp only [Spec.wordCase, strings.ToLower]
    rw [List.getElem?_map, List.getElem?_range hi]
    simp only [Option.map_some']
    have hget : ∀ j, j < seg.length →
        (List.map (unicode.ToLower U) seg).getD j ' ' = unicode.ToLower U (seg.getD j ' ') := by
      intro j hj
      simp [List.getD, List.getElem?_map, List.getElem?_eq_getElem hj]
    rw [hget i hi]
    cases i with
    | zero =>
      have hsp : strings.isSeparator U ' ' = true := rfl
      simp [hsp]
    | succ j =>
      have hj : j < seg.length := by omega
      simp only [Nat.add_sub_cancel, Nat.succ_ne_zero, if_false, false_or]
      rw [hget j hj]
  · have h1 : (strings.Title U (strings.ToLower U seg)).length ≤ i := by
      simp [strings.Title, strings.Title_go_length, strings.ToLower]; omega
    have h2 : (Spec.wordCase U seg).length ≤ i := by
      simp [Spec.wordCase]; omega
    rw [List.getElem?_eq_none h1, List.getElem?_eq_none h2]

/-- ASCII runes can be checked one by one. -/
theorem ascii_cases (P : Char → Prop) (h : ∀ n, n < 128 → P (Char.ofNat n))
    (c : Char) (hc : c.toNat ≤ 0x7F) : P c := by
  have := h c.toNat (by omega)
  simpa using this

theorem unicode.ToLower_ascii (U : Unicode) (c : Char) (hc : c.toNat ≤ 0x7F) :
    unicode.ToLower U c = asciiLower c := by
  simp [unicode.ToLower, asciiLower, unicode.MaxASCII, hc]

theorem unicode.ToUpper_ascii (U : Unicode) (c : Char) (hc : c.toNat ≤ 0x7F) :
    unicode.ToUpper U c = asciiUpper c := by
  simp [unicode.ToUpper, asciiUpper, unicode.MaxASCII, hc]

theorem unicode.ToTitle_ascii (U : Unicode) (c : Char) (hc : c.toNat ≤ 0x7F) :
    unicode.ToTitle U c = asciiUpper c := by
  simp [unicode.ToTitle, asciiUpper, unicode.MaxASCII, hc]

theorem strings.isSeparator_ascii (U : Unicode) (c : Char) (hc : c.toNat ≤ 0x7F) :
    strings.isSeparator U c = asciiSeparator c := by
  simp [strings.isSeparator, asciiSeparator, hc]

set_option maxRecDepth 100000 in
theorem asciiLower_facts : ∀ n, n < 128 →
    (asciiLower (Char.ofNat n)).toNat ≤ 0x7F ∧
    (asciiSeparator (Char.ofNat n) = false →
      asciiSeparator (asciiLower (Char.ofNat n)) = false) ∧
    asciiUpper (asciiLower (Char.ofNat n)) = asciiUpper (Char.ofNat n) := by
  decide

/-- On a run of non-separators that follows a non-separator, `strings.Title`
changes nothing. -/
theorem strings.Title_go_of_no_separator (U : Unicode) :
    ∀ (s : GoString) (prev : Char), strings.isSeparator U prev = false →
      (∀ c ∈ s, strings.isSeparator U c = false) → strings.Title.go U prev s = s
  | [], _, _, _ => rfl
  | r :: rs, prev, hp, hs => by
    have hr : strings.isSeparator U r = false := hs r (List.mem_cons_self _ _)
    have ih := strings.Title_go_of_no_separator U rs r hr
      (fun c hc => hs c (List.mem_cons_of_mem _ hc))
    simp [strings.Title.go, hp, ih]

/-- On a segment of ASCII letters, digits and underscores the rewriting of
`runAdd` is the title-casing of the specification. -/
theorem strings.Title_ToLower_eq_titleCase (U : Unicode) (seg : GoString)
    (h : ∀ c ∈ seg, c.toNat ≤ 0x7F ∧ strings.isSeparator U c = false) :
    strings.Title U (strings.ToLower U seg) = Spec.titleCase U seg := by
  have key : ∀ c ∈ seg, (unicode.ToLower U c).toNat ≤ 0x7F ∧
      strings.isSeparator U (unicode.ToLower U c) = false ∧
      unicode.ToTitle U (unicode.ToLower U c) = unicode.ToUpper U c := by
    intro c hc
    obtain ⟨ha, hs⟩ := h c hc
    have hf := ascii_cases
      (fun c => (asciiLower c).toNat ≤ 0x7F ∧
        (asciiSeparator c = false → asciiSeparator (asciiLower c) = false) ∧
        asciiUpper (asciiLower c) = asciiUpper c) asciiLower_facts c ha
    obtain ⟨f1, f2, f3⟩ := hf
    rw [unicode.ToLower_ascii U c ha]
    refine ⟨f1, ?_, ?_⟩
    · rw [strings.isSeparator_ascii U _ f1]
      exact f2 (by rw [← strings.isSeparator_ascii U c ha]; exact hs)
    · rw [unicode.ToTitle_ascii U _ f1, unicode.ToUpper_ascii U c ha]; exact f3
  cases seg with
  | nil => rfl
  | cons r rs =>
    have hsp : strings.isSeparator U ' ' = true := rfl
    obtain ⟨_, k2, k3⟩ := key r (List.mem_cons_self _ _)
    have hrest := strings.Title_go_of_no_separator U (rs.map (unicode.ToLower U))
      (unicode.ToLower U r) k2 (by
        intro c hc
        obtain ⟨d, hd, rfl⟩ := List.mem_map.1 hc
        exact (key d (List.mem_cons_of_mem _ hd)).2.1)
    simp [strings.Title, strings.ToLower, strings.Title.go, hsp, k3, hrest, Spec.titleCase]

theorem strings.Contains_singleton (s : GoString) (c : Char) :
    strings.Contains s [c] = decide (c ∈ s) := by
  have : [c] <:+: s ↔ c ∈ s := by
    constructor
    · rintro ⟨a, b, rfl⟩; simp
    · intro hm
      obtain ⟨a, b, rfl⟩ := List.mem_iff_append.1 hm
      exact ⟨a, b, by simp⟩
  simp [strings.Contains, this]

/-! ## C1: normalization of the route path -/

/-- C1, as amended: for every raw path without a colon, `runAdd` yields
`Name` = the non-empty `/`-separated segments of the raw path, each
lower-cased and then title-cased at its first rune and at every rune that
follows a separator of `strings.Title` (an ASCII rune other than a letter, a
digit or an underscore, or a space above ASCII), joined by `/`, and
`Path = "/" + Name`.  On a segment of ASCII letters, digits and underscores
this is "first character upper, rest lower", and `/admin/users` gives
`/Admin/Users` and `Admin/Users`. -/
theorem C1_normalize (U : Unicode) (raw : GoString) (h : ':' ∉ raw) :
    cmd.normalize U raw = .ok (lit "/" ++ cmd.name U raw, cmd.name U raw) ∧
    cmd.name U raw =
      strings.Join (((strings.Split raw '/').filter (fun p => p ≠ [])).map (Spec.wordCase U))
        (lit "/") ∧
    (∀ seg : GoString, (∀ c ∈ seg, c.toNat ≤ 0x7F ∧ strings.isSeparator U c = false) →
      Spec.wordCase U seg = Spec.titleCase U seg) ∧
    cmd.normalize U (lit "/admin/users") = .ok (lit "/Admin/Users", lit "Admin/Users") := by
  refine ⟨?_, ?_, ?_, rfl⟩
  · have hc : strings.Contains raw (lit ":") = false := by
      have : lit ":" = [':'] := rfl
      rw [this, strings.Contains_singleton]; simpa using h
    unfold cmd.normalize
    rw [hc]
    rfl
  · simp only [cmd.name, cmd.pascalParts]
    congr 1
    apply List.map_congr_left
    intro p _
    exact strings.Title_ToLower_eq_wordCase U p
  · intro seg hseg
    rw [← strings.Title_ToLower_eq_wordCase]
    exact strings.Title_ToLower_eq_titleCase U seg hseg

/-- C1, witness: the path `/admin/users`. -/
theorem C1_normalize_witness :
    ':' ∉ lit "/admin/users" ∧
    cmd.normalize Unicode.ascii (lit "/admin/users")
      = .ok (lit "/" ++ cmd.name Unicode.ascii (lit "/admin/users"),
             cmd.name Unicode.ascii (lit "/admin/users")) :=
  ⟨by decide, (C1_normalize Unicode.ascii (lit "/admin/users") (by decide)).1⟩

/-- C1, counterexample: the claim as stated (every segment becomes first
character upper, rest lower) fails on `user-profile`, which `runAdd` turns
into `User-Profile`. -/
theorem C1_counterexample :
    ¬ (∀ (U : Unicode) (raw : GoString), ':' ∉ raw →
        cmd.normalize U raw = .ok (lit "/" ++ Spec.Name U raw, Spec.Name U raw)) := by
  intro hall
  have h := hall Unicode.ascii (lit "user-profile") (by decide)
  have h2 : cmd.normalize Unicode.ascii (lit "user-profile")
      = .ok (lit "/User-Profile", lit "User-Profile") := rfl
  have h3 : Spec.Name Unicode.ascii (lit "user-profile") = lit "User-profile" := rfl
  rw [h2, h3] at h
  exact absurd (Prod.mk.inj (Except.ok.inj h)).2 (by decide)

/-! ## C2: path resolution -/

theorem strings.Join_cons (sep x : GoString) (xs : List GoString) :
    strings.Join (x :: xs) sep = x ++ (xs.map (fun p => sep ++ p)).flatten := by
  induction xs generalizing x with
  | nil => simp [strings.Join, List.intercalate]
  | cons y ys ih =>
    have := ih y
    simp only [strings.Join, List.intercalate, List.intersperse_cons_cons, List.flatten_cons,
      List.map_cons] at this ⊢
    rw [this]
    simp

theorem routes.ResolvePaths.basePath_loop (xs : List GoString) (k : Nat) (acc : GoString) :
    (xs.enumFrom (k + 1)).foldl
      (fun acc (ip : Nat × GoString) => (if ip.1 > 0 then acc ++ lit "/" else acc) ++ ip.2) acc
      = acc ++ (xs.map (fun p => lit "/" ++ p)).flatten := by
  induction xs generalizing k acc with
  | nil => simp
  | cons x xs ih =>
    simp only [List.enumFrom_cons, List.foldl_cons, List.map_cons, List.flatten_cons]
    rw [ih]
    simp

/-- The indexed loop that builds `basePath` joins the parent with `/` and
closes it with `/`. -/
theorem routes.ResolvePaths.basePath_eq (parent : List GoString) :
    routes.ResolvePaths.basePath parent =
      if parent = [] then [] else strings.Join parent (lit "/") ++ lit "/" := by
  cases parent with
  | nil => rfl
  | cons x xs =>
    simp only [routes.ResolvePaths.basePath, List.length_cons, gt_iff_lt, Nat.zero_lt_succ,
      if_true, List.enum, List.enumFrom_cons, List.foldl_cons, reduceCtorEq, if_false]
    rw [routes.ResolvePaths.basePath_loop, strings.Join_cons]
    simp

theorem routes.ResolvePaths.foldl_step_segment (s : GoString) (hs : '/' ∉ s ∧ '\\' ∉ s)
    (ps : List GoString) (cur : GoString) :
    s.foldl routes.ResolvePaths.step (ps, cur) = (ps, cur ++ s) := by
  induction s generalizing cur with
  | nil => simp
  | cons c cs ih =>
    have h1 : c ≠ '/' := fun h => hs.1 (by simp [h])
    have h2 : c ≠ '\\' := fun h => hs.2 (by simp [h])
    have hcs : '/' ∉ cs ∧ '\\' ∉ cs :=
      ⟨fun h => hs.1 (List.mem_cons_of_mem _ h), fun h => hs.2 (List.mem_cons_of_mem _ h)⟩
    simp only [List.foldl_cons]
    rw [show routes.ResolvePaths.step (ps, cur) c = (ps, cur ++ [c]) by
      simp [routes.ResolvePaths.step, h1, h2]]
    rw [ih hcs]
    simp

theorem routes.ResolvePaths.foldl_step_rest (rest : List GoString)
    (hrest : ∀ s ∈ rest, s ≠ [] ∧ '/' ∉ s ∧ '\\' ∉ s) (ps : List GoString) (cur : GoString)
    (hcur : cur ≠ []) :
    (let st := ((rest.map (fun p => lit "/" ++ p)).flatten).foldl routes.ResolvePaths.step (ps, cur)
     if st.2 ≠ [] then st.1 ++ [st.2] else st.1) = ps ++ cur :: rest := by
  induction rest generalizing ps cur with
  | nil => simp [hcur]
  | cons r rest ih =>
    obtain ⟨hr, hr2⟩ := hrest r (List.mem_cons_self _ _)
    have h1 : routes.ResolvePaths.step (ps, cur) '/' = (ps ++ [cur], []) := by
      simp [routes.ResolvePaths.step, hcur]
    have h3 := ih (fun s hs => hrest s (List.mem_cons_of_mem _ hs)) (ps ++ [cur]) r hr
    simp only [List.map_cons, List.flatten_cons, List.foldl_append] at h3 ⊢
    have hl : lit "/" = ['/'] := rfl
    rw [hl]
    simp only [List.foldl_cons, List.foldl_nil, h1]
    rw [routes.ResolvePaths.foldl_step_segment r hr2]
    simp only [List.nil_append]
    rw [hl] at h3
    rw [h3]
    simp

/-- On a name that is the `/`-join of non-empty segments without `/` and
`\`, the scan of `ResolvePaths` recovers the segments. -/
theorem routes.ResolvePaths.parts_Join (segs : List GoString) (hne : segs ≠ [])
    (hsegs : ∀ s ∈ segs, s ≠ [] ∧ '/' ∉ s ∧ '\\' ∉ s) :
    routes.ResolvePaths.parts (strings.Join segs (lit "/")) = segs := by
  cases segs with
  | nil => exact absurd rfl hne
  | cons s rest =>
    obtain ⟨hs, hs2⟩ := hsegs s (List.mem_cons_self _ _)
    have h := routes.ResolvePaths.foldl_step_rest rest
      (fun t ht => hsegs t (List.mem_cons_of_mem _ ht)) [] s hs
    simp only [routes.ResolvePaths.parts, strings.Join_cons, List.foldl_append]
    rw [routes.ResolvePaths.foldl_step_segment s hs2]
    simpa using h

theorem List.modifyHead_modifyHead' {α : Type} (f g : α → α) :
    ∀ l : List α, (l.modifyHead g).modifyHead f = l.modifyHead (f ∘ g)
  | [] => rfl
  | _ :: _ => rfl

theorem List.modifyHead_nil_append {α : Type} :
    ∀ l : List (List α), l.modifyHead (fun x => [] ++ x) = l
  | [] => rfl
  | _ :: _ => rfl

/-- The scan of the flat branch, started in any state, against the cut of
the specification. -/
theorem routes.ResolvePaths.foldl_step_pieces :
    ∀ (name : GoString) (ps : List GoString) (cur : GoString),
      (let st := name.foldl routes.ResolvePaths.step (ps, cur)
       if st.2 ≠ [] then st.1 ++ [st.2] else st.1)
      = ps ++ ((name.splitOnP (fun c => c == '/' || c == '\\')).modifyHead (cur ++ ·)).filter
          (fun p => p ≠ [])
  | [], ps, cur => by
    by_cases h : cur = []
    · simp [h]
    · simp [h]
  | c :: cs, ps, cur => by
    have ih := routes.ResolvePaths.foldl_step_pieces cs
    rw [List.foldl_cons, List.splitOnP_cons]
    by_cases hc : c = '/' ∨ c = '\\'
    · have hp : (c == '/' || c == '\\') = true := by
        rcases hc with rfl | rfl <;> rfl
      rw [if_pos hp]
      by_cases hcur : cur = []
      · subst hcur
        have hs : routes.ResolvePaths.step (ps, []) c = (ps, []) := by
          simp [routes.ResolvePaths.step, hc]
        rw [hs, ih ps [], List.modifyHead_nil_append]
        simp
      · have hs : routes.ResolvePaths.step (ps, cur) c = (ps ++ [cur], []) := by
          simp [routes.ResolvePaths.step, hc, hcur]
        rw [hs, ih (ps ++ [cur]) [], List.modifyHead_nil_append]
        simp [hcur]
    · have hp : ¬ (c == '/' || c == '\\') = true := by
        simpa using hc
      rw [if_neg hp]
      have hs : routes.ResolvePaths.step (ps, cur) c = (ps, cur ++ [c]) := by
        simp [routes.ResolvePaths.step, hc]
      rw [hs, ih ps (cur ++ [c]), List.modifyHead_modifyHead']
      congr 2
      cases List.splitOnP (fun c => c == '/' || c == '\\') cs <;> simp [List.modifyHead]

/-- The `parts` of the flat branch are the pieces of the specification. -/
theorem routes.ResolvePaths.parts_eq_pieces (name : GoString) :
    routes.ResolvePaths.parts name = Spec.pieces name := by
  have h := routes.ResolvePaths.foldl_step_pieces name [] []
  unfold routes.ResolvePaths.parts Spec.pieces
  rw [h]
  cases List.splitOnP (fun c => c == '/' || c == '\\') name <;> simp [List.modifyHead]

/-- C2, as amended: nested resolution is `src/pages/<Name>/index.page.tsx`
and `Views/<Name>/Index.cshtml` for every `Name`.  Flat resolution cuts
`Name` at every `/` and every `\` and drops empty pieces; when at least one
piece remains, with `leaf` the last and `parent` the others, it is
`src/pages/<parent/><lowercase(leaf)>.page.tsx` and
`Views/<parent/><leaf>.cshtml`, `parent/` omitted when empty.  For a `Name`
that is the `/`-join of non-empty segments free of `/` and `\` the pieces
are those segments, and `Admin/Users` gives
`src/pages/Admin/users.page.tsx` and `Views/Admin/Users.cshtml`. -/
theorem C2_ResolvePaths (U : Unicode) (name : GoString) (parent : List GoString)
    (leaf : GoString) (hpieces : Spec.pieces name = parent ++ [leaf]) :
    routes.ResolvePaths U name false = some {
      React := lit "src/pages/" ++ name ++ lit "/index.page.tsx"
      View := lit "Views/" ++ name ++ lit "/Index.cshtml" } ∧
    routes.ResolvePaths U name true = some {
      React := lit "src/pages/"
        ++ (if parent = [] then [] else strings.Join parent (lit "/") ++ lit "/")
        ++ strings.ToLower U leaf ++ lit ".page.tsx"
      View := lit "Views/"
        ++ (if parent = [] then [] else strings.Join parent (lit "/") ++ lit "/")
        ++ leaf ++ lit ".cshtml" } ∧
    (∀ segs : List GoString, segs ≠ [] → (∀ s ∈ segs, s ≠ [] ∧ '/' ∉ s ∧ '\\' ∉ s) →
      Spec.pieces (strings.Join segs (lit "/")) = segs) ∧
    routes.ResolvePaths U (lit "Admin/Users") true = some {
      React := lit "src/pages/Admin/users.page.tsx"
      View := lit "Views/Admin/Users.cshtml" } := by
  have hparts : routes.ResolvePaths.parts name = parent ++ [leaf] := by
    rw [routes.ResolvePaths.parts_eq_pieces]; exact hpieces
  refine ⟨rfl, ?_, fun segs hne hs => ?_, rfl⟩
  · have hlast : (parent ++ [leaf]).getLast? = some leaf := by simp
    simp only [routes.ResolvePaths, if_true, hparts, hlast, List.length_append,
      List.length_singleton, Nat.add_sub_cancel, List.take_left',
      routes.ResolvePaths.basePath_eq]
  · rw [← routes.ResolvePaths.parts_eq_pieces]
    exact routes.ResolvePaths.parts_Join segs hne hs

/-- C2, witness: the name `Admin/Users`, whose pieces are `Admin` and
`Users`. -/
theorem C2_ResolvePaths_witness :
    Spec.pieces (lit "Admin/Users") = [lit "Admin"] ++ [lit "Users"] ∧
    routes.ResolvePaths Unicode.ascii (lit "Admin/Users") true = some {
      React := lit "src/pages/"
        ++ (if [lit "Admin"] = [] then [] else strings.Join [lit "Admin"] (lit "/") ++ lit "/")
        ++ strings.ToLower Unicode.ascii (lit "Users") ++ lit ".page.tsx"
      View := lit "Views/"
        ++ (if [lit "Admin"] = [] then [] else strings.Join [lit "Admin"] (lit "/") ++ lit "/")
        ++ lit "Users" ++ lit ".cshtml" } :=
  ⟨rfl, (C2_ResolvePaths Unicode.ascii (lit "Admin/Users") [lit "Admin"] (lit "Users") rfl).2.1⟩

/-- C2, counterexample: with the segments of `Name` read as its
`/`-separated pieces, the claim fails on the name `A\B`: the code also cuts
at the backslash and answers `src/pages/A/b.page.tsx` and
`Views/A/B.cshtml`. -/
theorem C2_counterexample :
    ¬ (∀ (U : Unicode) (name : GoString),
        routes.ResolvePaths U name true = Spec.flatFiles U name) := by
  intro hall
  have h := hall Unicode.ascii (lit "A\\B")
  have h1 : routes.ResolvePaths Unicode.ascii (lit "A\\B") true = some {
      React := lit "src/pages/A/b.page.tsx", View := lit "Views/A/B.cshtml" } := rfl
  have h2 : Spec.flatFiles Unicode.ascii (lit "A\\B") = some {
      React := lit "src/pages/a\\b.page.tsx", View := lit "Views/A\\B.cshtml" } := rfl
  rw [h1, h2] at h
  exact absurd h (by decide)

/-! ## The order on strings -/

theorem strings.less_irrefl : ∀ a : GoString, strings.less a a = false
  | [] => rfl
  | c :: s => by simp [strings.less, strings.less_irrefl s]

theorem strings.less_asymm : ∀ a b : GoString, strings.less a b = true → strings.less b a = false
  | [], [], h => by simp [strings.less] at h
  | [], _ :: _, _ => rfl
  | _ :: _, [], h => by simp [strings.less] at h
  | c :: s, d :: t, h => by
    simp only [strings.less, Bool.or_eq_true, Bool.and_eq_true, decide_eq_true_eq] at h
    simp only [strings.less, Bool.or_eq_false_iff, Bool.and_eq_false_iff, decide_eq_false_iff_not]
    rcases h with h | ⟨rfl, h⟩
    · refine ⟨by omega, Or.inl ?_⟩
      rintro rfl
      omega
    · exact ⟨by omega, Or.inr (strings.less_asymm s t h)⟩

theorem strings.less_trans : ∀ a b c : GoString,
    strings.less a b = true → strings.less b c = true → strings.less a c = true
  | [], [], _, h, _ => by simp [strings.less] at h
  | [], _ :: _, [], _, h => by simp [strings.less] at h
  | [], _ :: _, _ :: _, _, _ => rfl
  | _ :: _, [], _, h, _ => by simp [strings.less] at h
  | _ :: _, _ :: _, [], _, h => by simp [strings.less] at h
  | x :: s, y :: t, z :: u, h1, h2 => by
    simp only [strings.less, Bool.or_eq_true, Bool.and_eq_true, decide_eq_true_eq] at h1 h2 ⊢
    rcases h1 with h1 | ⟨rfl, h1⟩
    · rcases h2 with h2 | ⟨rfl, _⟩
      · exact Or.inl (by omega)
      · exact Or.inl h1
    · rcases h2 with h2 | ⟨rfl, h2⟩
      · exact Or.inl h2
      · exact Or.inr ⟨rfl, strings.less_trans s t u h1 h2⟩

theorem Char.eq_of_toNat_eq (a b : Char) (h : a.toNat = b.toNat) : a = b := by
  have := congrArg Char.ofNat h
  simpa using this

theorem strings.less_trichotomy : ∀ a b : GoString,
    strings.less a b = false → strings.less b a = false → a = b
  | [], [], _, _ => rfl
  | [], _ :: _, h, _ => by simp [strings.less] at h
  | _ :: _, [], _, h => by simp [strings.less] at h
  | c :: s, d :: t, h1, h2 => by
    simp only [strings.less, Bool.or_eq_false_iff, Bool.and_eq_false_iff,
      decide_eq_false_iff_not] at h1 h2
    have hcd : c = d := Char.eq_of_toNat_eq c d (by omega)
    subst hcd
    have h1' : strings.less s t = false := by
      rcases h1.2 with h | h
      · exact absurd rfl h
      · exact h
    have h2' : strings.less t s = false := by
      rcases h2.2 with h | h
      · exact absurd rfl h
      · exact h
    rw [strings.less_trichotomy s t h1' h2']

/-- The relation "not after" on strings is transitive. -/
theorem strings.notLess_trans (a b c : GoString)
    (h1 : strings.less b a = false) (h2 : strings.less c b = false) :
    strings.less c a = false := by
  cases hca : strings.less c a with
  | false => rfl
  | true =>
    cases hab : strings.less a b with
    | true => rw [strings.less_trans c a b hca hab] at h2; cases h2
    | false =>
      have := strings.less_trichotomy a b hab h1
      subst this
      rw [hca] at h2; cases h2

/-! ## C7: the order of the serialized routes -/

theorem routes.sortSlice_perm (rs : List routes.Route) : (routes.sortSlice rs).Perm rs :=
  List.perm_insertionSort _ rs

theorem routes.sortSlice_sorted (rs : List routes.Route) :
    (routes.sortSlice rs).Pairwise (fun a b => strings.less b.Path a.Path = false) := by
  haveI : IsTotal routes.Route (fun a b => strings.less b.Path a.Path = false) :=
    ⟨fun a b => by
      cases h : strings.less b.Path a.Path with
      | false => exact Or.inl rfl
      | true => exact Or.inr (strings.less_asymm _ _ h)⟩
  haveI : IsTrans routes.Route (fun a b => strings.less b.Path a.Path = false) :=
    ⟨fun a b c h1 h2 => strings.notLess_trans a.Path b.Path c.Path h1 h2⟩
  exact List.sorted_insertionSort (fun a b => strings.less b.Path a.Path = false) rs

/-- C7: for every list of routes, what `Write` serializes is the array of
the encodings of a list `out` that is a permutation of the input and is in
ascending order of `Path` (no route is followed by one with a smaller
`Path`), whatever the order of the input. -/
theorem C7_Write_sorted (rs : List routes.Route) :
    ∃ out : List routes.Route,
      out.Perm rs ∧
      out.Pairwise (fun a b => strings.less b.Path a.Path = false) ∧
      ∀ file : routes.RegistryFile, file ≠ .directory →
        routes.Write file rs = .ok (.json (.array (out.map routes.marshalRoute))) := by
  refine ⟨routes.sortSlice rs, routes.sortSlice_perm rs, routes.sortSlice_sorted rs, ?_⟩
  intro file hfile
  cases file with
  | directory => exact absurd rfl hfile
  | absent => rfl
  | text => rfl
  | json doc => rfl

/-! ## C8: `Write` then `Read` -/

theorem StringMap.set_append (k v : GoString) :
    ∀ m : StringMap, (∀ x ∈ m, strings.less x.1 k = true) → StringMap.set m k v = m ++ [(k, v)]
  | [], _ => rfl
  | (k1, v1) :: m, h => by
    have h1 : strings.less k1 k = true := h (k1, v1) (List.mem_cons_self _ _)
    have hne : k ≠ k1 := by
      rintro rfl
      rw [strings.less_irrefl] at h1; cases h1
    have h2 : strings.less k k1 = false := strings.less_asymm _ _ h1
    simp only [StringMap.set, hne, if_false, h2, Bool.false_eq_true, List.cons_append]
    rw [StringMap.set_append k v m (fun x hx => h x (List.mem_cons_of_mem _ hx))]

theorem routes.unmarshalMap_members (rest : StringMap) :
    ∀ acc : StringMap, StringMap.Ordered (acc ++ rest) →
      (rest.map (fun kv => (kv.1, json.Value.string kv.2))).foldl routes.unmarshalMapMember
        (.ok acc) = .ok (acc ++ rest) := by
  induction rest with
  | nil => intro acc _; simp
  | cons kv rest ih =>
    intro acc hord
    have hlt : ∀ x ∈ acc, strings.less x.1 kv.1 = true := by
      intro x hx
      exact (List.pairwise_append.1 hord).2.2 x hx kv (List.mem_cons_self _ _)
    have hstep : routes.unmarshalMapMember (.ok acc) (kv.1, json.Value.string kv.2)
        = .ok (acc ++ [kv]) := by
      simp only [routes.unmarshalMapMember]
      rw [StringMap.set_append kv.1 kv.2 acc hlt]
    simp only [List.map_cons, List.foldl_cons, hstep]
    have := ih (acc ++ [kv]) (by simpa using hord)
    simpa using this

theorem routes.unmarshalMap_marshal (m : StringMap) (h : StringMap.Ordered m) :
    routes.unmarshalMap [] (.object (m.map (fun kv => (kv.1, json.Value.string kv.2)))) = .ok m := by
  have := routes.unmarshalMap_members m [] (by simpa using h)
  simpa [routes.unmarshalMap] using this

theorem routes.unmarshalRouteMember_path (U : Unicode) (r : routes.Route) (v : json.Value) :
    routes.unmarshalRouteMember U (.ok r) (lit "path", v)
      = (routes.unmarshalString r.Path v).map (fun s => { r with Path := s }) := rfl

theorem routes.unmarshalRouteMember_name (U : Unicode) (r : routes.Route) (v : json.Value) :
    routes.unmarshalRouteMember U (.ok r) (lit "name", v)
      = (routes.unmarshalString r.Name v).map (fun s => { r with Name := s }) := rfl

theorem routes.unmarshalRouteMember_files (U : Unicode) (r : routes.Route) (v : json.Value) :
    routes.unmarshalRouteMember U (.ok r) (lit "files", v)
      = (routes.unmarshalFiles U r.Files v).map (fun f => { r with Files := f }) := rfl

theorem routes.unmarshalRouteMember_isPublic (U : Unicode) (r : routes.Route) (v : json.Value) :
    routes.unmarshalRouteMember U (.ok r) (lit "isPublic", v)
      = (routes.unmarshalBool r.IsPublic v).map (fun b => { r with IsPublic := b }) := rfl

theorem routes.unmarshalRouteMember_isGuestOnly (U : Unicode) (r : routes.Route)
    (v : json.Value) :
    routes.unmarshalRouteMember U (.ok r) (lit "isGuestOnly", v)
      = (routes.unmarshalBool r.IsGuestOnly v).map (fun b => { r with IsGuestOnly := b }) := rfl

theorem routes.unmarshalRouteMember_controller (U : Unicode) (r : routes.Route)
    (v : json.Value) :
    routes.unmarshalRouteMember U (.ok r) (lit "controller", v)
      = (routes.unmarshalString r.Controller v).map (fun s => { r with Controller := s }) := rfl

theorem routes.unmarshalRouteMember_action (U : Unicode) (r : routes.Route) (v : json.Value) :
    routes.unmarshalRouteMember U (.ok r) (lit "action", v)
      = (routes.unmarshalString r.Action v).map (fun s => { r with Action := s }) := rfl

theorem routes.unmarshalRouteMember_seo (U : Unicode) (r : routes.Route) (v : json.Value) :
    routes.unmarshalRouteMember U (.ok r) (lit "seo", v)
      = (routes.unmarshalMap r.SEO v).map (fun m => { r with SEO := m }) := rfl

theorem routes.unmarshalFiles_marshal (U : Unicode) (old f : routes.Files) :
    routes.unmarshalFiles U old
      (.object [(lit "react", .string f.React), (lit "view", .string f.View)]) = .ok f := rfl

/-- Decoding the object written for a route gives the route back. -/
theorem routes.unmarshalRoute_marshalRoute (U : Unicode) (r : routes.Route)
    (h : StringMap.Ordered r.SEO) :
    routes.unmarshalRoute U (routes.marshalRoute r) = .ok r := by
  obtain ⟨P, N, F, pub, guest, C, A, S⟩ := r
  have hS := routes.unmarshalMap_marshal S h
  simp only at hS
  cases pub <;> cases guest <;> cases C <;> cases A <;> cases S <;>
    simp only [routes.unmarshalRoute, routes.marshalRoute, List.cons_append, List.nil_append,
      List.append_nil, if_true, if_false, ne_eq, not_true_eq_false, not_false_eq_true,
      reduceCtorEq, Bool.false_eq_true, List.foldl_cons, List.foldl_nil,
      routes.unmarshalRouteMember_path, routes.unmarshalRouteMember_name,
      routes.unmarshalRouteMember_files, routes.unmarshalRouteMember_isPublic,
      routes.unmarshalRouteMember_isGuestOnly, routes.unmarshalRouteMember_controller,
      routes.unmarshalRouteMember_action, routes.unmarshalRouteMember_seo,
      routes.unmarshalFiles_marshal, routes.unmarshalString, routes.unmarshalBool,
      routes.Route.zero, Except.map, hS]

theorem routes.Unmarshal_Marshal (U : Unicode) :
    ∀ rs : List routes.Route, (∀ r ∈ rs, StringMap.Ordered r.SEO) →
      (rs.map routes.marshalRoute).mapM (routes.unmarshalRoute U) = .ok rs
  | [], _ => rfl
  | r :: rs, h => by
    have h1 := routes.unmarshalRoute_marshalRoute U r (h r (List.mem_cons_self _ _))
    have h2 := routes.Unmarshal_Marshal U rs (fun x hx => h x (List.mem_cons_of_mem _ hx))
    simp only [List.map_cons, List.mapM_cons, h1, h2]
    rfl

/-- C8: for every list of routes (each `SEO` a map, its entries in key
order), `Write` succeeds wherever the registry path is not a directory, and
`Read` of the file it wrote succeeds and returns a permutation of the
input, every field of every route unchanged. -/
theorem C8_Write_Read_round_trip (U : Unicode) (rs : List routes.Route)
    (file : routes.RegistryFile) (hmaps : ∀ r ∈ rs, StringMap.Ordered r.SEO)
    (hfile : file ≠ .directory) :
    ∃ (file' : routes.RegistryFile) (out : List routes.Route),
      routes.Write file rs = .ok file' ∧ routes.Read U file' = .ok out ∧ out.Perm rs := by
  refine ⟨.json (routes.Marshal (routes.sortSlice rs)), routes.sortSlice rs, ?_, ?_,
    routes.sortSlice_perm rs⟩
  · cases file with
    | directory => exact absurd rfl hfile
    | absent => rfl
    | text => rfl
    | json doc => rfl
  · have hs : ∀ r ∈ routes.sortSlice rs, StringMap.Ordered r.SEO := fun r hr =>
      hmaps r ((routes.sortSlice_perm rs).mem_iff.1 hr)
    simp only [routes.Read, routes.Marshal, routes.Unmarshal]
    exact routes.Unmarshal_Marshal U _ hs

/-! ## The file tree -/

theorem Node.lookup_cons (k : GoString) (m : Node) (es : List (GoString × Node))
    (c' : GoString) :
    ((k, m) :: es).lookup c' = if c' = k then some m else es.lookup c' := by
  by_cases h : c' = k
  · subst h; simp [List.lookup]
  · have hb : (c' == k) = false := by simpa using h
    simp [List.lookup, hb, h]

theorem Node.lookup_setEntry (c : GoString) (n : Node) (c' : GoString) :
    ∀ es : List (GoString × Node),
      (Node.setEntry es c n).lookup c' = if c' = c then some n else es.lookup c'
  | [] => by
    simp only [Node.setEntry, Node.lookup_cons]
  | (k, m) :: es => by
    have ih := Node.lookup_setEntry c n c' es
    by_cases hk : k = c
    · subst hk
      simp only [Node.setEntry, if_true, Node.lookup_cons]
      by_cases h : c' = k <;> simp [h]
    · simp only [Node.setEntry, hk, if_false, Node.lookup_cons, ih]
      by_cases h : c' = c
      · subst h
        have hk' : ¬ c' = k := fun e => hk e.symm
        simp [hk']
      · simp [h]

theorem os.Stat_nil (n : Node) : os.Stat n [] = .ok n := by
  cases n <;> rfl

theorem os.Stat_file_cons (d : GoString) (c : GoString) (cs : Path) :
    os.Stat (.file d) (c :: cs) = .error .ENOTDIR := rfl

theorem os.Stat_dir_cons (es : List (GoString × Node)) (c : GoString) (cs : Path) :
    os.Stat (.dir es) (c :: cs) =
      match es.lookup c with
      | none => .error .ENOENT
      | some child => os.Stat child cs := rfl

/-- The `Stat` of a path below the entry `c` of a directory whose entry `c`
was set to `n`. -/
theorem os.Stat_setEntry_same (es : List (GoString × Node)) (c : GoString) (n : Node)
    (qs : Path) : os.Stat (.dir (Node.setEntry es c n)) (c :: qs) = os.Stat n qs := by
  rw [os.Stat_dir_cons, Node.lookup_setEntry]; simp

theorem os.Stat_setEntry_other (es : List (GoString × Node)) (c : GoString) (n : Node)
    (c' : GoString) (qs : Path) (h : c' ≠ c) :
    os.Stat (.dir (Node.setEntry es c n)) (c' :: qs) = os.Stat (.dir es) (c' :: qs) := by
  rw [os.Stat_dir_cons, os.Stat_dir_cons, Node.lookup_setEntry]; simp [h]

/-! ### `MkdirAll` -/

theorem os.MkdirAll_file (d : GoString) (p : Path) :
    os.MkdirAll (.file d) p = .error .ENOTDIR := by
  cases p <;> rfl

theorem os.MkdirAll_dir_cons (es : List (GoString × Node)) (c : GoString) (cs : Path) :
    os.MkdirAll (.dir es) (c :: cs) =
      match es.lookup c with
      | some child => (os.MkdirAll child cs).map (fun n => .dir (Node.setEntry es c n))
      | none => (os.MkdirAll (.dir []) cs).map (fun n => .dir (Node.setEntry es c n)) := rfl

/-- What `MkdirAll` does to a directory with entries `es` along `c :: cs`:
the entry `c` is replaced by the result of `MkdirAll` on the old entry, or
on an empty directory when there was none. -/
theorem os.MkdirAll_cons_ok (es : List (GoString × Node)) (c : GoString) (cs : Path)
    (fs' : Node) (h : os.MkdirAll (.dir es) (c :: cs) = .ok fs') :
    ∃ child n, (es.lookup c = some child ∨ (es.lookup c = none ∧ child = .dir [])) ∧
      os.MkdirAll child cs = .ok n ∧ fs' = .dir (Node.setEntry es c n) := by
  rw [os.MkdirAll_dir_cons] at h
  cases hl : es.lookup c with
  | none =>
    rw [hl] at h
    simp only at h
    cases hm : os.MkdirAll (.dir []) cs with
    | error e => rw [hm] at h; cases h
    | ok n =>
      rw [hm] at h
      exact ⟨.dir [], n, Or.inr ⟨rfl, rfl⟩, hm, (Except.ok.inj h).symm⟩
  | some child =>
    rw [hl] at h
    simp only at h
    cases hm : os.MkdirAll child cs with
    | error e => rw [hm] at h; cases h
    | ok n =>
      rw [hm] at h
      exact ⟨child, n, Or.inl rfl, hm, (Except.ok.inj h).symm⟩

/-- The `Stat` of the old tree below entry `c`, in terms of the node
`MkdirAll` starts from there. -/
theorem os.Stat_child (es : List (GoString × Node)) (c : GoString) (child : Node) (qs : Path)
    (h : es.lookup c = some child ∨ (es.lookup c = none ∧ child = .dir [])) :
    os.Stat (.dir es) (c :: qs) = os.Stat child qs ∨
    (os.Stat (.dir es) (c :: qs) = .error .ENOENT ∧ child = .dir []) := by
  rw [os.Stat_dir_cons]
  rcases h with h | ⟨h, h2⟩
  · rw [h]; exact Or.inl rfl
  · rw [h]; exact Or.inr ⟨rfl, h2⟩

theorem os.Stat_empty_dir (qs : Path) (d : GoString) : os.Stat (.dir []) qs ≠ .ok (.file d) := by
  cases qs with
  | nil => intro h; cases h
  | cons c cs => intro h; cases h

theorem os.Stat_empty_dir_cons (c : GoString) (qs : Path) :
    os.Stat (.dir []) (c :: qs) = .error .ENOENT := rfl

/-- `MkdirAll` keeps every file, makes no file, and removes nothing. -/
theorem os.MkdirAll_frame : ∀ (p : Path) (fs fs' : Node), os.MkdirAll fs p = .ok fs' →
    ∀ q : Path,
      (∀ d, os.Stat fs q = .ok (.file d) ↔ os.Stat fs' q = .ok (.file d)) ∧
      (os.Stat fs' q = .error .ENOENT → os.Stat fs q = .error .ENOENT)
  | [], fs, fs', h, q => by
    cases fs with
    | file d => rw [os.MkdirAll_file] at h; cases h
    | dir es =>
      have : fs' = .dir es := (Except.ok.inj h).symm
      subst this
      exact ⟨fun _ => Iff.rfl, id⟩
  | c :: cs, fs, fs', h, q => by
    cases fs with
    | file d => rw [os.MkdirAll_file] at h; cases h
    | dir es =>
      obtain ⟨child, n, hchild, hm, rfl⟩ := os.MkdirAll_cons_ok es c cs fs' h
      cases q with
      | nil => simp [os.Stat_nil]
      | cons c' qs =>
        by_cases hc : c' = c
        · subst hc
          rw [os.Stat_setEntry_same]
          have ih := os.MkdirAll_frame cs child n hm qs
          rcases os.Stat_child es c' child qs hchild with h1 | ⟨h1, h2⟩
          · rw [h1]; exact ih
          · rw [h1]
            subst h2
            refine ⟨fun d => ⟨fun hx => (by cases hx), fun hx => ?_⟩, fun _ => rfl⟩
            exact absurd ((ih.1 d).2 hx) (os.Stat_empty_dir qs d)
        · rw [os.Stat_setEntry_other _ _ _ _ _ hc]
          exact ⟨fun _ => Iff.rfl, id⟩

/-! ### `WriteFile` -/

theorem os.WriteFile_file (d : GoString) (c : GoString) (cs : Path) (data : GoString) :
    os.WriteFile (.file d) (c :: cs) data = .error .ENOTDIR := by
  cases cs <;> rfl

/-- What `WriteFile` does to a directory along `c :: cs`. -/
theorem os.WriteFile_cons_ok (es : List (GoString × Node)) (c : GoString) (cs : Path)
    (data : GoString) (fs' : Node) (h : os.WriteFile (.dir es) (c :: cs) data = .ok fs') :
    (cs = [] ∧ (∀ es', es.lookup c ≠ some (.dir es')) ∧
      fs' = .dir (Node.setEntry es c (.file data))) ∨
    (cs ≠ [] ∧ ∃ child n, es.lookup c = some child ∧ os.WriteFile child cs data = .ok n ∧
      fs' = .dir (Node.setEntry es c n)) := by
  cases cs with
  | nil =>
    left
    simp only [os.WriteFile] at h
    cases hl : es.lookup c with
    | none =>
      rw [hl] at h
      exact ⟨rfl, fun es' hx => (by cases hx), (Except.ok.inj h).symm⟩
    | some child =>
      rw [hl] at h
      cases child with
      | file d => exact ⟨rfl, fun es' hx => (by cases hx), (Except.ok.inj h).symm⟩
      | dir es2 => cases h
  | cons c2 cs =>
    right
    simp only [os.WriteFile] at h
    cases hl : es.lookup c with
    | none => rw [hl] at h; cases h
    | some child =>
      rw [hl] at h
      simp only at h
      cases hw : os.WriteFile child (c2 :: cs) data with
      | error e => rw [hw] at h; cases h
      | ok n =>
        rw [hw] at h
        exact ⟨by simp, child, n, rfl, hw, (Except.ok.inj h).symm⟩

/-- `WriteFile` keeps every other file, makes no file but its target, and
removes nothing. -/
theorem os.WriteFile_frame (data : GoString) : ∀ (p : Path) (fs fs' : Node),
    os.WriteFile fs p data = .ok fs' →
    ∀ q : Path,
      (∀ d, os.Stat fs q = .ok (.file d) → q ≠ p → os.Stat fs' q = .ok (.file d)) ∧
      (∀ d, os.Stat fs' q = .ok (.file d) → q = p ∨ os.Stat fs q = .ok (.file d)) ∧
      (os.Stat fs' q = .error .ENOENT → os.Stat fs q = .error .ENOENT)
  | [], fs, fs', h, q => by
    cases fs <;> cases h
  | c :: cs, fs, fs', h, q => by
    cases fs with
    | file d => rw [os.WriteFile_file] at h; cases h
    | dir es =>
      cases q with
      | nil =>
        rcases os.WriteFile_cons_ok es c cs data fs' h with ⟨_, _, rfl⟩ | ⟨_, _, _, _, _, rfl⟩ <;>
          simp [os.Stat_nil]
      | cons c' qs =>
        by_cases hc : c' = c
        · subst hc
          rcases os.WriteFile_cons_ok es c' cs data fs' h with
            ⟨rfl, hnd, rfl⟩ | ⟨hne, child, n, hl, hw, rfl⟩
          · rw [os.Stat_setEntry_same, os.Stat_dir_cons]
            cases hl : es.lookup c' with
            | none =>
              cases qs with
              | nil => simp [os.Stat_nil]
              | cons q1 qs => simp [os.Stat_file_cons]
            | some child =>
              cases child with
              | dir es2 => exact absurd hl (hnd es2)
              | file d0 =>
                cases qs with
                | nil => simp [os.Stat_nil]
                | cons q1 qs => simp [os.Stat_file_cons]
          · rw [os.Stat_setEntry_same, os.Stat_dir_cons, hl]
            have ih := os.WriteFile_frame data cs child n hw qs
            refine ⟨fun d h1 h2 => ih.1 d h1 (fun e => h2 (by rw [e])), fun d h1 => ?_, ih.2.2⟩
            rcases ih.2.1 d h1 with e | e
            · exact Or.inl (by rw [e])
            · exact Or.inr e
        · have hshape : ∃ n, fs' = .dir (Node.setEntry es c n) := by
            rcases os.WriteFile_cons_ok es c cs data fs' h with
              ⟨_, _, e⟩ | ⟨_, _, n, _, _, e⟩
            · exact ⟨_, e⟩
            · exact ⟨n, e⟩
          obtain ⟨n, rfl⟩ := hshape
          rw [os.Stat_setEntry_other _ _ _ _ _ hc]
          exact ⟨fun d h1 _ => h1, fun d h1 => Or.inr h1, id⟩

/-- After `WriteFile` the target is a file with the data. -/
theorem os.Stat_WriteFile_self (data : GoString) : ∀ (p : Path) (fs fs' : Node),
    os.WriteFile fs p data = .ok fs' → os.Stat fs' p = .ok (.file data)
  | [], fs, fs', h => by cases fs <;> cases h
  | c :: cs, fs, fs', h => by
    cases fs with
    | file d => rw [os.WriteFile_file] at h; cases h
    | dir es =>
      rcases os.WriteFile_cons_ok es c cs data fs' h with
        ⟨rfl, _, rfl⟩ | ⟨_, child, n, _, hw, rfl⟩
      · rw [os.Stat_setEntry_same, os.Stat_nil]
      · rw [os.Stat_setEntry_same]
        exact os.Stat_WriteFile_self data cs child n hw

/-- When `Stat` answers "does not exist", `MkdirAll` of the parent and then
`WriteFile` both succeed. -/
theorem os.MkdirAll_WriteFile_of_ENOENT (data : GoString) : ∀ (p : Path) (fs : Node),
    os.Stat fs p = .error .ENOENT →
    ∃ fs1 fs2, os.MkdirAll fs (filepath.Dir p) = .ok fs1 ∧ os.WriteFile fs1 p data = .ok fs2
  | [], fs, h => by rw [os.Stat_nil] at h; cases h
  | [c], fs, h => by
    cases fs with
    | file d => cases h
    | dir es =>
      rw [os.Stat_dir_cons] at h
      cases hl : es.lookup c with
      | some child => rw [hl] at h; simp only [os.Stat_nil] at h; cases h
      | none =>
        refine ⟨.dir es, .dir (Node.setEntry es c (.file data)), rfl, ?_⟩
        simp only [os.WriteFile, hl]
  | c :: c2 :: cs, fs, h => by
    cases fs with
    | file d => cases h
    | dir es =>
      rw [os.Stat_dir_cons] at h
      have hdir : filepath.Dir (c :: c2 :: cs) = c :: filepath.Dir (c2 :: cs) := rfl
      rw [hdir, os.MkdirAll_dir_cons]
      cases hl : es.lookup c with
      | some child =>
        rw [hl] at h
        obtain ⟨n1, n2, h1, h2⟩ := os.MkdirAll_WriteFile_of_ENOENT data (c2 :: cs) child h
        refine ⟨.dir (Node.setEntry es c n1), .dir (Node.setEntry (Node.setEntry es c n1) c n2),
          by simp [h1, Except.map], ?_⟩
        simp only [os.WriteFile, Node.lookup_setEntry, if_true, h2, Except.map]
      | none =>
        obtain ⟨n1, n2, h1, h2⟩ :=
          os.MkdirAll_WriteFile_of_ENOENT data (c2 :: cs) (.dir []) rfl
        refine ⟨.dir (Node.setEntry es c n1), .dir (Node.setEntry (Node.setEntry es c n1) c n2),
          by simp [h1, Except.map], ?_⟩
        simp only [os.WriteFile, Node.lookup_setEntry, if_true, h2, Except.map]

/-! ### `scaffoldFile` -/

/-- The two ways `scaffoldFile` can go: the target is there (or `Stat` fails
otherwise) and nothing happens, or the target does not exist and it is
written after its parent directories are made. -/
theorem scaffold.scaffoldFile_cases (p : Path) (content : GoString) (fs : Node) :
    (os.Stat fs p ≠ .error .ENOENT ∧ scaffold.scaffoldFile p content fs = (none, fs)) ∨
    (os.Stat fs p = .error .ENOENT ∧ ∃ fs1 fs2,
      os.MkdirAll fs (filepath.Dir p) = .ok fs1 ∧ os.WriteFile fs1 p content = .ok fs2 ∧
      scaffold.scaffoldFile p content fs = (none, fs2)) := by
  cases hs : os.Stat fs p with
  | ok n =>
    left
    exact ⟨fun h => (by cases h), by simp [scaffold.scaffoldFile, hs]⟩
  | error e =>
    cases e with
    | ENOENT =>
      right
      obtain ⟨fs1, fs2, h1, h2⟩ := os.MkdirAll_WriteFile_of_ENOENT content p fs hs
      exact ⟨rfl, fs1, fs2, h1, h2, by simp [scaffold.scaffoldFile, hs, os.IsNotExist, h1, h2]⟩
    | ENOTDIR =>
      left
      exact ⟨fun h => (by cases h), by simp [scaffold.scaffoldFile, hs, os.IsNotExist]⟩
    | EISDIR =>
      left
      exact ⟨fun h => (by cases h), by simp [scaffold.scaffoldFile, hs, os.IsNotExist]⟩

/-- The step `scaffoldFile` returns no error. -/
theorem scaffold.scaffoldFile_fst (p : Path) (content : GoString) (fs : Node) :
    (scaffold.scaffoldFile p content fs).1 = none := by
  rcases scaffold.scaffoldFile_cases p content fs with ⟨_, h⟩ | ⟨_, _, _, _, _, h⟩ <;> rw [h]

/-- The step `scaffoldFile` keeps every file with its content, makes no file
but its target, and removes nothing. -/
theorem scaffold.scaffoldFile_frame (p : Path) (content : GoString) (fs : Node) (q : Path) :
    (∀ d, os.Stat fs q = .ok (.file d) →
      os.Stat (scaffold.scaffoldFile p content fs).2 q = .ok (.file d)) ∧
    (∀ d, os.Stat (scaffold.scaffoldFile p content fs).2 q = .ok (.file d) →
      q = p ∨ os.Stat fs q = .ok (.file d)) ∧
    (os.Stat (scaffold.scaffoldFile p content fs).2 q = .error .ENOENT →
      os.Stat fs q = .error .ENOENT) := by
  rcases scaffold.scaffoldFile_cases p content fs with ⟨_, h⟩ | ⟨hs, fs1, fs2, h1, h2, h⟩
  · rw [h]; exact ⟨fun _ hx => hx, fun _ hx => Or.inr hx, id⟩
  · rw [h]
    have hm := os.MkdirAll_frame _ fs fs1 h1 q
    have hw := os.WriteFile_frame content p fs1 fs2 h2 q
    refine ⟨fun d hx => ?_, fun d hx => ?_, fun hx => hm.2 (hw.2.2 hx)⟩
    · have hqp : q ≠ p := by
        rintro rfl
        rw [hs] at hx; cases hx
      exact hw.1 d ((hm.1 d).1 hx) hqp
    · rcases hw.2.1 d hx with e | e
      · exact Or.inl e
      · exact Or.inr ((hm.1 d).2 e)

/-- After `scaffoldFile` the target is there. -/
theorem scaffold.scaffoldFile_exists (p : Path) (content : GoString) (fs : Node) :
    os.Stat (scaffold.scaffoldFile p content fs).2 p ≠ .error .ENOENT := by
  rcases scaffold.scaffoldFile_cases p content fs with ⟨hs, h⟩ | ⟨_, fs1, fs2, _, h2, h⟩
  · rw [h]; exact hs
  · rw [h]
    simp only
    rw [os.Stat_WriteFile_self content p fs1 fs2 h2]
    intro hx; cases hx

/-- On a target that is there `scaffoldFile` does nothing. -/
theorem scaffold.scaffoldFile_noop (p : Path) (content : GoString) (fs : Node)
    (h : os.Stat fs p ≠ .error .ENOENT) : scaffold.scaffoldFile p content fs = (none, fs) := by
  rcases scaffold.scaffoldFile_cases p content fs with ⟨_, h1⟩ | ⟨hs, _⟩
  · exact h1
  · exact absurd hs h

/-- Without controller, `ScaffoldRouteFiles` is the page step followed by
the view step (skipped under `NoView`), and returns no error. -/
theorem scaffold.ScaffoldRouteFiles_none (U : Unicode) (cfg : config.Config) (name : GoString)
    (files : routes.Files) (options : scaffold.ScaffoldOptions) (fs : Node) :
    scaffold.ScaffoldRouteFiles U cfg name files options none fs =
      (none,
        if options.NoView = true then
          (scaffold.scaffoldFile (filepath.Join cfg.ClientDir files.React)
            (scaffold.ReactPage name) fs).2
        else
          (scaffold.scaffoldFile (filepath.Join cfg.ServerDir files.View) (scaffold.MVCView name)
            (scaffold.scaffoldFile (filepath.Join cfg.ClientDir files.React)
              (scaffold.ReactPage name) fs).2).2) := by
  have h1 := scaffold.scaffoldFile_fst (filepath.Join cfg.ClientDir files.React)
    (scaffold.ReactPage name) fs
  have h2 := scaffold.scaffoldFile_fst (filepath.Join cfg.ServerDir files.View)
    (scaffold.MVCView name)
    (scaffold.scaffoldFile (filepath.Join cfg.ClientDir files.React)
      (scaffold.ReactPage name) fs).2
  simp only [scaffold.ScaffoldRouteFiles]
  generalize scaffold.scaffoldFile (filepath.Join cfg.ClientDir files.React)
    (scaffold.ReactPage name) fs = r1 at h1 h2 ⊢
  obtain ⟨e1, fs1⟩ := r1
  simp only at h1 h2
  subst h1
  cases hv : options.NoView with
  | true => simp
  | false =>
    simp only [Bool.false_eq_true, not_false_eq_true, if_true, if_false]
    generalize scaffold.scaffoldFile (filepath.Join cfg.ServerDir files.View)
      (scaffold.MVCView name) fs1 = r2 at h2 ⊢
    obtain ⟨e2, fs2⟩ := r2
    simp only at h2
    subst h2
    rfl

/-! ## C9: scaffolding never overwrites -/

/-- C9: for every file tree, `Name`, `Files` and options,
`ScaffoldRouteFiles` without controller info leaves every file that existed
(a page, a view or any other) in place with the same content, and a file
that exists afterwards and did not before is the page file of the route or,
unless `NoView`, its view file. -/
theorem C9_scaffold_never_overwrites (U : Unicode) (cfg : config.Config) (name : GoString)
    (files : routes.Files) (options : scaffold.ScaffoldOptions) (fs : Node) :
    (∀ (q : Path) (d : GoString), os.Stat fs q = .ok (.file d) →
      os.Stat (scaffold.ScaffoldRouteFiles U cfg name files options none fs).2 q
        = .ok (.file d)) ∧
    (∀ (q : Path) (d : GoString),
      os.Stat (scaffold.ScaffoldRouteFiles U cfg name files options none fs).2 q
        = .ok (.file d) →
      os.Stat fs q = .ok (.file d) ∨ q = filepath.Join cfg.ClientDir files.React ∨
        (options.NoView = false ∧ q = filepath.Join cfg.ServerDir files.View)) := by
  rw [scaffold.ScaffoldRouteFiles_none]
  have hp := scaffold.scaffoldFile_frame (filepath.Join cfg.ClientDir files.React)
    (scaffold.ReactPage name) fs
  have hv := scaffold.scaffoldFile_frame (filepath.Join cfg.ServerDir files.View)
    (scaffold.MVCView name)
    (scaffold.scaffoldFile (filepath.Join cfg.ClientDir files.React)
      (scaffold.ReactPage name) fs).2
  cases hn : options.NoView with
  | true =>
    simp only [if_true]
    refine ⟨fun q d h => (hp q).1 d h, fun q d h => ?_⟩
    rcases (hp q).2.1 d h with e | e
    · exact Or.inr (Or.inl e)
    · exact Or.inl e
  | false =>
    simp only [Bool.false_eq_true, if_false]
    refine ⟨fun q d h => (hv q).1 d ((hp q).1 d h), fun q d h => ?_⟩
    rcases (hv q).2.1 d h with e | e
    · exact Or.inr (Or.inr ⟨trivial, e⟩)
    · rcases (hp q).2.1 d e with e2 | e2
      · exact Or.inr (Or.inl e2)
      · exact Or.inl e2

/-! ## The pattern of `EnsureController` on the generated text -/

theorem regexp.matchLiteral_self (U : Unicode) : ∀ (l s : GoString),
    regexp.matchLiteral U l (l ++ s) = some s
  | [], s => by cases s <;> rfl
  | c :: l, s => by
    have h : strings.equalFoldRune U c c = true := by simp [strings.equalFoldRune]
    simp [regexp.matchLiteral, h, regexp.matchLiteral_self U l s]

theorem regexp.matchSpacesAction_of_literal (U : Unicode) (action s rest : GoString)
    (h1 : regexp.matchLiteral U action s = some rest) (h2 : regexp.matchOpenParen rest = true) :
    regexp.matchSpacesAction U action s = true := by
  cases s with
  | nil => simp [regexp.matchSpacesAction, h1, h2]
  | cons c s => simp [regexp.matchSpacesAction, h1, h2]

/-- The pattern matches every text that holds `IActionResult <action>(`. -/
theorem regexp.MatchAction_of_signature (U : Unicode) (action a b : GoString) :
    regexp.MatchAction U action (a ++ (lit "IActionResult " ++ (action ++ (lit "(" ++ b))))
      = true := by
  have hmem : (lit "IActionResult " ++ (action ++ (lit "(" ++ b))) ∈
      (a ++ (lit "IActionResult " ++ (action ++ (lit "(" ++ b)))).tails := by
    rw [List.mem_tails]
    exact List.suffix_append _ _
  have hat : regexp.matchActionAt U action
      (lit "IActionResult " ++ (action ++ (lit "(" ++ b))) = true := by
    have e : lit "IActionResult " ++ (action ++ (lit "(" ++ b))
        = lit "IActionResult" ++ (' ' :: (action ++ (lit "(" ++ b))) := rfl
    have hlit := regexp.matchLiteral_self U action (lit "(" ++ b)
    have hsp := regexp.matchSpacesAction_of_literal U action _ _ hlit rfl
    rw [e]
    simp only [regexp.matchActionAt, regexp.matchLiteral_self, hsp, Bool.and_true]
    rfl
  simp only [regexp.MatchAction, List.any_eq_true]
  exact ⟨_, hmem, hat⟩

theorem scaffold.MatchAction_ControllerTemplate (U : Unicode) (ctrl action view : GoString) :
    regexp.MatchAction U action (scaffold.ControllerTemplate ctrl action view) = true := by
  have e : scaffold.ControllerTemplate ctrl action view =
      (lit "using Microsoft.AspNetCore.Mvc;\n\nnamespace Poyo.Server.Controllers;\n\npublic class "
        ++ ctrl ++ lit " : Controller\n\x7b\n    public ") ++
      (lit "IActionResult " ++ (action ++ (lit "(" ++
        (lit ")\n    \x7b\n        return View(\"~/" ++ view
          ++ lit "\");\n    \x7d\n\x7d\n")))) := by
    simp [scaffold.ControllerTemplate]
  rw [e]
  exact regexp.MatchAction_of_signature U action _ _

theorem scaffold.MatchAction_ActionTemplate (U : Unicode) (action view pre post : GoString) :
    regexp.MatchAction U action (pre ++ scaffold.ActionTemplate action view ++ post) = true := by
  have e : pre ++ scaffold.ActionTemplate action view ++ post =
      (pre ++ lit "\n    public ") ++
      (lit "IActionResult " ++ (action ++ (lit "(" ++
        (lit ")\n    \x7b\n        return View(\"~/" ++ view ++ lit "\");\n    \x7d\n" ++ post)))) := by
    simp [scaffold.ActionTemplate]
  rw [e]
  exact regexp.MatchAction_of_signature U action _ _

/-! ## `EnsureController` run again -/

/-- The file of the controller `name` under `path`, as `EnsureController`
computes it. -/
theorem scaffold.EnsureController_cases (U : Unicode) (path : Path)
    (name action view : GoString) (fs : Node) :
    (scaffold.EnsureController U path name action view fs).2 = fs ∨
    ∃ content : GoString,
      os.WriteFile fs
        (filepath.Join path
          ((if ¬ strings.HasSuffix name (lit "Controller") then name ++ lit "Controller"
            else name) ++ lit ".cs")) content
        = .ok (scaffold.EnsureController U path name action view fs).2 ∧
      regexp.MatchAction U action content = true := by
  simp only [scaffold.EnsureController]
  generalize (if ¬ strings.HasSuffix name (lit "Controller") then name ++ lit "Controller"
    else name) = name'
  generalize filepath.Join path (name' ++ lit ".cs") = file
  cases hs : os.Stat fs file with
  | error e =>
    simp only
    cases hw : os.WriteFile fs file (scaffold.ControllerTemplate name' action view) with
    | error e2 => exact Or.inl rfl
    | ok fs1 =>
      exact Or.inr ⟨_, hw, scaffold.MatchAction_ControllerTemplate U name' action view⟩
  | ok n =>
    simp only
    cases hr : os.ReadFile fs file with
    | error e => exact Or.inl rfl
    | ok content =>
      simp only
      cases hm : regexp.MatchAction U action content with
      | true => exact Or.inl rfl
      | false =>
        simp only [Bool.false_eq_true, if_false]
        cases hi : scaffold.lastIndexBrace content with
        | none => exact Or.inl rfl
        | some idx =>
          simp only
          cases hw : os.WriteFile fs file
              (content.take idx ++ scaffold.ActionTemplate action view ++ content.drop idx) with
          | error e2 => exact Or.inl rfl
          | ok fs1 =>
            exact Or.inr ⟨_, hw, scaffold.MatchAction_ActionTemplate U action view _ _⟩

/-- `EnsureController` removes nothing. -/
theorem scaffold.EnsureController_ENOENT (U : Unicode) (path : Path)
    (name action view : GoString) (fs : Node) (q : Path)
    (h : os.Stat (scaffold.EnsureController U path name action view fs).2 q = .error .ENOENT) :
    os.Stat fs q = .error .ENOENT := by
  rcases scaffold.EnsureController_cases U path name action view fs with e | ⟨content, hw, _⟩
  · rw [e] at h; exact h
  · exact (os.WriteFile_frame content _ fs _ hw q).2.2 h

/-- On a tree whose controller file holds the action, `EnsureController`
answers "action already exists" and changes nothing. -/
theorem scaffold.EnsureController_of_action (U : Unicode) (path : Path)
    (name action view : GoString) (fs : Node) (content : GoString)
    (hfile : os.Stat fs
      (filepath.Join path
        ((if ¬ strings.HasSuffix name (lit "Controller") then name ++ lit "Controller"
          else name) ++ lit ".cs")) = .ok (.file content))
    (hm : regexp.MatchAction U action content = true) :
    scaffold.EnsureController U path name action view fs = (([], some .actionExists), fs) := by
  simp only [scaffold.EnsureController, hfile, os.ReadFile, hm, if_true]

/-- A second `EnsureController` with the same arguments changes nothing. -/
theorem scaffold.EnsureController_twice (U : Unicode) (path : Path)
    (name action view : GoString) (fs : Node) :
    (scaffold.EnsureController U path name action view
      (scaffold.EnsureController U path name action view fs).2).2
      = (scaffold.EnsureController U path name action view fs).2 := by
  rcases scaffold.EnsureController_cases U path name action view fs with e | ⟨content, hw, hm⟩
  · rw [e]; exact e
  · have hself := os.Stat_WriteFile_self content _ fs _ hw
    rw [scaffold.EnsureController_of_action U path name action view _ content hself hm]

/-! ## C10: scaffolding twice -/

/-- The tree after `ScaffoldRouteFiles`: the page and view steps, then
`EnsureController` when controller info is given. -/
theorem scaffold.ScaffoldRouteFiles_snd (U : Unicode) (cfg : config.Config) (name : GoString)
    (files : routes.Files) (options : scaffold.ScaffoldOptions)
    (controller : Option scaffold.ControllerInfo) (fs : Node) :
    (scaffold.ScaffoldRouteFiles U cfg name files options controller fs).2 =
      match controller with
      | none => (scaffold.ScaffoldRouteFiles U cfg name files options none fs).2
      | some c =>
        (scaffold.EnsureController U cfg.ControllersDir c.Name c.Action files.View
          (scaffold.ScaffoldRouteFiles U cfg name files options none fs).2).2 := by
  cases controller with
  | none => rfl
  | some c =>
    have h := scaffold.ScaffoldRouteFiles_none U cfg name files options fs
    simp only [scaffold.ScaffoldRouteFiles] at h ⊢
    revert h
    generalize scaffold.scaffoldFile (filepath.Join cfg.ClientDir files.React)
      (scaffold.ReactPage name) fs = r1
    obtain ⟨e1, fs1⟩ := r1
    cases e1 with
    | some e => intro h; cases h
    | none =>
      simp only
      generalize (if ¬ options.NoView = true then
        scaffold.scaffoldFile (filepath.Join cfg.ServerDir files.View) (scaffold.MVCView name) fs1
        else (none, fs1)) = r2
      obtain ⟨e2, fs2⟩ := r2
      cases e2 with
      | some e => intro h; cases h
      | none =>
        intro _
        simp only
        generalize scaffold.EnsureController U cfg.ControllersDir c.Name c.Action files.View fs2
          = r3
        obtain ⟨⟨s, e3⟩, fs3⟩ := r3
        cases e3 with
        | none => rfl
        | some e => by_cases he : e = Err.actionExists <;> simp [he]

/-- After the page and view steps the page is there, and so is the view
unless `NoView`. -/
theorem scaffold.ScaffoldRouteFiles_none_exists (U : Unicode) (cfg : config.Config)
    (name : GoString) (files : routes.Files) (options : scaffold.ScaffoldOptions) (fs : Node) :
    os.Stat (scaffold.ScaffoldRouteFiles U cfg name files options none fs).2
        (filepath.Join cfg.ClientDir files.React) ≠ .error .ENOENT ∧
    (options.NoView = false →
      os.Stat (scaffold.ScaffoldRouteFiles U cfg name files options none fs).2
        (filepath.Join cfg.ServerDir files.View) ≠ .error .ENOENT) := by
  rw [scaffold.ScaffoldRouteFiles_none]
  have hp := scaffold.scaffoldFile_exists (filepath.Join cfg.ClientDir files.React)
    (scaffold.ReactPage name) fs
  cases hn : options.NoView with
  | true => exact ⟨hp, fun h => by cases h⟩
  | false =>
    simp only [Bool.false_eq_true, if_false]
    refine ⟨fun h => hp ((scaffold.scaffoldFile_frame _ _ _ _).2.2 h), fun _ => ?_⟩
    exact scaffold.scaffoldFile_exists _ _ _

/-- On a tree where the page is there, and the view unless `NoView`, the
page and view steps change nothing. -/
theorem scaffold.ScaffoldRouteFiles_none_noop (U : Unicode) (cfg : config.Config)
    (name : GoString) (files : routes.Files) (options : scaffold.ScaffoldOptions) (fs : Node)
    (hp : os.Stat fs (filepath.Join cfg.ClientDir files.React) ≠ .error .ENOENT)
    (hv : options.NoView = false →
      os.Stat fs (filepath.Join cfg.ServerDir files.View) ≠ .error .ENOENT) :
    (scaffold.ScaffoldRouteFiles U cfg name files options none fs).2 = fs := by
  rw [scaffold.ScaffoldRouteFiles_none, scaffold.scaffoldFile_noop _ _ _ hp]
  cases hn : options.NoView with
  | true => rfl
  | false =>
    simp only [Bool.false_eq_true, if_false]
    rw [scaffold.scaffoldFile_noop _ _ _ (hv hn)]

/-- C10: for every file tree, `Name`, `Files`, options and controller info
(given or not), a second `ScaffoldRouteFiles` with the same arguments leaves
the tree exactly as the first left it. -/
theorem C10_scaffold_idempotent (U : Unicode) (cfg : config.Config) (name : GoString)
    (files : routes.Files) (options : scaffold.ScaffoldOptions)
    (controller : Option scaffold.ControllerInfo) (fs : Node) :
    (scaffold.ScaffoldRouteFiles U cfg name files options controller
      (scaffold.ScaffoldRouteFiles U cfg name files options controller fs).2).2
      = (scaffold.ScaffoldRouteFiles U cfg name files options controller fs).2 := by
  have hex := scaffold.ScaffoldRouteFiles_none_exists U cfg name files options fs
  cases controller with
  | none =>
    exact scaffold.ScaffoldRouteFiles_none_noop U cfg name files options _ hex.1 hex.2
  | some c =>
    rw [scaffold.ScaffoldRouteFiles_snd U cfg name files options (some c) fs]
    simp only
    rw [scaffold.ScaffoldRouteFiles_snd U cfg name files options (some c)]
    simp only
    rw [scaffold.ScaffoldRouteFiles_none_noop U cfg name files options _
      (fun h => hex.1 (scaffold.EnsureController_ENOENT U _ _ _ _ _ _ h))
      (fun hn h => hex.2 hn (scaffold.EnsureController_ENOENT U _ _ _ _ _ _ h))]
    exact scaffold.EnsureController_twice U _ _ _ _ _

/-! ## The end-to-end scenario on the example project -/

set_option maxRecDepth 1000000 in
set_option maxHeartbeats 8000000 in
/-- The end-to-end scenario, step by step. -/
theorem cmd.runAdd_blogPosts (U : Unicode) (file : routes.RegistryFile)
    (hread : routes.Read U file = .ok [])
    (hwrite : ∀ rs, routes.Write file rs = .ok (.json (routes.Marshal (routes.sortSlice rs)))) :
    cmd.runAdd U Example.cfg Example.blogList (lit "/blog/posts")
      { routesJSON := file, fs := Example.tree }
    = (none, Example.afterBlogPosts) := by
  have h1 : strings.Contains (lit "/blog/posts") (lit ":") = false := rfl
  have h2 : cmd.pascalPath U (lit "/blog/posts") = lit "/Blog/Posts" := rfl
  have h3 : cmd.name U (lit "/blog/posts") = lit "Blog/Posts" := rfl
  have h4 : routes.ResolvePaths U (lit "Blog/Posts") Example.blogList.addFlat
      = some Example.blogPosts.Files := rfl
  have h5 : cmd.runAdd.ensure U Example.cfg Example.blogPosts.Files
      (cmd.runAdd.newRoute Example.blogList (lit "/Blog/Posts") (lit "Blog/Posts")
        Example.blogPosts.Files (cmd.runAdd.controllerInfo Example.blogList))
      Example.tree (cmd.runAdd.controllerInfo Example.blogList)
      = (none, Example.blogPosts,
         .dir [(lit "proj", .dir [
          (lit "poyo.client", .dir []),
          (lit "Poyo.Server", .dir [(lit "Controllers", .dir [
            (lit "BlogController.cs", .file (scaffold.ControllerTemplate (lit "BlogController")
              (lit "List") (lit "Views/Blog/Posts/Index.cshtml")))])])])]) := rfl
  have h6 : scaffold.ScaffoldRouteFiles U Example.cfg (lit "Blog/Posts") Example.blogPosts.Files
      { NoView := Example.blogList.addNoView } none
      (.dir [(lit "proj", .dir [
          (lit "poyo.client", .dir []),
          (lit "Poyo.Server", .dir [(lit "Controllers", .dir [
            (lit "BlogController.cs", .file (scaffold.ControllerTemplate (lit "BlogController")
              (lit "List") (lit "Views/Blog/Posts/Index.cshtml")))])])])])
      = (none, Example.blogTree) := rfl
  have h7 : routes.sortSlice ([] ++ [Example.blogPosts]) = [Example.blogPosts] := rfl
  have h8 : ¬ (Example.blogList.addController ≠ [] ∧ Example.blogList.addAction = []) := by
    decide
  simp only [cmd.runAdd, h1, h2, h3, hread, List.any_nil, Bool.false_eq_true, if_false, h4, h8,
    h5, cmd.runAdd.finish, hwrite, h7, h6, Example.afterBlogPosts]

/-! ## C4: a duplicate path is refused before any change -/

/-- C4: for every registry and every raw path (without a colon, so that it
has a normalized `Path`) whose normalized `Path` is case-insensitively equal
to the `Path` of a route of the registry, `route add` fails with "route
already exists" and the state (the registry file and the whole file tree:
pages, views, controllers) is the state before the command. -/
theorem C4_duplicate_rejected (U : Unicode) (cfg : config.Config) (flags : cmd.AddFlags)
    (raw : GoString) (w : World) (rs : List routes.Route) (rt : routes.Route)
    (hcolon : ':' ∉ raw) (hread : routes.Read U w.routesJSON = .ok rs) (hmem : rt ∈ rs)
    (hfold : strings.EqualFold U rt.Path (cmd.pascalPath U raw) = true) :
    cmd.runAdd U cfg flags raw w = (some (.routeExists (cmd.pascalPath U raw)), w) := by
  have hc : strings.Contains raw (lit ":") = false := by
    have : lit ":" = [':'] := rfl
    rw [this, strings.Contains_singleton]; simpa using hcolon
  have hany : rs.any (fun rt => strings.EqualFold U rt.Path (cmd.pascalPath U raw)) = true :=
    List.any_eq_true.2 ⟨rt, hmem, hfold⟩
  simp only [cmd.runAdd, hc, hread, hany, Bool.false_eq_true, if_false, if_true]

set_option maxRecDepth 1000000 in
set_option maxHeartbeats 8000000 in
/-- C4, witness: `route add /BLOG/posts` on the project that holds
`/Blog/Posts`. -/
theorem C4_duplicate_rejected_witness :
    ':' ∉ lit "/BLOG/posts" ∧
    routes.Read Unicode.ascii Example.afterBlogPosts.routesJSON = .ok [Example.blogPosts] ∧
    Example.blogPosts ∈ [Example.blogPosts] ∧
    strings.EqualFold Unicode.ascii Example.blogPosts.Path
      (cmd.pascalPath Unicode.ascii (lit "/BLOG/posts")) = true ∧
    cmd.runAdd Unicode.ascii Example.cfg Example.blogList (lit "/BLOG/posts")
      Example.afterBlogPosts
      = (some (.routeExists (cmd.pascalPath Unicode.ascii (lit "/BLOG/posts"))),
         Example.afterBlogPosts) :=
  ⟨by decide, rfl, List.mem_singleton.2 rfl, rfl,
    C4_duplicate_rejected Unicode.ascii Example.cfg Example.blogList (lit "/BLOG/posts")
      Example.afterBlogPosts [Example.blogPosts] Example.blogPosts (by decide) rfl
      (List.mem_singleton.2 rfl) rfl⟩

/-! ## C6: the route that `route add` appends -/

/-- When `EnsureController` returns no error, the name it returns ends in
`Controller`, so it is not empty. -/
theorem scaffold.EnsureController_name (U : Unicode) (path : Path)
    (name action view : GoString) (fs : Node)
    (h : (scaffold.EnsureController U path name action view fs).1.2 = none) :
    (scaffold.EnsureController U path name action view fs).1.1 ≠ [] := by
  have hne : (if ¬ strings.HasSuffix name (lit "Controller") then name ++ lit "Controller"
      else name) ≠ [] := by
    by_cases hs : strings.HasSuffix name (lit "Controller") = true
    · simp only [hs, not_true_eq_false, if_false]
      intro hn
      subst hn
      exact absurd hs (by decide)
    · simp only [hs, not_false_eq_true, if_true]
      intro hn
      have := congrArg List.length hn
      simp at this
  revert h
  simp only [scaffold.EnsureController]
  generalize (if ¬ strings.HasSuffix name (lit "Controller") then name ++ lit "Controller"
    else name) = name' at hne ⊢
  generalize filepath.Join path (name' ++ lit ".cs") = file
  cases os.Stat fs file with
  | error e =>
    simp only
    cases os.WriteFile fs file (scaffold.ControllerTemplate name' action view) with
    | error e2 => intro h; cases h
    | ok fs1 => intro _; exact hne
  | ok n =>
    simp only
    cases os.ReadFile fs file with
    | error e => intro h; cases h
    | ok content =>
      simp only
      cases regexp.MatchAction U action content with
      | true => intro h; cases h
      | false =>
        simp only [Bool.false_eq_true, if_false]
        cases scaffold.lastIndexBrace content with
        | none => intro h; cases h
        | some idx =>
          simp only
          cases os.WriteFile fs file
              (content.take idx ++ scaffold.ActionTemplate action view ++ content.drop idx) with
          | error e2 => intro h; cases h
          | ok fs1 => intro _; exact hne

/-- The part of C6 that holds: when `EnsureController` does not answer
"action already exists", the route that lines 75-127 of `runAdd` hand on
has `Action` set if and only if `Controller` is. -/
theorem cmd.runAdd.ensure_ActionIffController (U : Unicode) (cfg : config.Config)
    (flags : cmd.AddFlags) (pascalPath name : GoString) (files : routes.Files) (fs : Node)
    (hflags : ¬ (flags.addController ≠ [] ∧ flags.addAction = []))
    (hnot : (scaffold.EnsureController U cfg.ControllersDir flags.addController
      flags.addAction files.View fs).1.2 ≠ some .actionExists)
    (hok : (cmd.runAdd.ensure U cfg files
      (cmd.runAdd.newRoute flags pascalPath name files (cmd.runAdd.controllerInfo flags)) fs
      (cmd.runAdd.controllerInfo flags)).1 = none) :
    (cmd.runAdd.ensure U cfg files
      (cmd.runAdd.newRoute flags pascalPath name files (cmd.runAdd.controllerInfo flags)) fs
      (cmd.runAdd.controllerInfo flags)).2.1.ActionIffController := by
  by_cases hc : flags.addController = []
  · have hci : cmd.runAdd.controllerInfo flags = none := by
      simp [cmd.runAdd.controllerInfo, hc]
    rw [hci]
    simp [cmd.runAdd.ensure, cmd.runAdd.newRoute, routes.Route.ActionIffController]
  · have ha : flags.addAction ≠ [] := fun h => hflags ⟨hc, h⟩
    have hci : cmd.runAdd.controllerInfo flags
        = some { Name := flags.addController, Action := flags.addAction } := by
      simp [cmd.runAdd.controllerInfo, hc]
    rw [hci] at hok ⊢
    simp only [cmd.runAdd.ensure] at hok ⊢
    rcases scaffold.EnsureController_cases U cfg.ControllersDir flags.addController
      flags.addAction files.View fs with _ | _ <;>
    · revert hok hnot
      have hname := scaffold.EnsureController_name U cfg.ControllersDir flags.addController
        flags.addAction files.View fs
      revert hname
      generalize scaffold.EnsureController U cfg.ControllersDir flags.addController
        flags.addAction files.View fs = res
      obtain ⟨⟨safeName, err⟩, fs1⟩ := res
      intro hname hnot hok
      simp only at hname hnot hok ⊢
      cases err with
      | some e =>
        simp only [ne_eq, reduceCtorEq, not_false_eq_true, true_and, Option.some.injEq] at hok
        by_cases he : e = Err.actionExists
        · subst he; exact absurd rfl hnot
        · simp [he] at hok
      | none =>
        have hsafe : safeName ≠ [] := hname rfl
        simp [routes.Route.ActionIffController, cmd.runAdd.newRoute, ha, hsafe]

set_option maxRecDepth 1000000 in
set_option maxHeartbeats 8000000 in
/-- C6, the code at the failing input: on the project that holds
`/Blog/Posts` with `BlogController.cs` and its action `List`, `route add
/blog/archive --controller Blog --action List` succeeds and the registry it
writes holds the route `/Blog/Archive` with `Action` `List` and an empty
`Controller`. -/
theorem C6_action_without_controller (U : Unicode) :
    ∃ w' : World,
      cmd.runAdd U Example.cfg Example.blogList (lit "/blog/archive") Example.afterBlogPosts
        = (none, w') ∧
      routes.Read U w'.routesJSON = .ok [Example.blogArchive, Example.blogPosts] ∧
      Example.blogArchive.Path = lit "/Blog/Archive" ∧
      Example.blogArchive.Action = lit "List" ∧
      Example.blogArchive.Controller = [] ∧
      ¬ Example.blogArchive.ActionIffController := by
  refine ⟨{ routesJSON := .json (routes.Marshal [Example.blogArchive, Example.blogPosts]),
            fs := (scaffold.ScaffoldRouteFiles U Example.cfg (lit "Blog/Archive")
              Example.blogArchive.Files { NoView := Example.blogList.addNoView } none
              Example.blogTree).2 }, ?_, rfl, rfl, rfl, rfl,
    fun h => (Iff.mp h (by decide)) rfl⟩
  have h1 : strings.Contains (lit "/blog/archive") (lit ":") = false := rfl
  have h2 : cmd.pascalPath U (lit "/blog/archive") = lit "/Blog/Archive" := rfl
  have h3 : cmd.name U (lit "/blog/archive") = lit "Blog/Archive" := rfl
  have hread : routes.Read U Example.afterBlogPosts.routesJSON = .ok [Example.blogPosts] := rfl
  have hany : [Example.blogPosts].any
      (fun rt => strings.EqualFold U rt.Path (lit "/Blog/Archive")) = false := rfl
  have h4 : routes.ResolvePaths U (lit "Blog/Archive") Example.blogList.addFlat
      = some Example.blogArchive.Files := rfl
  have hmatch : regexp.MatchAction U (lit "List")
      (scaffold.ControllerTemplate (lit "BlogController") (lit "List")
        (lit "Views/Blog/Posts/Index.cshtml")) = true :=
    scaffold.MatchAction_ControllerTemplate U _ _ _
  have hstat : os.Stat Example.blogTree
      (filepath.Join Example.cfg.ControllersDir (lit "BlogController.cs"))
      = .ok (.file (scaffold.ControllerTemplate (lit "BlogController") (lit "List")
        (lit "Views/Blog/Posts/Index.cshtml"))) := rfl
  have hens : scaffold.EnsureController U Example.cfg.ControllersDir (lit "Blog") (lit "List")
      (lit "Views/Blog/Archive/Index.cshtml") Example.blogTree
      = (([], some .actionExists), Example.blogTree) :=
    scaffold.EnsureController_of_action U _ _ _ _ _ _ hstat hmatch
  have h5 : cmd.runAdd.ensure U Example.cfg Example.blogArchive.Files
      (cmd.runAdd.newRoute Example.blogList (lit "/Blog/Archive") (lit "Blog/Archive")
        Example.blogArchive.Files (cmd.runAdd.controllerInfo Example.blogList))
      Example.afterBlogPosts.fs (cmd.runAdd.controllerInfo Example.blogList)
      = (none, Example.blogArchive, Example.blogTree) := by
    have hci : cmd.runAdd.controllerInfo Example.blogList
        = some { Name := lit "Blog", Action := lit "List" } := rfl
    have hfs : Example.afterBlogPosts.fs = Example.blogTree := rfl
    have hv : Example.blogArchive.Files.View = lit "Views/Blog/Archive/Index.cshtml" := rfl
    rw [hci, hfs]
    simp only [cmd.runAdd.ensure, hv, hens]
    rfl
  have h7 : routes.sortSlice ([Example.blogPosts] ++ [Example.blogArchive])
      = [Example.blogArchive, Example.blogPosts] := rfl
  have h8 : ¬ (Example.blogList.addController ≠ [] ∧ Example.blogList.addAction = []) := by
    decide
  have hw : ∀ rs, routes.Write Example.afterBlogPosts.routesJSON rs
      = .ok (.json (routes.Marshal (routes.sortSlice rs))) := fun _ => rfl
  have h6 := scaffold.ScaffoldRouteFiles_none U Example.cfg (lit "Blog/Archive")
    Example.blogArchive.Files { NoView := Example.blogList.addNoView } Example.blogTree
  have h6' : scaffold.ScaffoldRouteFiles U Example.cfg (lit "Blog/Archive")
      Example.blogArchive.Files { NoView := Example.blogList.addNoView } none Example.blogTree
      = (none, (scaffold.ScaffoldRouteFiles U Example.cfg (lit "Blog/Archive")
          Example.blogArchive.Files { NoView := Example.blogList.addNoView } none
          Example.blogTree).2) := by
    rw [h6]
  simp only [cmd.runAdd, h1, h2, h3, hread, hany, Bool.false_eq_true, if_false, h4, h8,
    h5, cmd.runAdd.finish, hw, h7]
  rw [h6']

/-! ## C5: the registry invariant -/

theorem strings.equalFoldRune_comm (U : Unicode) (a b : Char) :
    strings.equalFoldRune U a b = strings.equalFoldRune U b a := by
  by_cases hab : a = b
  · subst hab; rfl
  · have hba : ¬ b = a := fun e => hab e.symm
    have hne : a.toNat ≠ b.toNat := fun e => hab (Char.eq_of_toNat_eq a b e)
    simp only [strings.equalFoldRune, hab, hba, if_false]
    by_cases h : b.toNat < a.toNat
    · have h2 : ¬ a.toNat < b.toNat := by omega
      simp only [h, h2, if_true, if_false]
    · have h2 : a.toNat < b.toNat := by omega
      simp only [h, h2, if_true, if_false]

theorem strings.EqualFold_comm (U : Unicode) : ∀ s t : GoString,
    strings.EqualFold U s t = strings.EqualFold U t s
  | [], [] => rfl
  | [], _ :: _ => rfl
  | _ :: _, [] => rfl
  | a :: s, b :: t => by
    simp only [strings.EqualFold, strings.equalFoldRune_comm U a b, strings.EqualFold_comm U s t]

theorem strings.EqualFold_refl (U : Unicode) : ∀ s : GoString, strings.EqualFold U s s = true
  | [] => rfl
  | a :: s => by
    simp [strings.EqualFold, strings.equalFoldRune, strings.EqualFold_refl U s]

/-- The invariant does not depend on the order of the routes. -/
theorem routes.UniquePaths_perm (U : Unicode) {l₁ l₂ : List routes.Route} (h : l₁.Perm l₂) :
    routes.UniquePaths U l₁ ↔ routes.UniquePaths U l₂ :=
  h.pairwise_iff (fun {a b} hab => by rw [strings.EqualFold_comm]; exact hab)

/-- What `Write` stores keeps the invariant of the list it is given. -/
theorem routes.Write_UniquePaths (U : Unicode) (file file' : routes.RegistryFile)
    (rs : List routes.Route) (hu : routes.UniquePaths U rs)
    (hw : routes.Write file rs = .ok file') :
    ∃ out, file' = .json (routes.Marshal out) ∧ out.Perm rs ∧ routes.UniquePaths U out := by
  refine ⟨routes.sortSlice rs, ?_, routes.sortSlice_perm rs,
    (routes.UniquePaths_perm U (routes.sortSlice_perm rs)).2 hu⟩
  cases file with
  | directory => cases hw
  | absent => exact (Except.ok.inj hw).symm
  | text => exact (Except.ok.inj hw).symm
  | json doc => exact (Except.ok.inj hw).symm

theorem cmd.runAdd.ensure_Path (U : Unicode) (cfg : config.Config) (files : routes.Files)
    (newRoute : routes.Route) (fs : Node) (ci : Option scaffold.ControllerInfo) :
    (cmd.runAdd.ensure U cfg files newRoute fs ci).2.1.Path = newRoute.Path := by
  cases ci with
  | none => rfl
  | some c =>
    simp only [cmd.runAdd.ensure]
    split <;> rfl

theorem cmd.runAdd.finish_registry (U : Unicode) (cfg : config.Config) (flags : cmd.AddFlags)
    (name : GoString) (files : routes.Files) (r : List routes.Route) (w : World)
    (x : Option Err × routes.Route × Node) :
    (cmd.runAdd.finish U cfg flags name files r w x).2.routesJSON = w.routesJSON ∨
    ∃ file, routes.Write w.routesJSON (r ++ [x.2.1]) = .ok file ∧
      (cmd.runAdd.finish U cfg flags name files r w x).2.routesJSON = file := by
  obtain ⟨e, newRoute, fs1⟩ := x
  cases e with
  | some e => exact Or.inl rfl
  | none =>
    simp only [cmd.runAdd.finish]
    cases hw : routes.Write w.routesJSON (r ++ [newRoute]) with
    | error e => exact Or.inl rfl
    | ok file => exact Or.inr ⟨file, rfl, rfl⟩

/-- The part of C5 that holds, for `route add`: whatever the outcome of the
command, the registry file is the one before, or it holds a list of routes
without two case-insensitively equal `Path`s. -/
theorem cmd.runAdd_UniquePaths (U : Unicode) (cfg : config.Config) (flags : cmd.AddFlags)
    (raw : GoString) (w : World) (rs : List routes.Route)
    (hread : routes.Read U w.routesJSON = .ok rs) (hu : routes.UniquePaths U rs) :
    (cmd.runAdd U cfg flags raw w).2.routesJSON = w.routesJSON ∨
    ∃ out, (cmd.runAdd U cfg flags raw w).2.routesJSON = .json (routes.Marshal out) ∧
      routes.UniquePaths U out := by
  simp only [cmd.runAdd, hread]
  split
  · exact Or.inl rfl
  · split
    · exact Or.inl rfl
    · rename_i hany
      split
      · exact Or.inl rfl
      · rename_i files _
        split
        · exact Or.inl rfl
        · rcases cmd.runAdd.finish_registry U cfg flags (cmd.name U raw) files rs w
            (cmd.runAdd.ensure U cfg files
              (cmd.runAdd.newRoute flags (cmd.pascalPath U raw) (cmd.name U raw) files
                (cmd.runAdd.controllerInfo flags)) w.fs (cmd.runAdd.controllerInfo flags))
            with h | ⟨file, hw, h⟩
          · exact Or.inl h
          · right
            have hpath := cmd.runAdd.ensure_Path U cfg files
              (cmd.runAdd.newRoute flags (cmd.pascalPath U raw) (cmd.name U raw) files
                (cmd.runAdd.controllerInfo flags)) w.fs (cmd.runAdd.controllerInfo flags)
            have hnew : routes.UniquePaths U (rs ++ [(cmd.runAdd.ensure U cfg files
                (cmd.runAdd.newRoute flags (cmd.pascalPath U raw) (cmd.name U raw) files
                  (cmd.runAdd.controllerInfo flags)) w.fs
                (cmd.runAdd.controllerInfo flags)).2.1]) := by
              refine List.pairwise_append.2 ⟨hu, List.pairwise_singleton _ _, ?_⟩
              intro a ha b hb
              rw [List.mem_singleton] at hb
              subst hb
              rw [hpath]
              have hall : ¬ (rs.any
                  (fun rt => strings.EqualFold U rt.Path (cmd.pascalPath U raw)) = true) := hany
              show strings.EqualFold U a.Path (cmd.pascalPath U raw) = false
              cases hf : strings.EqualFold U a.Path (cmd.pascalPath U raw) with
              | false => rfl
              | true => exact absurd (List.any_eq_true.2 ⟨a, ha, hf⟩) hall
            obtain ⟨out, hout, _, huo⟩ := routes.Write_UniquePaths U _ _ _ hnew hw
            exact ⟨out, by rw [h, hout], huo⟩

/-- The part of C5 that holds, for the prune of `route sync`. -/
theorem cmd.syncPrune_UniquePaths (U : Unicode) (missingRoutes rs : List routes.Route)
    (w : World) (hu : routes.UniquePaths U rs) :
    (cmd.syncPrune missingRoutes rs w).2.routesJSON = w.routesJSON ∨
    ∃ out, (cmd.syncPrune missingRoutes rs w).2.routesJSON = .json (routes.Marshal out) ∧
      routes.UniquePaths U out := by
  simp only [cmd.syncPrune]
  cases hw : routes.Write w.routesJSON
      (rs.filter (fun rt => ¬ rt.Path ∈ missingRoutes.map (fun m => m.Path))) with
  | error e => exact Or.inl rfl
  | ok file =>
    right
    have hf : routes.UniquePaths U
        (rs.filter (fun rt => ¬ rt.Path ∈ missingRoutes.map (fun m => m.Path))) :=
      List.Pairwise.sublist (List.filter_sublist _) hu
    obtain ⟨out, hout, _, huo⟩ := routes.Write_UniquePaths U _ _ _ hf hw
    exact ⟨out, hout, huo⟩

set_option maxRecDepth 1000000 in
set_option maxHeartbeats 8000000 in
/-- C5, the code at the failing input: in a project with an empty registry
(which has the invariant) and two untracked pages,
`src/pages/Foo/index.page.tsx` and `src/pages/Foo.page.tsx`, the adoption
of `route sync` with both candidates confirmed succeeds and writes a
registry with two routes of `Path` `/Foo`: the invariant is lost. -/
theorem C5_adopt_breaks_uniqueness (U : Unicode) :
    routes.Read U Example.twoPages.routesJSON = .ok [] ∧
    routes.UniquePaths U [] ∧
    os.ReadFile Example.twoPages.fs
        (filepath.Join Example.cfg.ClientDir (lit "src/pages/Foo/index.page.tsx"))
      = .ok (lit "export default 1;\n") ∧
    os.ReadFile Example.twoPages.fs
        (filepath.Join Example.cfg.ClientDir (lit "src/pages/Foo.page.tsx"))
      = .ok (lit "export default 2;\n") ∧
    ∃ w' : World,
      cmd.syncAddUntracked U Example.cfg []
        [lit "src/pages/Foo/index.page.tsx", lit "src/pages/Foo.page.tsx"] []
        (.ok [0, 1]) Example.twoPages = (none, w') ∧
      routes.Read U w'.routesJSON
        = .ok [Example.foo (lit "src/pages/Foo/index.page.tsx"),
               Example.foo (lit "src/pages/Foo.page.tsx")] ∧
      ¬ routes.UniquePaths U [Example.foo (lit "src/pages/Foo/index.page.tsx"),
                               Example.foo (lit "src/pages/Foo.page.tsx")] := by
  refine ⟨rfl, List.Pairwise.nil, rfl, rfl, ?_⟩
  have hc : [lit "src/pages/Foo/index.page.tsx", lit "src/pages/Foo.page.tsx"].map
      (cmd.adoptCandidate U [])
      = [Example.foo (lit "src/pages/Foo/index.page.tsx"),
         Example.foo (lit "src/pages/Foo.page.tsx")] := rfl
  have hs1 : (cmd.adoptSelected Example.cfg
      [Example.foo (lit "src/pages/Foo/index.page.tsx"),
       Example.foo (lit "src/pages/Foo.page.tsx")] [0, 1] ([], Example.twoPages.fs)).1
      = true := rfl
  have hs2 : (cmd.adoptSelected Example.cfg
      [Example.foo (lit "src/pages/Foo/index.page.tsx"),
       Example.foo (lit "src/pages/Foo.page.tsx")] [0, 1] ([], Example.twoPages.fs)).2.1
      = [Example.foo (lit "src/pages/Foo/index.page.tsx"),
         Example.foo (lit "src/pages/Foo.page.tsx")] := rfl
  have hsort : routes.sortSlice [Example.foo (lit "src/pages/Foo/index.page.tsx"),
      Example.foo (lit "src/pages/Foo.page.tsx")]
      = [Example.foo (lit "src/pages/Foo/index.page.tsx"),
         Example.foo (lit "src/pages/Foo.page.tsx")] := rfl
  have hw : ∀ rs, routes.Write Example.twoPages.routesJSON rs
      = .ok (.json (routes.Marshal (routes.sortSlice rs))) := fun _ => rfl
  refine ⟨{ routesJSON := .json (routes.Marshal
              [Example.foo (lit "src/pages/Foo/index.page.tsx"),
               Example.foo (lit "src/pages/Foo.page.tsx")]),
            fs := (cmd.adoptSelected Example.cfg
              [Example.foo (lit "src/pages/Foo/index.page.tsx"),
               Example.foo (lit "src/pages/Foo.page.tsx")] [0, 1]
              ([], Example.twoPages.fs)).2.2 }, ?_, rfl, ?_⟩
  · simp only [cmd.syncAddUntracked, hc]
    revert hs1 hs2
    generalize cmd.adoptSelected Example.cfg
      [Example.foo (lit "src/pages/Foo/index.page.tsx"),
       Example.foo (lit "src/pages/Foo.page.tsx")] [0, 1] ([], Example.twoPages.fs) = res
    obtain ⟨b, r, fs'⟩ := res
    intro hs1 hs2
    simp only at hs1 hs2
    subst hs1 hs2
    simp only [hw, hsort]
    rfl
  · intro hu
    have h2 : strings.EqualFold U (lit "/Foo") (lit "/Foo") = false :=
      List.rel_of_pairwise_cons hu (List.mem_singleton.2 rfl)
    rw [strings.EqualFold_refl] at h2
    cases h2


/-! ## Witnesses -/

/-- C8, witness: two routes out of order, one with flags, controller and
`SEO`, written where there is no registry yet. -/
theorem C8_Write_Read_round_trip_witness :
    (∀ r ∈ [Example.blogPosts, Example.about], StringMap.Ordered r.SEO) ∧
    routes.RegistryFile.absent ≠ .directory ∧
    ∃ (file' : routes.RegistryFile) (out : List routes.Route),
      routes.Write .absent [Example.blogPosts, Example.about] = .ok file' ∧
      routes.Read Unicode.ascii file' = .ok out ∧
      out.Perm [Example.blogPosts, Example.about] :=
  ⟨by decide, (fun h => by cases h),
    C8_Write_Read_round_trip Unicode.ascii [Example.blogPosts, Example.about] .absent
      (by decide) (fun h => by cases h)⟩

/-! ## C12: where the action is injected -/

theorem scaffold.lastIndexBrace_of_split (pre post : GoString) (h : '\x7d' ∉ post) :
    scaffold.lastIndexBrace (pre ++ '\x7d' :: post) = some pre.length := by
  have hrev : (pre ++ '\x7d' :: post).reverse = post.reverse ++ '\x7d' :: pre.reverse := by
    simp
  have hnone : List.findIdx? (fun x => x == Char.ofNat 125) post.reverse = none := by
    rw [List.findIdx?_eq_none_iff]
    intro x hx
    have hx' : x ∈ post := List.mem_reverse.1 hx
    have : x ≠ '\x7d' := fun e => h (e ▸ hx')
    simpa using this
  have hidx : (post.reverse ++ '\x7d' :: pre.reverse).indexOf? (Char.ofNat 125)
      = some post.length := by
    simp only [List.indexOf?, List.findIdx?_append, hnone, List.findIdx?_cons]
    simp
  simp only [scaffold.lastIndexBrace, hrev, hidx, List.length_append, List.length_cons]
  congr 1
  omega

theorem scaffold.lastIndexBrace_of_not_mem (content : GoString) (h : '\x7d' ∉ content) :
    scaffold.lastIndexBrace content = none := by
  have hnone : content.reverse.indexOf? (Char.ofNat 125) = none := by
    simp only [List.indexOf?]
    rw [List.findIdx?_eq_none_iff]
    intro x hx
    have hx' : x ∈ content := List.mem_reverse.1 hx
    have : x ≠ '\x7d' := fun e => h (e ▸ hx')
    simpa using this
  simp only [scaffold.lastIndexBrace, hnone]

/-- Writing to a path other than the root that holds a regular file
succeeds. -/
theorem os.WriteFile_of_file (data : GoString) : ∀ (p : Path) (fs : Node) (d : GoString),
    p ≠ [] → os.Stat fs p = .ok (.file d) → ∃ fs', os.WriteFile fs p data = .ok fs'
  | [], _, _, hp, _ => absurd rfl hp
  | [c], fs, d, _, h => by
    cases fs with
    | file d0 => cases h
    | dir es =>
      rw [os.Stat_dir_cons] at h
      cases hl : es.lookup c with
      | none => rw [hl] at h; cases h
      | some child =>
        rw [hl] at h
        simp only [os.Stat_nil] at h
        have : child = .file d := Except.ok.inj h
        subst this
        exact ⟨.dir (Node.setEntry es c (.file data)), by simp only [os.WriteFile, hl]⟩
  | c :: c2 :: cs, fs, d, _, h => by
    cases fs with
    | file d0 => cases h
    | dir es =>
      rw [os.Stat_dir_cons] at h
      cases hl : es.lookup c with
      | none => rw [hl] at h; cases h
      | some child =>
        rw [hl] at h
        obtain ⟨n, hn⟩ := os.WriteFile_of_file data (c2 :: cs) child d (by simp) h
        exact ⟨.dir (Node.setEntry es c n), by simp only [os.WriteFile, hl, hn, Except.map]⟩

/-- The last piece of `strings.Split` is what follows the last separator. -/
theorem strings.Split_eq_append_last (s : GoString) (sep : Char) :
    ∃ (l : List GoString) (x : GoString), strings.Split s sep = l ++ [x] ∧ x <:+ s := by
  have hne : strings.Split s sep ≠ [] := by
    simp only [strings.Split, List.splitOn]
    exact List.splitOnP_ne_nil _ _
  obtain ⟨l, x, hlx⟩ : ∃ l x, strings.Split s sep = l ++ [x] :=
    ⟨(strings.Split s sep).dropLast, (strings.Split s sep).getLast hne,
      (List.dropLast_append_getLast hne).symm⟩
  refine ⟨l, x, hlx, ?_⟩
  have hj : strings.Join (strings.Split s sep) [sep] = s := List.intercalate_splitOn s sep
  rw [hlx] at hj
  rw [← hj]
  cases l with
  | nil => simp [strings.Join, List.intercalate]
  | cons y ys =>
    rw [List.cons_append, strings.Join_cons]
    simp only [List.map_append, List.flatten_append, List.map_cons, List.map_nil,
      List.flatten_cons, List.flatten_nil, List.append_nil]
    exact ⟨y ++ ((ys.map (fun p => [sep] ++ p)).flatten ++ [sep]), by simp⟩

/-- The path `filepath.Join` makes ends in the last piece of the element,
when that piece is a name. -/
theorem filepath.Join_of_last (dir : Path) (elem : GoString) (l : List GoString) (x : GoString)
    (hsplit : strings.Split elem '/' = l ++ [x])
    (hx : x ≠ [] ∧ x ≠ lit "." ∧ x ≠ lit "..") :
    ∃ p, filepath.Join dir elem = p ++ [x] := by
  simp only [filepath.Join, hsplit, List.foldl_append, List.foldl_cons, List.foldl_nil]
  simp only [hx.1, hx.2.1, hx.2.2, false_or, if_false]
  exact ⟨_, rfl⟩

/-- The file of a controller is not the root. -/
theorem scaffold.controllerFile_ne_nil (path : Path) (name : GoString) :
    scaffold.controllerFile path name ≠ [] := by
  obtain ⟨l, x, hsplit, hsuf⟩ := strings.Split_eq_append_last (scaffold.safeName name ++ lit ".cs") '/'
  have hx : x ≠ [] ∧ x ≠ lit "." ∧ x ≠ lit ".." := by
    obtain ⟨t, ht⟩ := hsuf
    have hlast : (scaffold.safeName name ++ lit ".cs").getLast? = some 's' := by
      simp [List.getLast?_append]
    have hjoin := List.intercalate_splitOn (scaffold.safeName name ++ lit ".cs") '/'
    refine ⟨?_, ?_, ?_⟩
    · rintro rfl
      have hs : strings.Split (scaffold.safeName name ++ lit ".cs") '/' = l ++ [[]] := hsplit
      simp only [strings.Split] at hs
      rw [hs] at hjoin
      have h2 : (['/'].intercalate (l ++ [[]])).getLast? = some 's' := by rw [hjoin]; exact hlast
      cases l with
      | nil => simp [List.intercalate] at h2
      | cons y ys =>
        have h3 := strings.Join_cons ['/'] y (ys ++ [[]])
        simp only [strings.Join] at h3
        rw [List.cons_append, h3] at h2
        simp [List.getLast?_append] at h2
    · rintro rfl
      rw [← ht] at hlast
      simp [List.getLast?_append] at hlast
    · rintro rfl
      rw [← ht] at hlast
      simp [List.getLast?_append] at hlast
  obtain ⟨p, hp⟩ := filepath.Join_of_last path _ l x hsplit hx
  simp only [scaffold.controllerFile, hp]
  simp

/-- C12: for every controller file that exists with a content holding no
signature of the action: when the content is `pre ++ "}" ++ post` with no
`}` in `post` (so that `pre.length` is the index of its last `}`),
`EnsureController` succeeds with the completed controller name and rewrites
the file to `content[0..i) ++ ActionTemplate(action, view) ++ content[i..]`
with `i = pre.length`, which is `pre`, the snippet, then `}` and `post`,
every other file left as it was; when the content holds no `}`, the call
fails with "invalid controller file" and nothing changes. -/
theorem C12_injection_position (U : Unicode) (path : Path) (name action view : GoString)
    (fs : Node) (content : GoString)
    (hfile : os.Stat fs (scaffold.controllerFile path name) = .ok (.file content))
    (hno : regexp.MatchAction U action content = false) :
    (∀ pre post : GoString, content = pre ++ '\x7d' :: post → '\x7d' ∉ post →
      ∃ fs' : Node,
        scaffold.EnsureController U path name action view fs
          = ((scaffold.safeName name, none), fs') ∧
        os.Stat fs' (scaffold.controllerFile path name)
          = .ok (.file (content.take pre.length ++ scaffold.ActionTemplate action view
              ++ content.drop pre.length)) ∧
        content.take pre.length ++ scaffold.ActionTemplate action view
            ++ content.drop pre.length
          = pre ++ scaffold.ActionTemplate action view ++ '\x7d' :: post ∧
        (∀ (q : Path) (d : GoString), q ≠ scaffold.controllerFile path name →
          os.Stat fs q = .ok (.file d) → os.Stat fs' q = .ok (.file d))) ∧
    ('\x7d' ∉ content →
      scaffold.EnsureController U path name action view fs
        = (([], some .invalidControllerFile), fs)) := by
  have hread : os.ReadFile fs (scaffold.controllerFile path name) = .ok content := by
    simp only [os.ReadFile, hfile]
  have hfile' : os.Stat fs (filepath.Join path
      ((if ¬ strings.HasSuffix name (lit "Controller") then name ++ lit "Controller"
        else name) ++ lit ".cs")) = .ok (.file content) := hfile
  have hread' : os.ReadFile fs (filepath.Join path
      ((if ¬ strings.HasSuffix name (lit "Controller") then name ++ lit "Controller"
        else name) ++ lit ".cs")) = .ok content := hread
  constructor
  · intro pre post hcontent hpost
    have hidx : scaffold.lastIndexBrace content = some pre.length := by
      rw [hcontent]; exact scaffold.lastIndexBrace_of_split pre post hpost
    obtain ⟨fs', hw⟩ := os.WriteFile_of_file
      (content.take pre.length ++ scaffold.ActionTemplate action view
        ++ content.drop pre.length)
      (scaffold.controllerFile path name) fs content
      (scaffold.controllerFile_ne_nil path name) hfile
    have hw' : os.WriteFile fs (filepath.Join path
        ((if ¬ strings.HasSuffix name (lit "Controller") then name ++ lit "Controller"
          else name) ++ lit ".cs"))
        (content.take pre.length ++ scaffold.ActionTemplate action view
          ++ content.drop pre.length) = .ok fs' := hw
    refine ⟨fs', ?_, os.Stat_WriteFile_self _ _ fs fs' hw, ?_, ?_⟩
    · simp only [scaffold.EnsureController, hfile', hread', hno, Bool.false_eq_true, if_false,
        hidx, hw', scaffold.safeName]
    · rw [hcontent]
      simp
    · intro q d hq hstat
      exact (os.WriteFile_frame _ _ fs fs' hw q).1 d hstat hq
  · intro hnone
    have hidx := scaffold.lastIndexBrace_of_not_mem content hnone
    simp only [scaffold.EnsureController, hfile', hread', hno, Bool.false_eq_true, if_false,
      hidx]

set_option maxRecDepth 1000000 in
set_option maxHeartbeats 8000000 in
/-- C12, witness: the action `Show` injected into the `BlogController.cs` of
the project that holds `/Blog/Posts`. -/
theorem C12_injection_position_witness :
    os.Stat Example.blogTree (scaffold.controllerFile Example.cfg.ControllersDir (lit "Blog"))
      = .ok (.file (scaffold.ControllerTemplate (lit "BlogController") (lit "List")
          (lit "Views/Blog/Posts/Index.cshtml"))) ∧
    regexp.MatchAction Unicode.ascii (lit "Show")
      (scaffold.ControllerTemplate (lit "BlogController") (lit "List")
        (lit "Views/Blog/Posts/Index.cshtml")) = false ∧
    ∃ fs' : Node,
      scaffold.EnsureController Unicode.ascii Example.cfg.ControllersDir (lit "Blog")
        (lit "Show") (lit "Views/Blog/Show/Index.cshtml") Example.blogTree
        = ((lit "BlogController", none), fs') ∧
      os.Stat fs' (scaffold.controllerFile Example.cfg.ControllersDir (lit "Blog"))
        = .ok (.file (lit "using Microsoft.AspNetCore.Mvc;\n\nnamespace Poyo.Server.Controllers;\n\npublic class BlogController : Controller\n\x7b\n    public IActionResult List()\n    \x7b\n        return View(\"~/Views/Blog/Posts/Index.cshtml\");\n    \x7d\n\n    public IActionResult Show()\n    \x7b\n        return View(\"~/Views/Blog/Show/Index.cshtml\");\n    \x7d\n\x7d\n")) := by
  have hstat : os.Stat Example.blogTree
      (scaffold.controllerFile Example.cfg.ControllersDir (lit "Blog"))
      = .ok (.file (scaffold.ControllerTemplate (lit "BlogController") (lit "List")
          (lit "Views/Blog/Posts/Index.cshtml"))) := rfl
  have hno : regexp.MatchAction Unicode.ascii (lit "Show")
      (scaffold.ControllerTemplate (lit "BlogController") (lit "List")
        (lit "Views/Blog/Posts/Index.cshtml")) = false := by decide
  obtain ⟨fs', h1, h2, h3, _⟩ :=
    (C12_injection_position Unicode.ascii Example.cfg.ControllersDir (lit "Blog") (lit "Show")
      (lit "Views/Blog/Show/Index.cshtml") Example.blogTree _ hstat hno).1
      (lit "using Microsoft.AspNetCore.Mvc;\n\nnamespace Poyo.Server.Controllers;\n\npublic class BlogController : Controller\n\x7b\n    public IActionResult List()\n    \x7b\n        return View(\"~/Views/Blog/Posts/Index.cshtml\");\n    \x7d\n")
      (lit "\n") (by decide) (by decide)
  refine ⟨hstat, hno, fs', h1, ?_⟩
  rw [h2, h3]
  rfl

/-! ## C16: the flat resolution of a name without pieces -/

theorem routes.ResolvePaths.foldl_step_ne (name : GoString) :
    ∀ st : List GoString × GoString, (st.1 ≠ [] ∨ st.2 ≠ []) →
      (name.foldl routes.ResolvePaths.step st).1 ≠ [] ∨
      (name.foldl routes.ResolvePaths.step st).2 ≠ [] := by
  induction name with
  | nil => intro st h; exact h
  | cons c cs ih =>
    intro st h
    rw [List.foldl_cons]
    apply ih
    unfold routes.ResolvePaths.step
    split_ifs with h1 h2
    · left; simp
    · exact h
    · right; simp

theorem routes.ResolvePaths.foldl_step_of_piece (name : GoString)
    (h : ∃ c ∈ name, c ≠ '/' ∧ c ≠ '\\') :
    ∀ st : List GoString × GoString,
      (name.foldl routes.ResolvePaths.step st).1 ≠ [] ∨
      (name.foldl routes.ResolvePaths.step st).2 ≠ [] := by
  induction name with
  | nil => obtain ⟨c, hc, _⟩ := h; cases hc
  | cons c cs ih =>
    intro st
    rw [List.foldl_cons]
    by_cases hc : c = '/' ∨ c = '\\'
    · apply ih
      obtain ⟨d, hd, hd1, hd2⟩ := h
      rcases List.mem_cons.1 hd with rfl | hd
      · rcases hc with hc | hc
        · exact absurd hc hd1
        · exact absurd hc hd2
      · exact ⟨d, hd, hd1, hd2⟩
    · apply routes.ResolvePaths.foldl_step_ne
      right
      simp [routes.ResolvePaths.step, hc]

theorem routes.ResolvePaths.foldl_step_seps (name : GoString)
    (h : ∀ c ∈ name, c = '/' ∨ c = '\\') :
    name.foldl routes.ResolvePaths.step ([], []) = ([], []) := by
  induction name with
  | nil => rfl
  | cons c cs ih =>
    rw [List.foldl_cons]
    have hc := h c (List.mem_cons_self _ _)
    have : routes.ResolvePaths.step ([], []) c = ([], []) := by
      simp [routes.ResolvePaths.step, hc]
    rw [this]
    exact ih (fun d hd => h d (List.mem_cons_of_mem _ hd))

/-- The flat branch of `ResolvePaths` returns exactly when the name has a
character other than `/` and `\`. -/
theorem routes.ResolvePaths_flat_eq_none_iff (U : Unicode) (name : GoString) :
    routes.ResolvePaths U name true = none ↔ ∀ c ∈ name, c = '/' ∨ c = '\\' := by
  constructor
  · intro h
    by_contra hne
    push_neg at hne
    have hp := routes.ResolvePaths.foldl_step_of_piece name hne ([], [])
    have hparts : routes.ResolvePaths.parts name ≠ [] := by
      unfold routes.ResolvePaths.parts
      simp only []
      split_ifs with h2
      · simp
      · rcases hp with hp | hp
        · exact hp
        · exact absurd hp h2
    have : (routes.ResolvePaths.parts name).getLast? ≠ none := by
      simpa [List.getLast?_eq_none_iff] using hparts
    simp only [routes.ResolvePaths, if_true] at h
    split at h
    · rename_i hnone; exact this hnone
    · cases h
  · intro h
    have hparts : routes.ResolvePaths.parts name = [] := by
      simp [routes.ResolvePaths.parts, routes.ResolvePaths.foldl_step_seps name h]
    simp [routes.ResolvePaths, hparts]

/-- C16, the failing run: `route add / --flat` (and `route add "" --flat`)
passes the colon guard with the empty `Name`, the flat branch of
`ResolvePaths` then has no piece and its `parts[len(parts)-1]` is out of
range, and `runAdd` ends in that panic with the registry and the tree
untouched; the nested branch returns a `Files` value on the same `Name`. -/
theorem C16_flat_empty_name_panics (U : Unicode) :
    cmd.normalize U (lit "/") = .ok (lit "/", []) ∧
    cmd.normalize U [] = .ok (lit "/", []) ∧
    routes.ResolvePaths.parts [] = [] ∧
    routes.ResolvePaths U [] true = none ∧
    (routes.ResolvePaths U [] false).isSome = true ∧
    cmd.runAdd U Example.cfg Example.flat (lit "/")
        { routesJSON := .absent, fs := Example.tree }
      = (some .indexOutOfRange, { routesJSON := .absent, fs := Example.tree }) ∧
    cmd.runAdd U Example.cfg Example.flat []
        { routesJSON := .absent, fs := Example.tree }
      = (some .indexOutOfRange, { routesJSON := .absent, fs := Example.tree }) := by
  refine ⟨rfl, rfl, rfl, rfl, rfl, ?_, ?_⟩
  · have h1 : strings.Contains (lit "/") (lit ":") = false := rfl
    have h2 : cmd.pascalPath U (lit "/") = lit "/" := rfl
    have h3 : cmd.name U (lit "/") = [] := rfl
    have h4 : routes.ResolvePaths U [] Example.flat.addFlat = none := rfl
    have hread : routes.Read U .absent = .ok [] := rfl
    simp only [cmd.runAdd, h1, h2, h3, hread, List.any_nil, Bool.false_eq_true, if_false, h4]
  · have h1 : strings.Contains [] (lit ":") = false := rfl
    have h2 : cmd.pascalPath U [] = lit "/" := rfl
    have h3 : cmd.name U [] = [] := rfl
    have h4 : routes.ResolvePaths U [] Example.flat.addFlat = none := rfl
    have hread : routes.Read U .absent = .ok [] := rfl
    simp only [cmd.runAdd, h1, h2, h3, hread, List.any_nil, Bool.false_eq_true, if_false, h4]

/-! ## C17: the lookup of `route update` and `route remove` -/

set_option maxRecDepth 1000000 in
set_option maxHeartbeats 8000000 in
theorem cmd.runAdd_userProfile (U : Unicode) :
    cmd.runAdd U Example.cfg Example.noFlags (lit "//User/Profile")
        { routesJSON := .absent, fs := Example.tree }
      = (none, Example.afterUserProfile) := by
  have h1 : strings.Contains (lit "//User/Profile") (lit ":") = false := rfl
  have h2 : cmd.pascalPath U (lit "//User/Profile") = lit "/User/Profile" := rfl
  have h3 : cmd.name U (lit "//User/Profile") = lit "User/Profile" := rfl
  have h4 : routes.ResolvePaths U (lit "User/Profile") Example.noFlags.addFlat
      = some Example.userProfile.Files := rfl
  have hread : routes.Read U .absent = .ok [] := rfl
  have h5 : cmd.runAdd.ensure U Example.cfg Example.userProfile.Files
      (cmd.runAdd.newRoute Example.noFlags (lit "/User/Profile") (lit "User/Profile")
        Example.userProfile.Files (cmd.runAdd.controllerInfo Example.noFlags))
      Example.tree (cmd.runAdd.controllerInfo Example.noFlags)
      = (none, Example.userProfile, Example.tree) := rfl
  have h6 : scaffold.ScaffoldRouteFiles U Example.cfg (lit "User/Profile")
      Example.userProfile.Files { NoView := Example.noFlags.addNoView } none Example.tree
      = (none, Example.userProfileTree) := rfl
  have h7 : routes.sortSlice ([] ++ [Example.userProfile]) = [Example.userProfile] := rfl
  have h8 : ¬ (Example.noFlags.addController ≠ [] ∧ Example.noFlags.addAction = []) := by
    decide
  have hwrite : ∀ rs, routes.Write .absent rs
      = .ok (.json (routes.Marshal (routes.sortSlice rs))) := fun _ => rfl
  simp only [cmd.runAdd, h1, h2, h3, hread, List.any_nil, Bool.false_eq_true, if_false, h4, h8,
    h5, cmd.runAdd.finish, hwrite, h7, h6, Example.afterUserProfile]

/-- C17, the failing run: on a fresh project `route add //User/Profile` (the
form that the colon guard of `runAdd` tells Git Bash users to type) succeeds
and registers the route `/User/Profile`; the lookup of `route update` and
`route remove` with the same argument `//User/Profile` against that registry
matches no route, so both commands end with "route not found" and change
nothing.  The same lookup finds the route for `/User/Profile`, for
`User/Profile` and for `/user/profile`; the form with a closing `/`, which
`route add` accepts as well, is not found either. -/
theorem C17_lookup_misses_added_route (U : Unicode) :
    cmd.runAdd U Example.cfg Example.noFlags (lit "//User/Profile")
        { routesJSON := .absent, fs := Example.tree }
      = (none, Example.afterUserProfile) ∧
    routes.Read U Example.afterUserProfile.routesJSON = .ok [Example.userProfile] ∧
    cmd.lookup U [Example.userProfile] (lit "//User/Profile") = none ∧
    cmd.lookupFailure U (lit "//User/Profile") Example.afterUserProfile
      = some (.routeNotFound (lit "//User/Profile"), Example.afterUserProfile) ∧
    cmd.lookup U [Example.userProfile] (lit "/User/Profile") = some 0 ∧
    cmd.lookup U [Example.userProfile] (lit "User/Profile") = some 0 ∧
    cmd.lookup U [Example.userProfile] (lit "/user/profile") = some 0 ∧
    cmd.pascalPath U (lit "/user/profile/") = lit "/User/Profile" ∧
    cmd.lookup U [Example.userProfile] (lit "/user/profile/") = none := by
  have hread : routes.Read U Example.afterUserProfile.routesJSON
      = .ok [Example.userProfile] := rfl
  have hl : cmd.lookup U [Example.userProfile] (lit "//User/Profile") = none := rfl
  refine ⟨cmd.runAdd_userProfile U, hread, hl, ?_, rfl, rfl, rfl, rfl, rfl⟩
  simp only [cmd.lookupFailure, hread, hl]

/-! ## C14: the view of an adoption candidate -/

/-- The loop over the untracked views stops at the first view equal to one
of the two candidates: it answers the flat one exactly when that one is
listed before the nested one. -/
theorem cmd.adoptCandidate.firstMatch (n f : GoString) (hne : n ≠ f) :
    ∀ views : List GoString,
      (match views.find? (fun v => decide (v = n ∨ v = f)) with
        | some v => if v = n then n else f
        | none => n)
      = if views.findIdx (fun v => decide (v = f)) < views.findIdx (fun v => decide (v = n))
        then f else n := by
  intro views
  induction views with
  | nil => simp
  | cons v vs ih =>
    by_cases h1 : v = n
    · subst h1
      simp [List.find?_cons, List.findIdx_cons]
    · by_cases h2 : v = f
      · subst h2
        simp [List.find?_cons, List.findIdx_cons, h1]
      · have e3 : List.find? (fun v => decide (v = n ∨ v = f)) (v :: vs)
            = List.find? (fun v => decide (v = n ∨ v = f)) vs := by
          simp [List.find?_cons, h1, h2]
        rw [e3, ih]
        simp [List.findIdx_cons, h1, h2]

theorem cmd.adoptCandidate.nested_ne_flat (name : GoString) :
    cmd.viewCandidate name ≠ cmd.viewCandidateFlat name := by
  intro h
  have := congrArg List.length h
  simp [cmd.viewCandidate, cmd.viewCandidateFlat, lit] at this

theorem cmd.adoptCandidate_Name (U : Unicode) (views : List GoString) (page : GoString) :
    (cmd.adoptCandidate U views page).Name = (cmd.adoptCandidate U [] page).Name := rfl

theorem cmd.adoptCandidate_View (U : Unicode) (views : List GoString) (page : GoString) :
    (cmd.adoptCandidate U views page).Files.View
      = if Spec.position views (cmd.viewCandidateFlat (cmd.adoptCandidate U [] page).Name)
            < Spec.position views (cmd.viewCandidate (cmd.adoptCandidate U [] page).Name)
        then cmd.viewCandidateFlat (cmd.adoptCandidate U [] page).Name
        else cmd.viewCandidate (cmd.adoptCandidate U [] page).Name := by
  unfold Spec.position
  rw [← cmd.adoptCandidate.firstMatch _ _
    (cmd.adoptCandidate.nested_ne_flat (cmd.adoptCandidate U [] page).Name) views]
  rfl

theorem Spec.pairedView_of_order (n f : GoString) (views : List GoString)
    (h : n ∈ views → Spec.position views n ≤ Spec.position views f) :
    (if Spec.position views f < Spec.position views n then f else n)
      = Spec.pairedView n f views := by
  unfold Spec.pairedView
  unfold Spec.position at h ⊢
  by_cases hn : n ∈ views
  · have := h hn
    rw [if_neg (by omega), if_pos hn]
  · rw [if_neg hn]
    have hn2 : views.findIdx (fun v => decide (v = n)) = views.length :=
      List.findIdx_eq_length.2 (fun x hx => by
        simp only [decide_eq_false_iff_not]; rintro rfl; exact hn hx)
    by_cases hf : f ∈ views
    · have : views.findIdx (fun v => decide (v = f)) < views.length :=
        List.findIdx_lt_length_of_exists ⟨f, hf, by simp⟩
      rw [if_pos (by omega), if_pos hf]
    · have hf2 : views.findIdx (fun v => decide (v = f)) = views.length :=
        List.findIdx_eq_length.2 (fun x hx => by
          simp only [decide_eq_false_iff_not]; rintro rfl; exact hf hx)
      rw [if_neg (by omega), if_neg hf]

/-! ## `os.Remove` -/

theorem Node.lookup_filter_ne (c c' : GoString) :
    ∀ es : List (GoString × Node),
      (es.filter (fun e => decide (e.1 ≠ c))).lookup c' = if c' = c then none else es.lookup c'
  | [] => by simp
  | (k, m) :: es => by
    have ih := Node.lookup_filter_ne c c' es
    by_cases hk : k = c
    · subst hk
      have : List.filter (fun e => decide (e.1 ≠ k)) ((k, m) :: es)
          = List.filter (fun e => decide (e.1 ≠ k)) es := by simp
      rw [this, ih, Node.lookup_cons]
      by_cases h : c' = k <;> simp [h]
    · have : List.filter (fun e => decide (e.1 ≠ c)) ((k, m) :: es)
          = (k, m) :: List.filter (fun e => decide (e.1 ≠ c)) es := by simp [hk]
      rw [this, Node.lookup_cons, Node.lookup_cons, ih]
      by_cases h : c' = k
      · subst h; simp [hk]
      · simp [h]

/-- The shape of a successful `Remove` below a directory. -/
theorem os.Remove_cons_some (es : List (GoString × Node)) (c : GoString) (cs : Path)
    (fs' : Node) (h : os.Remove (.dir es) (c :: cs) = some fs') :
    (cs = [] ∧ (∃ child, es.lookup c = some child ∧ ((∃ d, child = .file d) ∨ child = .dir [])) ∧
      fs' = .dir (es.filter (fun e => decide (e.1 ≠ c)))) ∨
    (cs ≠ [] ∧ ∃ child n, es.lookup c = some child ∧ os.Remove child cs = some n ∧
      fs' = .dir (Node.setEntry es c n)) := by
  cases cs with
  | nil =>
    left
    simp only [os.Remove] at h
    cases hl : es.lookup c with
    | none => rw [hl] at h; cases h
    | some child =>
      rw [hl] at h
      cases child with
      | file d => exact ⟨rfl, ⟨_, rfl, Or.inl ⟨d, rfl⟩⟩, (Option.some.inj h).symm⟩
      | dir es2 =>
        cases es2 with
        | nil => exact ⟨rfl, ⟨_, rfl, Or.inr rfl⟩, (Option.some.inj h).symm⟩
        | cons e es3 => cases h
  | cons c2 cs =>
    right
    simp only [os.Remove] at h
    cases hl : es.lookup c with
    | none => rw [hl] at h; cases h
    | some child =>
      rw [hl] at h
      dsimp only at h
      cases hr : os.Remove child (c2 :: cs) with
      | none => rw [hr] at h; cases h
      | some n =>
        rw [hr] at h
        exact ⟨by simp, child, n, rfl, hr, (Option.some.inj h).symm⟩

theorem os.Remove_file (d : GoString) (p : Path) : os.Remove (.file d) p = none := by
  cases p <;> rfl

/-- After a successful `Remove` nothing is at the path. -/
theorem os.Stat_Remove_self : ∀ (p : Path) (fs fs' : Node),
    os.Remove fs p = some fs' → os.Stat fs' p = .error .ENOENT
  | [], fs, fs', h => by cases fs <;> cases h
  | c :: cs, fs, fs', h => by
    cases fs with
    | file d => rw [os.Remove_file] at h; cases h
    | dir es =>
      rcases os.Remove_cons_some es c cs fs' h with ⟨rfl, _, rfl⟩ | ⟨_, child, n, _, hr, rfl⟩
      · rw [os.Stat_dir_cons, Node.lookup_filter_ne]; simp
      · rw [os.Stat_setEntry_same]
        exact os.Stat_Remove_self cs child n hr

/-- What `os.Stat` answers at a path, the entries of a directory left out. -/
theorem os.Stat_Remove_frame : ∀ (p : Path) (fs fs' : Node),
    os.Remove fs p = some fs' → ∀ q : Path, ¬ p <+: q →
      (os.Stat fs' q).map Node.shallow = (os.Stat fs q).map Node.shallow
  | [], fs, fs', h, _, _ => by cases fs <;> cases h
  | c :: cs, fs, fs', h, q, hq => by
    cases fs with
    | file d => rw [os.Remove_file] at h; cases h
    | dir es =>
      cases q with
      | nil =>
        rcases os.Remove_cons_some es c cs fs' h with ⟨_, _, rfl⟩ | ⟨_, _, n, _, _, rfl⟩ <;>
          simp [os.Stat_nil, Except.map, Node.shallow]
      | cons c' qs =>
        by_cases hc : c' = c
        · subst hc
          rcases os.Remove_cons_some es c' cs fs' h with ⟨rfl, _, rfl⟩ | ⟨_, child, n, hl, hr, rfl⟩
          · exact absurd (by simp) hq
          · rw [os.Stat_setEntry_same, os.Stat_dir_cons, hl]
            exact os.Stat_Remove_frame cs child n hr qs
              (fun hp => hq ((List.prefix_cons_inj c').2 hp))
        · rcases os.Remove_cons_some es c cs fs' h with ⟨_, _, rfl⟩ | ⟨_, _, n, _, _, rfl⟩
          · rw [os.Stat_dir_cons, os.Stat_dir_cons, Node.lookup_filter_ne]; simp [hc]
          · rw [os.Stat_setEntry_other _ _ _ _ _ hc]

theorem os.statIsNotExist_eq (fs : Node) (q : Path) :
    os.statIsNotExist fs q = match (os.Stat fs q).map Node.shallow with
      | .ok _ => false
      | .error e => os.IsNotExist e := by
  unfold os.statIsNotExist
  cases os.Stat fs q <;> rfl

theorem os.statIsNotExist_Remove_frame (p : Path) (fs fs' : Node)
    (h : os.Remove fs p = some fs') (q : Path) (hq : ¬ p <+: q) :
    os.statIsNotExist fs' q = os.statIsNotExist fs q := by
  rw [os.statIsNotExist_eq, os.statIsNotExist_eq, os.Stat_Remove_frame p fs fs' h q hq]

theorem os.statIsNotExist_Remove_self (p : Path) (fs fs' : Node)
    (h : os.Remove fs p = some fs') : os.statIsNotExist fs' p = true := by
  unfold os.statIsNotExist
  rw [os.Stat_Remove_self p fs fs' h]
  rfl

/-! ## C13: the forward pass of `runSync` -/

theorem cmd.syncMissing_eq (cfg : config.Config) (fs : Node) (rt : routes.Route) :
    cmd.syncMissing cfg fs rt
      = (if os.statIsNotExist fs (filepath.Join cfg.ClientDir rt.Files.React)
          then [lit "React Page"] else [])
        ++ (if os.statIsNotExist fs (filepath.Join cfg.ServerDir rt.Files.View)
          then [lit "MVC View"] else []) := by
  unfold cmd.syncMissing
  by_cases h1 : os.statIsNotExist fs (filepath.Join cfg.ClientDir rt.Files.React) = true <;>
    by_cases h2 : os.statIsNotExist fs (filepath.Join cfg.ServerDir rt.Files.View) = true <;>
    simp [h1, h2]

theorem cmd.syncMissing_pos (cfg : config.Config) (fs : Node) (rt : routes.Route) :
    (cmd.syncMissing cfg fs rt).length > 0 ↔
      (os.statIsNotExist fs (filepath.Join cfg.ClientDir rt.Files.React) = true ∨
       os.statIsNotExist fs (filepath.Join cfg.ServerDir rt.Files.View) = true) := by
  rw [cmd.syncMissing_eq]
  by_cases h1 : os.statIsNotExist fs (filepath.Join cfg.ClientDir rt.Files.React) = true <;>
    by_cases h2 : os.statIsNotExist fs (filepath.Join cfg.ServerDir rt.Files.View) = true <;>
    simp [h1, h2]

theorem cmd.syncForward.foldl_eq (cfg : config.Config) (fs : Node) (r : List routes.Route) :
    ∀ acc : List cmd.MissingRoute,
      r.foldl
        (fun missingRoutes rt =>
          if (cmd.syncMissing cfg fs rt).length > 0 then
            missingRoutes ++ [{ Route := rt, MissingFiles := cmd.syncMissing cfg fs rt }]
          else missingRoutes)
        acc
      = acc ++ (r.filter (fun rt => decide ((cmd.syncMissing cfg fs rt).length > 0))).map
          (fun rt => { Route := rt, MissingFiles := cmd.syncMissing cfg fs rt }) := by
  induction r with
  | nil => intro acc; simp
  | cons rt r ih =>
    intro acc
    rw [List.foldl_cons, ih]
    by_cases h : (cmd.syncMissing cfg fs rt).length > 0
    · simp [h, List.filter_cons]
    · simp [h, List.filter_cons]

/-- The missing set holds, in the order of the registry, the routes for
which one of the two tests answers "does not exist". -/
theorem cmd.syncForward_eq (cfg : config.Config) (fs : Node) (r : List routes.Route) :
    cmd.syncForward cfg fs r
      = (r.filter (fun rt =>
            os.statIsNotExist fs (filepath.Join cfg.ClientDir rt.Files.React) ||
            os.statIsNotExist fs (filepath.Join cfg.ServerDir rt.Files.View))).map
          (fun rt => { Route := rt, MissingFiles := cmd.syncMissing cfg fs rt }) := by
  unfold cmd.syncForward
  rw [cmd.syncForward.foldl_eq, List.nil_append]
  congr 1
  apply List.filter_congr
  intro rt _
  have := cmd.syncMissing_pos cfg fs rt
  by_cases h : (cmd.syncMissing cfg fs rt).length > 0
  · have h2 := this.1 h
    rcases h2 with h2 | h2 <;> simp [h, h2]
  · have h2 : ¬ _ := fun x => h (this.2 x)
    push_neg at h2
    simp [h, h2.1, h2.2]

/-- C13, counterexample.  The routes `/Foo` (nested) and `/Foo/Index` (flat)
resolve to the same page and the same view, and their `Path`s are not
case-insensitively equal, so that `route add` registers both.  With both in
the registry and the files in place the missing set is empty; deleting the
page of `/Foo` puts `/Foo/Index` in the missing set as well.  Besides, in a
tree where `src/pages/Foo` is a regular file the page of `/Foo` is not on
disk (`os.ReadFile` fails), yet the forward pass, which asks
`os.IsNotExist`, does not record the route. -/
theorem C13_counterexample :
    ¬ (∀ (cfg : config.Config) (fs fs' : Node) (r : List routes.Route) (target : routes.Route)
        (d : GoString), target ∈ r →
        os.Stat fs (filepath.Join cfg.ClientDir target.Files.React) = .ok (.file d) →
        os.Remove fs (filepath.Join cfg.ClientDir target.Files.React) = some fs' →
        ∀ rt ∈ r, rt ≠ target → cmd.syncMissing cfg fs' rt = cmd.syncMissing cfg fs rt) ∧
    routes.ResolvePaths Unicode.ascii (lit "Foo/Index") true
      = routes.ResolvePaths Unicode.ascii (lit "Foo") false ∧
    strings.EqualFold Unicode.ascii (lit "/Foo") (lit "/Foo/Index") = false ∧
    cmd.syncForward Example.cfg Example.fooTree
        [Example.foo (lit "src/pages/Foo/index.page.tsx"), Example.fooIndex] = [] ∧
    os.Remove Example.fooTree
        (filepath.Join Example.cfg.ClientDir (lit "src/pages/Foo/index.page.tsx"))
      = some Example.fooTreeNoPage ∧
    cmd.syncForward Example.cfg Example.fooTreeNoPage
        [Example.foo (lit "src/pages/Foo/index.page.tsx"), Example.fooIndex]
      = [{ Route := Example.foo (lit "src/pages/Foo/index.page.tsx"),
           MissingFiles := [lit "React Page"] },
         { Route := Example.fooIndex, MissingFiles := [lit "React Page"] }] ∧
    os.ReadFile Example.fooFileTree
        (filepath.Join Example.cfg.ClientDir (lit "src/pages/Foo/index.page.tsx"))
      = .error .ENOTDIR ∧
    cmd.syncForward Example.cfg Example.fooFileTree
        [Example.foo (lit "src/pages/Foo/index.page.tsx")] = [] := by
  have hrem : os.Remove Example.fooTree
        (filepath.Join Example.cfg.ClientDir (lit "src/pages/Foo/index.page.tsx"))
      = some Example.fooTreeNoPage := rfl
  refine ⟨?_, rfl, rfl, by decide, hrem, by decide, rfl, by decide⟩
  intro hall
  have h := hall Example.cfg Example.fooTree Example.fooTreeNoPage
    [Example.foo (lit "src/pages/Foo/index.page.tsx"), Example.fooIndex]
    (Example.foo (lit "src/pages/Foo/index.page.tsx")) (scaffold.ReactPage (lit "Foo"))
    (by simp) rfl hrem Example.fooIndex (by simp) (by decide)
  exact absurd h (by decide)

/-- C13: for every registry and every tree, the missing set of the forward
pass holds, in the order of the registry, exactly the routes for which
`os.Stat` of the page path or of the view path fails with "does not exist",
and the kinds recorded for a route are exactly those whose test fails, the
page before the view.  Deleting the page file of a registered route puts
that route in the missing set with the kind of the page first (followed by
the kind of the view exactly when the view was missing before, if the view
path does not pass through the page path), and leaves the recorded kinds of
every route unchanged whose page path and view path are not the deleted path
and do not pass through it. -/
theorem C13_forward_pass (cfg : config.Config) (fs : Node) (r : List routes.Route) :
    cmd.syncForward cfg fs r
      = (r.filter (fun rt =>
            os.statIsNotExist fs (filepath.Join cfg.ClientDir rt.Files.React) ||
            os.statIsNotExist fs (filepath.Join cfg.ServerDir rt.Files.View))).map
          (fun rt => { Route := rt, MissingFiles := cmd.syncMissing cfg fs rt }) ∧
    (∀ rt : routes.Route,
      cmd.syncMissing cfg fs rt
        = (if os.statIsNotExist fs (filepath.Join cfg.ClientDir rt.Files.React)
            then [lit "React Page"] else [])
          ++ (if os.statIsNotExist fs (filepath.Join cfg.ServerDir rt.Files.View)
            then [lit "MVC View"] else [])) ∧
    (∀ (target : routes.Route) (d : GoString) (fs' : Node),
      target ∈ r →
      os.Stat fs (filepath.Join cfg.ClientDir target.Files.React) = .ok (.file d) →
      os.Remove fs (filepath.Join cfg.ClientDir target.Files.React) = some fs' →
      (∃ kinds : List GoString,
        cmd.syncMissing cfg fs' target = lit "React Page" :: kinds ∧
        ({ Route := target, MissingFiles := lit "React Page" :: kinds } : cmd.MissingRoute)
          ∈ cmd.syncForward cfg fs' r) ∧
      (¬ filepath.Join cfg.ClientDir target.Files.React
            <+: filepath.Join cfg.ServerDir target.Files.View →
        cmd.syncMissing cfg fs' target
          = lit "React Page" ::
              (if os.statIsNotExist fs (filepath.Join cfg.ServerDir target.Files.View)
                then [lit "MVC View"] else [])) ∧
      (∀ rt : routes.Route,
        ¬ filepath.Join cfg.ClientDir target.Files.React
            <+: filepath.Join cfg.ClientDir rt.Files.React →
        ¬ filepath.Join cfg.ClientDir target.Files.React
            <+: filepath.Join cfg.ServerDir rt.Files.View →
        cmd.syncMissing cfg fs' rt = cmd.syncMissing cfg fs rt)) := by
  refine ⟨cmd.syncForward_eq cfg fs r, cmd.syncMissing_eq cfg fs, ?_⟩
  intro target d fs' hmem _ hrem
  have hself := os.statIsNotExist_Remove_self _ fs fs' hrem
  have hkinds : cmd.syncMissing cfg fs' target
      = lit "React Page" ::
          (if os.statIsNotExist fs' (filepath.Join cfg.ServerDir target.Files.View)
            then [lit "MVC View"] else []) := by
    rw [cmd.syncMissing_eq, hself]; rfl
  refine ⟨⟨_, hkinds, ?_⟩, ?_, ?_⟩
  · rw [cmd.syncForward_eq]
    refine List.mem_map.2 ⟨target, List.mem_filter.2 ⟨hmem, by rw [hself]; rfl⟩, ?_⟩
    rw [hkinds]
  · intro hv
    rw [cmd.syncMissing_eq, hself, os.statIsNotExist_Remove_frame _ fs fs' hrem _ hv]; rfl
  · intro rt h1 h2
    rw [cmd.syncMissing_eq, cmd.syncMissing_eq,
      os.statIsNotExist_Remove_frame _ fs fs' hrem _ h1,
      os.statIsNotExist_Remove_frame _ fs fs' hrem _ h2]

/-- C13, witness: in the tree after `route add /foo`, the registry holds
`/Foo` and `/User/Profile` (whose files are not there); the page of `/Foo`
is deleted. -/
theorem C13_forward_pass_witness :
    cmd.syncForward Example.cfg Example.fooTree
        [Example.foo (lit "src/pages/Foo/index.page.tsx"), Example.userProfile]
      = [{ Route := Example.userProfile, MissingFiles := [lit "React Page", lit "MVC View"] }] ∧
    cmd.syncMissing Example.cfg Example.fooTreeNoPage
        (Example.foo (lit "src/pages/Foo/index.page.tsx"))
      = lit "React Page" ::
          (if os.statIsNotExist Example.fooTree
                (filepath.Join Example.cfg.ServerDir
                  (Example.foo (lit "src/pages/Foo/index.page.tsx")).Files.View)
            then [lit "MVC View"] else []) ∧
    cmd.syncMissing Example.cfg Example.fooTreeNoPage Example.userProfile
      = cmd.syncMissing Example.cfg Example.fooTree Example.userProfile :=
  ⟨by decide,
   ((C13_forward_pass Example.cfg Example.fooTree
      [Example.foo (lit "src/pages/Foo/index.page.tsx"), Example.userProfile]).2.2
      (Example.foo (lit "src/pages/Foo/index.page.tsx")) (scaffold.ReactPage (lit "Foo"))
      Example.fooTreeNoPage (by simp) rfl rfl).2.1 (by decide),
   ((C13_forward_pass Example.cfg Example.fooTree
      [Example.foo (lit "src/pages/Foo/index.page.tsx"), Example.userProfile]).2.2
      (Example.foo (lit "src/pages/Foo/index.page.tsx")) (scaffold.ReactPage (lit "Foo"))
      Example.fooTreeNoPage (by simp) rfl rfl).2.2 Example.userProfile (by decide) (by decide)⟩

/-! ## C15: `DeleteEmptyParents` -/

theorem os.Stat_append : ∀ (p e : Path) (fs : Node),
    os.Stat fs (p ++ e) = match os.Stat fs p with
      | .ok n => os.Stat n e
      | .error x => .error x
  | [], e, fs => by rw [os.Stat_nil]; rfl
  | c :: cs, e, fs => by
    cases fs with
    | file d =>
      rw [List.cons_append, os.Stat_file_cons, os.Stat_file_cons]
    | dir es =>
      rw [List.cons_append, os.Stat_dir_cons, os.Stat_dir_cons]
      cases es.lookup c with
      | none => rfl
      | some child => exact os.Stat_append cs e child

theorem os.Stat_shallow_file (fs fs' : Node) (q : Path) (d : GoString)
    (h : (os.Stat fs' q).map Node.shallow = (os.Stat fs q).map Node.shallow)
    (hf : os.Stat fs q = .ok (.file d)) : os.Stat fs' q = .ok (.file d) := by
  rw [hf] at h
  cases hs : os.Stat fs' q with
  | error e => rw [hs] at h; cases h
  | ok n =>
    rw [hs] at h
    cases n with
    | file d2 =>
      have := Except.ok.inj h
      simp only [Node.shallow] at this
      rw [this]
    | dir es => have := Except.ok.inj h; cases this

theorem os.Stat_shallow_dir (fs fs' : Node) (q : Path) (es : List (GoString × Node))
    (h : (os.Stat fs' q).map Node.shallow = (os.Stat fs q).map Node.shallow)
    (hf : os.Stat fs' q = .ok (.dir es)) : ∃ es', os.Stat fs q = .ok (.dir es') := by
  rw [hf] at h
  cases hs : os.Stat fs q with
  | error e => rw [hs] at h; cases h
  | ok n =>
    rw [hs] at h
    cases n with
    | file d2 => have := Except.ok.inj h; cases this
    | dir es2 => exact ⟨es2, rfl⟩

theorem os.Stat_shallow_ok (fs fs' : Node) (q : Path) (n : Node)
    (h : (os.Stat fs' q).map Node.shallow = (os.Stat fs q).map Node.shallow)
    (hf : os.Stat fs q = .ok n) : ∃ n', os.Stat fs' q = .ok n' := by
  rw [hf] at h
  cases hs : os.Stat fs' q with
  | error e => rw [hs] at h; cases h
  | ok n' => exact ⟨n', rfl⟩

theorem os.Stat_shallow_error (fs fs' : Node) (q : Path) (e : Errno)
    (h : (os.Stat fs' q).map Node.shallow = (os.Stat fs q).map Node.shallow)
    (hf : os.Stat fs q = .error e) : os.Stat fs' q = .error e := by
  rw [hf] at h
  cases hs : os.Stat fs' q with
  | error e' => rw [hs] at h; exact h
  | ok n' => rw [hs] at h; cases h

/-- The removal of an empty directory changes the answer of `os.Stat` at no
other path. -/
theorem os.Remove_empty_dir_frame (p : Path) (fs fs' : Node)
    (hdir : os.Stat fs p = .ok (.dir [])) (h : os.Remove fs p = some fs') (q : Path)
    (hq : q ≠ p) : (os.Stat fs' q).map Node.shallow = (os.Stat fs q).map Node.shallow := by
  by_cases hp : p <+: q
  · obtain ⟨e, rfl⟩ := hp
    have he : e ≠ [] := fun h0 => hq (by rw [h0, List.append_nil])
    obtain ⟨c, cs, rfl⟩ := List.exists_cons_of_ne_nil he
    rw [os.Stat_append, os.Stat_append, hdir, os.Stat_Remove_self p fs fs' h]
    rfl
  · exact os.Stat_Remove_frame p fs fs' h q hp

/-- An empty directory below the root of the tree can be removed. -/
theorem os.Remove_of_empty_dir : ∀ (p : Path) (fs : Node), p ≠ [] →
    os.Stat fs p = .ok (.dir []) → ∃ fs', os.Remove fs p = some fs'
  | [], _, h, _ => absurd rfl h
  | [c], fs, _, h => by
    cases fs with
    | file d => rw [os.Stat_file_cons] at h; cases h
    | dir es =>
      rw [os.Stat_dir_cons] at h
      cases hl : es.lookup c with
      | none => rw [hl] at h; cases h
      | some child =>
        rw [hl] at h
        dsimp only at h
        rw [os.Stat_nil] at h
        have hc : child = .dir [] := Except.ok.inj h
        subst hc
        exact ⟨.dir (es.filter (fun e => decide (e.1 ≠ c))), by simp only [os.Remove, hl]⟩
  | c :: c2 :: cs, fs, _, h => by
    cases fs with
    | file d => rw [os.Stat_file_cons] at h; cases h
    | dir es =>
      rw [os.Stat_dir_cons] at h
      cases hl : es.lookup c with
      | none => rw [hl] at h; cases h
      | some child =>
        rw [hl] at h
        dsimp only at h
        obtain ⟨n, hn⟩ := os.Remove_of_empty_dir (c2 :: cs) child (by simp) h
        exact ⟨.dir (Node.setEntry es c n), by simp only [os.Remove, hl, hn, Option.map]⟩

theorem os.ReadDir_eq_nil (fs : Node) (p : Path) (entries : List GoString)
    (h : os.ReadDir fs p = .ok entries) (h0 : entries.length = 0) :
    os.Stat fs p = .ok (.dir []) ∧ os.ReadDir fs p = .ok [] := by
  have he : entries = [] := List.length_eq_zero.1 h0
  subst he
  refine ⟨?_, h⟩
  unfold os.ReadDir at h
  cases hs : os.Stat fs p with
  | error e => rw [hs] at h; cases h
  | ok n =>
    rw [hs] at h
    cases n with
    | file d => cases h
    | dir es =>
      have := Except.ok.inj h
      rw [List.map_eq_nil_iff.1 this]

/-! ### The loop condition -/

theorem filepath.Abs_eq (p : Path) : filepath.Abs p = '/' :: strings.Join p (lit "/") := rfl

theorem filepath.Abs_cond_nil (root : Path) :
    ¬ (filepath.Abs [] ≠ filepath.Abs root ∧
        strings.HasPrefix (filepath.Abs []) (filepath.Abs root) = true) := by
  rintro ⟨h1, h2⟩
  apply h1
  unfold strings.HasPrefix at h2
  have hp : filepath.Abs root <+: filepath.Abs [] := List.isPrefixOf_iff_prefix.1 h2
  rw [filepath.Abs_eq, filepath.Abs_eq] at hp
  have hj : strings.Join root (lit "/") <+: strings.Join [] (lit "/") :=
    (List.prefix_cons_inj _).1 hp
  have h0 : strings.Join root (lit "/") = [] := List.prefix_nil.1 hj
  rw [filepath.Abs_eq, filepath.Abs_eq, h0]
  rfl

theorem strings.Join_append (sep : GoString) (xs ys : List GoString) (hx : xs ≠ [])
    (hy : ys ≠ []) :
    strings.Join (xs ++ ys) sep = strings.Join xs sep ++ sep ++ strings.Join ys sep := by
  obtain ⟨x, xs, rfl⟩ := List.exists_cons_of_ne_nil hx
  obtain ⟨y, ys, rfl⟩ := List.exists_cons_of_ne_nil hy
  rw [List.cons_append, strings.Join_cons, strings.Join_cons, strings.Join_cons]
  simp [List.append_assoc]

theorem filepath.Abs_cond_below (root e : Path) (he : e ≠ []) (hclean : [] ∉ e) :
    filepath.Abs (root ++ e) ≠ filepath.Abs root ∧
      strings.HasPrefix (filepath.Abs (root ++ e)) (filepath.Abs root) = true := by
  by_cases hr : root = []
  · subst hr
    obtain ⟨x, xs, rfl⟩ := List.exists_cons_of_ne_nil he
    have hx : x ≠ [] := fun h => hclean (by rw [h]; exact List.mem_cons_self _ _)
    obtain ⟨a, as, rfl⟩ := List.exists_cons_of_ne_nil hx
    rw [List.nil_append]
    constructor
    · intro h
      rw [filepath.Abs_eq, filepath.Abs_eq, strings.Join_cons] at h
      have h2 := List.tail_eq_of_cons_eq h
      cases h2
    · unfold strings.HasPrefix
      rw [List.isPrefixOf_iff_prefix, filepath.Abs_eq, filepath.Abs_eq]
      exact ⟨_, rfl⟩
  · have hj := strings.Join_append (lit "/") root e hr he
    have hlen : (lit "/").length = 1 := rfl
    constructor
    · intro h
      rw [filepath.Abs_eq, filepath.Abs_eq, hj] at h
      have := congrArg List.length h
      simp only [List.length_cons, List.length_append, hlen] at this
      omega
    · unfold strings.HasPrefix
      rw [List.isPrefixOf_iff_prefix, filepath.Abs_eq, filepath.Abs_eq, hj]
      refine ⟨lit "/" ++ strings.Join e (lit "/"), ?_⟩
      simp only [List.cons_append, List.append_assoc]

theorem fsutil.DeleteEmptyParents.loop_stop (a : GoString) (rev : List GoString) (fs : Node)
    (h : filepath.Abs rev.reverse = a) :
    fsutil.DeleteEmptyParents.loop a rev fs = some fs := by
  cases rev with
  | nil =>
    have h2 : filepath.Abs [] = a := h
    simp [fsutil.DeleteEmptyParents.loop, h2]
  | cons c up =>
    have hc : ¬ (filepath.Abs (c :: up).reverse ≠ a ∧
        strings.HasPrefix (filepath.Abs (c :: up).reverse) a = true) := fun hh => hh.1 h
    simp only [fsutil.DeleteEmptyParents.loop, if_neg hc]

/-- The loop of `DeleteEmptyParents` ends, whatever the file, the root and
the tree. -/
theorem fsutil.DeleteEmptyParents.loop_terminates (root : Path) :
    ∀ (rev : List GoString) (fs : Node),
      ∃ fs', fsutil.DeleteEmptyParents.loop (filepath.Abs root) rev fs = some fs'
  | [], fs => by
    refine ⟨fs, ?_⟩
    have := filepath.Abs_cond_nil root
    simp only [fsutil.DeleteEmptyParents.loop, if_neg this]
  | c :: up, fs => by
    simp only [fsutil.DeleteEmptyParents.loop]
    split_ifs with h1
    · cases os.ReadDir fs (c :: up).reverse with
      | error e => exact ⟨fs, rfl⟩
      | ok entries =>
        dsimp only
        split_ifs with h2
        · exact fsutil.DeleteEmptyParents.loop_terminates root up _
        · exact ⟨fs, rfl⟩
    · exact ⟨fs, rfl⟩

theorem fsutil.DeleteEmptyParents_terminates (filePath rootDir : Path) (fs : Node) :
    ∃ fs', fsutil.DeleteEmptyParents filePath rootDir fs = some fs' :=
  fsutil.DeleteEmptyParents.loop_terminates rootDir _ fs

/-- The loop of `DeleteEmptyParents` started at a directory at or below the
root: it ends, it walks as the specification says, and what it changes in
the tree is the removal of directories between the root (left out) and the
start. -/
theorem fsutil.DeleteEmptyParents.loop_spec (root : Path) :
    ∀ (er : List GoString) (fs : Node), [] ∉ er →
      ∃ fs', fsutil.DeleteEmptyParents.loop (filepath.Abs root) (er ++ root.reverse) fs
          = some fs' ∧
        Spec.Cleanup root (root ++ er.reverse) fs fs' ∧
        ∀ q : Path,
          (os.Stat fs' q).map Node.shallow = (os.Stat fs q).map Node.shallow ∨
          ((root <+: q ∧ q ≠ root ∧ q <+: root ++ er.reverse) ∧
            (∃ es, os.Stat fs q = .ok (.dir es)) ∧ os.Stat fs' q = .error .ENOENT)
  | [], fs, _ => by
    refine ⟨fs, ?_, ?_, fun q => Or.inl rfl⟩
    · rw [List.nil_append]
      exact fsutil.DeleteEmptyParents.loop_stop _ _ fs (by rw [List.reverse_reverse])
    · rw [List.reverse_nil, List.append_nil]
      exact Spec.Cleanup.root fs
  | c :: er, fs, hclean => by
    have hclean2 : [] ∉ er := fun h => hclean (List.mem_cons_of_mem _ h)
    have hrev : (c :: (er ++ root.reverse)).reverse = root ++ (c :: er).reverse := by
      simp [List.reverse_append]
    have he : (c :: er).reverse ≠ [] := by simp
    have hce : [] ∉ (c :: er).reverse := fun h => hclean (List.mem_reverse.1 h)
    have hcond := filepath.Abs_cond_below root (c :: er).reverse he hce
    have hne : root ++ (c :: er).reverse ≠ root := by
      intro h
      have := congrArg List.length h
      simp at this
    have hnil : root ++ (c :: er).reverse ≠ [] := by simp
    have hDir : filepath.Dir (root ++ (c :: er).reverse) = root ++ er.reverse := by
      simp [filepath.Dir, List.reverse_cons, ← List.append_assoc]
    rw [List.cons_append]
    simp only [fsutil.DeleteEmptyParents.loop]
    rw [hrev, if_pos hcond]
    cases hrd : os.ReadDir fs (root ++ (c :: er).reverse) with
    | error e =>
      exact ⟨fs, rfl, Spec.Cleanup.stop _ _ (by rw [hrd]; intro h; cases h), fun q => Or.inl rfl⟩
    | ok entries =>
      dsimp only
      by_cases h0 : entries.length = 0
      · rw [if_pos h0]
        obtain ⟨hdir, hrd0⟩ := os.ReadDir_eq_nil fs _ entries hrd h0
        obtain ⟨fs1, hrm⟩ := os.Remove_of_empty_dir _ fs hnil hdir
        rw [hrm, Option.getD_some]
        obtain ⟨fs', hl, hcl, hfr⟩ := fsutil.DeleteEmptyParents.loop_spec root er fs1 hclean2
        refine ⟨fs', hl, Spec.Cleanup.step _ fs fs1 fs' hne hrd0 hrm (by rw [hDir]; exact hcl), ?_⟩
        intro q
        have hself := os.Stat_Remove_self _ fs fs1 hrm
        have hpre : root ++ er.reverse <+: root ++ (c :: er).reverse := by
          rw [List.reverse_cons, ← List.append_assoc]
          exact List.prefix_append _ _
        by_cases hq : q = root ++ (c :: er).reverse
        · right
          subst hq
          refine ⟨⟨List.prefix_append _ _, hne, List.prefix_refl _⟩, ⟨[], hdir⟩, ?_⟩
          rcases hfr (root ++ (c :: er).reverse) with h1 | ⟨_, ⟨es, h2⟩, _⟩
          · exact os.Stat_shallow_error fs1 fs' _ _ h1 hself
          · rw [hself] at h2; cases h2
        · have hstep := os.Remove_empty_dir_frame _ fs fs1 hdir hrm q hq
          rcases hfr q with h1 | ⟨⟨h2, h3, h4⟩, ⟨es, h5⟩, h6⟩
          · left; rw [h1, hstep]
          · right
            exact ⟨⟨h2, h3, h4.trans hpre⟩, os.Stat_shallow_dir fs fs1 q es hstep h5, h6⟩
      · rw [if_neg h0]
        refine ⟨fs, rfl, Spec.Cleanup.stop _ _ ?_, fun q => Or.inl rfl⟩
        rw [hrd]
        intro h
        have := Except.ok.inj h
        exact h0 (by rw [this]; rfl)

/-- C15, counterexample: in a project whose only page is the untracked
`src/pages/Foo/index.page.tsx`, the branch `delete_untracked` of `runSync`
hands `DeleteEmptyParents` the client directory as the root, not the page
root `src/pages`: after the page is deleted, the directories `Foo`, `pages`
(the page root) and `src` are removed one after the other, and the client
directory is left empty. -/
theorem C15_counterexample :
    cmd.syncDeleteUntracked Example.cfg [lit "src/pages/Foo/index.page.tsx"] Example.onePage
      = some Example.tree ∧
    os.ReadDir Example.onePage (filepath.Join Example.cfg.ClientDir (lit "src/pages"))
      = .ok [lit "Foo"] ∧
    os.Stat Example.tree (filepath.Join Example.cfg.ClientDir (lit "src/pages"))
      = .error .ENOENT ∧
    os.Stat Example.tree (filepath.Join Example.cfg.ClientDir (lit "src"))
      = .error .ENOENT ∧
    os.ReadDir Example.tree Example.cfg.ClientDir = .ok [] := by
  refine ⟨rfl, rfl, rfl, rfl, rfl⟩

/-- C15: for every tree, every root and every file path below the root,
`DeleteEmptyParents` returns; the tree it leaves is the one of the walk that
starts at the directory of the file, removes a directory only when it is
empty at that moment and is not the root it was given, moves to the parent
after a removal, and stops at that root and at the first directory that is
not empty (or cannot be read).  Every file is kept with its content;
whatever is no longer there is a directory between the given root (left out)
and the directory of the file; the given root and everything above it is
still there. -/
theorem C15_DeleteEmptyParents (root rel : Path) (fs : Node) (hrel : rel ≠ [])
    (hclean : [] ∉ rel) :
    ∃ fs' : Node,
      fsutil.DeleteEmptyParents (root ++ rel) root fs = some fs' ∧
      Spec.Cleanup root (filepath.Dir (root ++ rel)) fs fs' ∧
      (∀ (q : Path) (d : GoString), os.Stat fs q = .ok (.file d) →
        os.Stat fs' q = .ok (.file d)) ∧
      (∀ (q : Path) (n : Node), os.Stat fs q = .ok n →
        (∃ n', os.Stat fs' q = .ok n') ∨
        ((root <+: q ∧ q ≠ root ∧ q <+: filepath.Dir (root ++ rel)) ∧ ∃ es, n = .dir es)) ∧
      (∀ (q : Path) (n : Node), q <+: root → os.Stat fs q = .ok n →
        ∃ n', os.Stat fs' q = .ok n') := by
  have hDir : filepath.Dir (root ++ rel) = root ++ rel.dropLast.reverse.reverse := by
    rw [List.reverse_reverse]
    exact List.dropLast_append_of_ne_nil _ hrel
  have hc : [] ∉ rel.dropLast.reverse :=
    fun h => hclean (List.dropLast_subset _ (List.mem_reverse.1 h))
  obtain ⟨fs', hl, hcl, hfr⟩ :=
    fsutil.DeleteEmptyParents.loop_spec root rel.dropLast.reverse fs hc
  have hrun : fsutil.DeleteEmptyParents (root ++ rel) root fs = some fs' := by
    unfold fsutil.DeleteEmptyParents
    rw [hDir, List.reverse_append, List.reverse_reverse]
    exact hl
  rw [← hDir] at hcl hfr
  have hgen : ∀ (q : Path) (n : Node), os.Stat fs q = .ok n →
      (∃ n', os.Stat fs' q = .ok n') ∨
      ((root <+: q ∧ q ≠ root ∧ q <+: filepath.Dir (root ++ rel)) ∧ ∃ es, n = .dir es) := by
    intro q n hq
    rcases hfr q with h1 | ⟨h2, ⟨es, h3⟩, _⟩
    · exact Or.inl (os.Stat_shallow_ok fs fs' q n h1 hq)
    · right
      rw [hq] at h3
      exact ⟨h2, es, Except.ok.inj h3⟩
  refine ⟨fs', hrun, hcl, ?_, hgen, ?_⟩
  · intro q d hq
    rcases hfr q with h1 | ⟨_, ⟨es, h3⟩, _⟩
    · exact os.Stat_shallow_file fs fs' q d h1 hq
    · rw [hq] at h3; cases h3
  · intro q n hqr hq
    rcases hgen q n hq with h | ⟨⟨h1, h2, _⟩, _⟩
    · exact h
    · exact absurd (hqr.eq_of_length (Nat.le_antisymm hqr.length_le h1.length_le)) h2

/-- C15, witness: the page `src/pages/Foo/index.page.tsx` below the client
directory, in the tree from which that page was just deleted. -/
theorem C15_DeleteEmptyParents_witness :
    ∃ fs' : Node,
      fsutil.DeleteEmptyParents
          (Example.cfg.ClientDir ++ [lit "src", lit "pages", lit "Foo", lit "index.page.tsx"])
          Example.cfg.ClientDir Example.fooTreeNoPage = some fs' ∧
      Spec.Cleanup Example.cfg.ClientDir
        (filepath.Dir
          (Example.cfg.ClientDir ++ [lit "src", lit "pages", lit "Foo", lit "index.page.tsx"]))
        Example.fooTreeNoPage fs' ∧
      (∀ (q : Path) (d : GoString), os.Stat Example.fooTreeNoPage q = .ok (.file d) →
        os.Stat fs' q = .ok (.file d)) ∧
      (∀ (q : Path) (n : Node), os.Stat Example.fooTreeNoPage q = .ok n →
        (∃ n', os.Stat fs' q = .ok n') ∨
        ((Example.cfg.ClientDir <+: q ∧ q ≠ Example.cfg.ClientDir ∧
            q <+: filepath.Dir
              (Example.cfg.ClientDir ++
                [lit "src", lit "pages", lit "Foo", lit "index.page.tsx"])) ∧
          ∃ es, n = .dir es)) ∧
      (∀ (q : Path) (n : Node), q <+: Example.cfg.ClientDir →
        os.Stat Example.fooTreeNoPage q = .ok n → ∃ n', os.Stat fs' q = .ok n') :=
  C15_DeleteEmptyParents Example.cfg.ClientDir
    [lit "src", lit "pages", lit "Foo", lit "index.page.tsx"] Example.fooTreeNoPage
    (by decide) (by decide)

/-! ## C18: adoption after resolution -/

theorem List.splitOnP_no_sep {α : Type} (p : α → Bool) :
    ∀ xs : List α, ∀ l ∈ xs.splitOnP p, ∀ y ∈ l, p y = false
  | [] => by
    intro l hl y hy
    rw [List.splitOnP_nil] at hl
    rw [List.mem_singleton.1 hl] at hy
    cases hy
  | x :: xs => by
    have ih := List.splitOnP_no_sep p xs
    intro l hl y hy
    rw [List.splitOnP_cons] at hl
    by_cases hx : p x = true
    · rw [if_pos hx] at hl
      rcases List.mem_cons.1 hl with rfl | hl
      · cases hy
      · exact ih l hl y hy
    · rw [if_neg hx] at hl
      cases hs : xs.splitOnP p with
      | nil => exact absurd hs (List.splitOnP_ne_nil p xs)
      | cons h t =>
        rw [hs] at hl ih
        simp only [List.modifyHead_cons] at hl
        rcases List.mem_cons.1 hl with rfl | hl
        · rcases List.mem_cons.1 hy with rfl | hy
          · simpa using hx
          · exact ih h (List.mem_cons_self _ _) y hy
        · exact ih l (List.mem_cons_of_mem _ hl) y hy

theorem strings.Split_no_sep (s : GoString) (sep : Char) :
    ∀ p ∈ strings.Split s sep, sep ∉ p := by
  intro p hp hmem
  have := List.splitOnP_no_sep (fun x => x == sep) s p hp sep hmem
  simp at this

theorem strings.mem_Title_go (U : Unicode) :
    ∀ (s : GoString) (prev x : Char), x ∈ strings.Title.go U prev s →
      x ∈ s ∨ ∃ y ∈ s, x = unicode.ToTitle U y
  | [], _, _, h => by cases h
  | r :: rs, prev, x, h => by
    simp only [strings.Title.go] at h
    rcases List.mem_cons.1 h with h | h
    · by_cases hs : strings.isSeparator U prev = true
      · rw [if_pos hs] at h
        exact Or.inr ⟨r, List.mem_cons_self _ _, h⟩
      · rw [if_neg hs] at h
        exact Or.inl (h ▸ List.mem_cons_self _ _)
    · rcases strings.mem_Title_go U rs r x h with h | ⟨y, hy, h⟩
      · exact Or.inl (List.mem_cons_of_mem _ h)
      · exact Or.inr ⟨y, List.mem_cons_of_mem _ hy, h⟩

theorem strings.ToLower_Title_go (U : Unicode) :
    ∀ (s : GoString) (prev : Char),
      (∀ c ∈ s, unicode.ToLower U (unicode.ToTitle U c) = c ∧ unicode.ToLower U c = c) →
      strings.ToLower U (strings.Title.go U prev s) = s
  | [], _, _ => rfl
  | r :: rs, prev, h => by
    have ih := strings.ToLower_Title_go U rs r (fun c hc => h c (List.mem_cons_of_mem _ hc))
    obtain ⟨h1, h2⟩ := h r (List.mem_cons_self _ _)
    simp only [strings.ToLower] at ih ⊢
    simp only [strings.Title.go, List.map_cons, ih]
    by_cases hs : strings.isSeparator U prev = true
    · rw [if_pos hs, h1]
    · rw [if_neg hs, h2]

theorem strings.mem_Join (sep : GoString) (c : Char) (s : GoString) (hc : c ∈ s) :
    ∀ segs : List GoString, s ∈ segs → c ∈ strings.Join segs sep
  | [], h => by cases h
  | x :: xs, h => by
    rw [strings.Join_cons]
    rcases List.mem_cons.1 h with rfl | h
    · exact List.mem_append_left _ hc
    · apply List.mem_append_right
      rw [List.mem_flatten]
      exact ⟨sep ++ s, List.mem_map.2 ⟨s, h, rfl⟩, List.mem_append_right _ hc⟩

/-- What the chain of the claim needs of a segment of a normalized name. -/
theorem cmd.pascalParts_stable (U : Unicode) (raw : GoString)
    (hstable : ∀ c ∈ raw, Spec.CaseStable U c) :
    ∀ seg ∈ cmd.pascalParts U raw,
      seg ≠ [] ∧ '/' ∉ seg ∧ '/' ∉ strings.ToLower U seg ∧
      strings.Title U (strings.ToLower U seg) = seg ∧
      strings.ToLower U (strings.ToLower U seg) = strings.ToLower U seg := by
  intro seg hseg
  unfold cmd.pascalParts at hseg
  obtain ⟨p, hp, rfl⟩ := List.mem_map.1 hseg
  obtain ⟨hp1, hp2⟩ := List.mem_filter.1 hp
  have hpne : p ≠ [] := by simpa using hp2
  have hnosep : '/' ∉ p := strings.Split_no_sep raw '/' p hp1
  have hsub : ∀ c ∈ p, c ∈ raw := by
    intro c hc
    have hj : strings.Join (strings.Split raw '/') ['/'] = raw := List.intercalate_splitOn raw '/'
    rw [← hj]
    exact strings.mem_Join ['/'] c p hc _ hp1
  have hlow : ∀ c ∈ strings.ToLower U p,
      unicode.ToLower U (unicode.ToTitle U c) = c ∧ unicode.ToLower U c = c := by
    intro c hc
    obtain ⟨d, hd, rfl⟩ := List.mem_map.1 hc
    obtain ⟨s1, s2, _⟩ := hstable d (hsub d hd)
    exact ⟨s2, s1⟩
  have hkey : strings.ToLower U (strings.Title U (strings.ToLower U p)) = strings.ToLower U p :=
    strings.ToLower_Title_go U _ ' ' hlow
  have hll : strings.ToLower U (strings.ToLower U p) = strings.ToLower U p := by
    unfold strings.ToLower
    rw [List.map_map]
    apply List.map_congr_left
    intro c hc
    exact (hstable c (hsub c hc)).1
  have hnl : '/' ∉ strings.ToLower U p := by
    intro h
    obtain ⟨d, hd, he⟩ := List.mem_map.1 h
    have hd2 : d ≠ '/' := fun e => hnosep (e ▸ hd)
    exact ((hstable d (hsub d hd)).2.2 hd2).1 he
  refine ⟨?_, ?_, ?_, ?_, ?_⟩
  · intro h
    have := congrArg List.length h
    rw [strings.Title, strings.Title_go_length] at this
    simp only [strings.ToLower, List.length_map, List.length_nil] at this
    exact hpne (List.length_eq_zero.1 this)
  · intro h
    rcases strings.mem_Title_go U _ _ _ h with h | ⟨y, hy, h⟩
    · exact hnl h
    · obtain ⟨d, hd, rfl⟩ := List.mem_map.1 hy
      have hd2 : d ≠ '/' := fun e => hnosep (e ▸ hd)
      exact ((hstable d (hsub d hd)).2.2 hd2).2 h.symm
  · rw [hkey]; exact hnl
  · rw [hkey]
  · rw [hkey, hll]

theorem strings.TrimPrefix_append (pre x : GoString) :
    strings.TrimPrefix (pre ++ x) pre = x := by
  have h : strings.HasPrefix (pre ++ x) pre = true := by
    unfold strings.HasPrefix
    rw [List.isPrefixOf_iff_prefix]
    exact List.prefix_append _ _
  simp only [strings.TrimPrefix, h, if_true, List.drop_left]

theorem strings.HasSuffix_append (x suf : GoString) :
    strings.HasSuffix (x ++ suf) suf = true := by
  unfold strings.HasSuffix
  rw [List.isSuffixOf_iff_suffix]
  exact List.suffix_append _ _

theorem strings.TrimSuffix_append (x suf : GoString) :
    strings.TrimSuffix (x ++ suf) suf = x := by
  simp only [strings.TrimSuffix, strings.HasSuffix_append, if_true, List.length_append,
    Nat.add_sub_cancel, List.take_left']

theorem List.eq_of_append_cons_eq {α : Type} (a : α) :
    ∀ (x₁ x₂ z₁ z₂ : List α), x₁ ++ a :: z₁ = x₂ ++ a :: z₂ → a ∉ x₁ → a ∉ x₂ → x₁ = x₂
  | [], [], _, _, _, _, _ => rfl
  | [], h :: t, _, _, e, _, h2 => by
    have := List.head_eq_of_cons_eq e
    exact absurd (this ▸ List.mem_cons_self _ _) h2
  | h :: t, [], _, _, e, h1, _ => by
    have := List.head_eq_of_cons_eq e
    exact absurd (this ▸ List.mem_cons_self _ _) h1
  | h :: t, h' :: t', z₁, z₂, e, h1, h2 => by
    have e1 := List.head_eq_of_cons_eq e
    have e2 := List.tail_eq_of_cons_eq e
    rw [e1, List.eq_of_append_cons_eq a t t' z₁ z₂ e2
      (fun m => h1 (List.mem_cons_of_mem _ m)) (fun m => h2 (List.mem_cons_of_mem _ m))]

/-- The `Name` and the `Path` of an adoption candidate, given the name cut
out of the page path. -/
theorem cmd.adoptCandidate_of_rel (U : Unicode) (views : List GoString) (rel n0 : GoString)
    (h : (if strings.HasSuffix rel (lit "/index.page.tsx") then
            strings.TrimSuffix rel (lit "/index.page.tsx")
          else strings.TrimSuffix rel (lit ".page.tsx")) = n0) :
    (cmd.adoptCandidate U views (lit "src/pages/" ++ rel)).Name
      = strings.Join ((strings.Split n0 '/').map
          (fun p => if p.length > 0 then strings.Title U (strings.ToLower U p) else p))
          (lit "/") ∧
    (cmd.adoptCandidate U views (lit "src/pages/" ++ rel)).Path
      = lit "/" ++ strings.Join ((strings.Split n0 '/').map
          (fun p => if p.length > 0 then strings.Title U (strings.ToLower U p) else p))
          (lit "/") := by
  have ht := strings.TrimPrefix_append (lit "src/pages/") rel
  subst h
  simp only [cmd.adoptCandidate, ht]
  exact ⟨trivial, trivial⟩

theorem strings.Split_Join (segs : List GoString) (hne : segs ≠ [])
    (hs : ∀ s ∈ segs, '/' ∉ s) : strings.Split (strings.Join segs (lit "/")) '/' = segs :=
  List.splitOn_intercalate segs '/' hs hne

/-- Adoption from the nested page of a name. -/
theorem cmd.adoptCandidate_nested (U : Unicode) (views : List GoString) (segs : List GoString)
    (hne : segs ≠ [])
    (hs : ∀ s ∈ segs, s ≠ [] ∧ '/' ∉ s ∧ strings.Title U (strings.ToLower U s) = s) :
    (cmd.adoptCandidate U views
        (lit "src/pages/" ++ strings.Join segs (lit "/") ++ lit "/index.page.tsx")).Name
      = strings.Join segs (lit "/") ∧
    (cmd.adoptCandidate U views
        (lit "src/pages/" ++ strings.Join segs (lit "/") ++ lit "/index.page.tsx")).Path
      = lit "/" ++ strings.Join segs (lit "/") := by
  have hn0 : (if strings.HasSuffix (strings.Join segs (lit "/") ++ lit "/index.page.tsx")
        (lit "/index.page.tsx") then
      strings.TrimSuffix (strings.Join segs (lit "/") ++ lit "/index.page.tsx")
        (lit "/index.page.tsx")
      else strings.TrimSuffix (strings.Join segs (lit "/") ++ lit "/index.page.tsx")
        (lit ".page.tsx")) = strings.Join segs (lit "/") := by
    rw [strings.HasSuffix_append, if_pos rfl, strings.TrimSuffix_append]
  have hmap : (strings.Split (strings.Join segs (lit "/")) '/').map
      (fun p => if p.length > 0 then strings.Title U (strings.ToLower U p) else p) = segs := by
    rw [strings.Split_Join segs hne (fun s h => (hs s h).2.1)]
    conv_rhs => rw [← List.map_id segs]
    apply List.map_congr_left
    intro s h
    obtain ⟨h1, _, h3⟩ := hs s h
    have : s.length > 0 := List.length_pos.2 h1
    simp only [this, if_true, h3, id]
  have := cmd.adoptCandidate_of_rel U views _ _ hn0
  rw [hmap, ← List.append_assoc] at this
  exact this

theorem routes.ResolvePaths_flat_of_parts (U : Unicode) (name : GoString)
    (parent : List GoString) (leaf : GoString)
    (hparts : routes.ResolvePaths.parts name = parent ++ [leaf]) :
    routes.ResolvePaths U name true = some {
      React := lit "src/pages/"
        ++ (if parent = [] then [] else strings.Join parent (lit "/") ++ lit "/")
        ++ strings.ToLower U leaf ++ lit ".page.tsx"
      View := lit "Views/"
        ++ (if parent = [] then [] else strings.Join parent (lit "/") ++ lit "/")
        ++ leaf ++ lit ".cshtml" } := by
  have hlast : (parent ++ [leaf]).getLast? = some leaf := by simp
  simp only [routes.ResolvePaths, if_true, hparts, hlast, List.length_append,
    List.length_singleton, Nat.add_sub_cancel, List.take_left', routes.ResolvePaths.basePath_eq]

/-- The page of a flat route does not end in `/index.page.tsx`, unless the
route has a parent and its leaf is `index` once lower-cased. -/
theorem cmd.flat_page_not_index (parent : List GoString) (low : GoString)
    (hlow : '/' ∉ low) (hidx : parent ≠ [] → low ≠ lit "index") :
    strings.HasSuffix
      ((if parent = [] then [] else strings.Join parent (lit "/") ++ lit "/") ++ low
        ++ lit ".page.tsx")
      (lit "/index.page.tsx") = false := by
  cases hsuf : strings.HasSuffix
      ((if parent = [] then [] else strings.Join parent (lit "/") ++ lit "/") ++ low
        ++ lit ".page.tsx") (lit "/index.page.tsx") with
  | false => rfl
  | true =>
    exfalso
    unfold strings.HasSuffix at hsuf
    rw [List.isSuffixOf_iff_suffix] at hsuf
    obtain ⟨t, ht⟩ := hsuf
    have hsplit : lit "/index.page.tsx" = lit "/index" ++ lit ".page.tsx" := rfl
    rw [hsplit, ← List.append_assoc] at ht
    have ht2 := List.append_cancel_right ht
    have hslash : lit "/index" = '/' :: lit "index" := rfl
    rw [hslash] at ht2
    by_cases hp : parent = []
    · rw [if_pos hp, List.nil_append] at ht2
      exact hlow (ht2 ▸ List.mem_append_right _ (List.mem_cons_self _ _))
    · rw [if_neg hp] at ht2
      have hone : lit "/" = ['/'] := rfl
      rw [hone, List.append_assoc, List.singleton_append] at ht2
      have hrev := congrArg List.reverse ht2
      simp only [List.reverse_append, List.reverse_cons, List.append_assoc,
        List.singleton_append] at hrev
      have := List.eq_of_append_cons_eq '/' _ _ _ _ hrev (by decide)
        (fun m => hlow (List.mem_reverse.1 m))
      exact hidx hp (List.reverse_injective this).symm

/-- Adoption from the flat page of a name. -/
theorem cmd.adoptCandidate_flat (U : Unicode) (views : List GoString) (parent : List GoString)
    (leaf : GoString)
    (hp : ∀ s ∈ parent, s ≠ [] ∧ '/' ∉ s ∧ strings.Title U (strings.ToLower U s) = s)
    (hl : leaf ≠ [] ∧ '/' ∉ strings.ToLower U leaf ∧
      strings.Title U (strings.ToLower U (strings.ToLower U leaf)) = leaf)
    (hidx : parent ≠ [] → strings.ToLower U leaf ≠ lit "index") :
    (cmd.adoptCandidate U views
        (lit "src/pages/"
          ++ (if parent = [] then [] else strings.Join parent (lit "/") ++ lit "/")
          ++ strings.ToLower U leaf ++ lit ".page.tsx")).Name
      = strings.Join (parent ++ [leaf]) (lit "/") ∧
    (cmd.adoptCandidate U views
        (lit "src/pages/"
          ++ (if parent = [] then [] else strings.Join parent (lit "/") ++ lit "/")
          ++ strings.ToLower U leaf ++ lit ".page.tsx")).Path
      = lit "/" ++ strings.Join (parent ++ [leaf]) (lit "/") := by
  obtain ⟨hl1, hl2, hl3⟩ := hl
  have hlowne : strings.ToLower U leaf ≠ [] := by
    intro h
    have := congrArg List.length h
    simp only [strings.ToLower, List.length_map, List.length_nil] at this
    exact hl1 (List.length_eq_zero.1 this)
  have hsuf := cmd.flat_page_not_index parent (strings.ToLower U leaf) hl2 hidx
  have hn0 : (if strings.HasSuffix
        ((if parent = [] then [] else strings.Join parent (lit "/") ++ lit "/")
          ++ strings.ToLower U leaf ++ lit ".page.tsx") (lit "/index.page.tsx") then
      strings.TrimSuffix
        ((if parent = [] then [] else strings.Join parent (lit "/") ++ lit "/")
          ++ strings.ToLower U leaf ++ lit ".page.tsx") (lit "/index.page.tsx")
      else strings.TrimSuffix
        ((if parent = [] then [] else strings.Join parent (lit "/") ++ lit "/")
          ++ strings.ToLower U leaf ++ lit ".page.tsx") (lit ".page.tsx"))
      = strings.Join (parent ++ [strings.ToLower U leaf]) (lit "/") := by
    rw [hsuf, if_neg (by simp), strings.TrimSuffix_append]
    by_cases hpn : parent = []
    · rw [if_pos hpn, hpn, List.nil_append, List.nil_append, strings.Join_cons]
      simp
    · rw [if_neg hpn, strings.Join_append (lit "/") parent _ hpn (by simp), strings.Join_cons]
      simp
  have hsegs : ∀ s ∈ parent ++ [strings.ToLower U leaf], '/' ∉ s := by
    intro s h
    rcases List.mem_append.1 h with h | h
    · exact (hp s h).2.1
    · rw [List.mem_singleton.1 h]; exact hl2
  have hmap : (strings.Split (strings.Join (parent ++ [strings.ToLower U leaf]) (lit "/")) '/').map
      (fun p => if p.length > 0 then strings.Title U (strings.ToLower U p) else p)
      = parent ++ [leaf] := by
    rw [strings.Split_Join _ (by simp) hsegs, List.map_append]
    congr 1
    · conv_rhs => rw [← List.map_id parent]
      apply List.map_congr_left
      intro s h
      obtain ⟨h1, _, h3⟩ := hp s h
      have : s.length > 0 := List.length_pos.2 h1
      simp only [this, if_true, h3, id]
    · have : (strings.ToLower U leaf).length > 0 := List.length_pos.2 hlowne
      simp only [List.map_cons, List.map_nil, this, if_true, hl3]
  have := cmd.adoptCandidate_of_rel U views _ _ hn0
  rw [hmap] at this
  simp only [List.append_assoc] at this ⊢
  exact this

set_option maxRecDepth 100000 in
theorem asciiStable_facts : ∀ n, n < 128 →
    (asciiLower (Char.ofNat n)).toNat ≤ 0x7F ∧
    (asciiUpper (asciiLower (Char.ofNat n))).toNat ≤ 0x7F ∧
    asciiLower (asciiLower (Char.ofNat n)) = asciiLower (Char.ofNat n) ∧
    asciiLower (asciiUpper (asciiLower (Char.ofNat n))) = asciiLower (Char.ofNat n) ∧
    (Char.ofNat n ≠ '/' →
      asciiLower (Char.ofNat n) ≠ '/' ∧ asciiUpper (asciiLower (Char.ofNat n)) ≠ '/') := by
  decide

/-- Every ASCII rune is case-stable, whatever the tables above ASCII. -/
theorem Spec.CaseStable_ascii (U : Unicode) (c : Char) (hc : c.toNat ≤ 0x7F) :
    Spec.CaseStable U c := by
  obtain ⟨f1, f2, f3, f4, f5⟩ := ascii_cases
    (fun c => (asciiLower c).toNat ≤ 0x7F ∧
      (asciiUpper (asciiLower c)).toNat ≤ 0x7F ∧
      asciiLower (asciiLower c) = asciiLower c ∧
      asciiLower (asciiUpper (asciiLower c)) = asciiLower c ∧
      (c ≠ '/' → asciiLower c ≠ '/' ∧ asciiUpper (asciiLower c) ≠ '/'))
    asciiStable_facts c hc
  unfold Spec.CaseStable
  rw [unicode.ToLower_ascii U c hc, unicode.ToLower_ascii U _ f1, unicode.ToTitle_ascii U _ f1,
    unicode.ToLower_ascii U _ f2]
  exact ⟨f3, f4, f5⟩

/-- C18, counterexample: `route add /foo/index --flat` registers the name
`Foo/Index` with the page `src/pages/Foo/index.page.tsx`, from which
adoption derives the name `Foo`; `route add /a\b --flat` registers the name
`A\B` with the page `src/pages/A/b.page.tsx`, from which adoption derives
the name `A/B`. -/
theorem C18_counterexample :
    ¬ (∀ (U : Unicode) (raw : GoString) (flat : Bool) (files : routes.Files),
        ':' ∉ raw → cmd.name U raw ≠ [] →
        routes.ResolvePaths U (cmd.name U raw) flat = some files →
        (cmd.adoptCandidate U [] files.React).Name = cmd.name U raw) ∧
    cmd.name Unicode.ascii (lit "/foo/index") = lit "Foo/Index" ∧
    routes.ResolvePaths Unicode.ascii (lit "Foo/Index") true
      = some { React := lit "src/pages/Foo/index.page.tsx", View := lit "Views/Foo/Index.cshtml" } ∧
    (cmd.adoptCandidate Unicode.ascii [] (lit "src/pages/Foo/index.page.tsx")).Name = lit "Foo" ∧
    cmd.name Unicode.ascii (lit "/a\\b") = lit "A\\B" ∧
    routes.ResolvePaths Unicode.ascii (lit "A\\B") true
      = some { React := lit "src/pages/A/b.page.tsx", View := lit "Views/A/B.cshtml" } ∧
    (cmd.adoptCandidate Unicode.ascii [] (lit "src/pages/A/b.page.tsx")).Name = lit "A/B" := by
  refine ⟨?_, rfl, rfl, rfl, rfl, rfl, rfl⟩
  intro hall
  have h := hall Unicode.ascii (lit "/foo/index") true
    { React := lit "src/pages/Foo/index.page.tsx", View := lit "Views/Foo/Index.cshtml" }
    (by decide) (by decide) rfl
  have h1 : (cmd.adoptCandidate Unicode.ascii []
      (lit "src/pages/Foo/index.page.tsx")).Name = lit "Foo" := rfl
  have h2 : cmd.name Unicode.ascii (lit "/foo/index") = lit "Foo/Index" := rfl
  rw [h2] at h
  dsimp only at h
  rw [h1] at h
  exact absurd h (by decide)

/-- C18: for every raw path of case-stable runes (every ASCII path is one)
whose normalized `Name` is not empty, adoption from the nested page
`ResolvePaths(Name, false).React` derives `Name` and the path `/` + `Name`;
adoption from the flat page `ResolvePaths(Name, true).React` does so when
`Name` has no backslash and it is not the case that `Name` has two segments
or more and its last segment, lower-cased, is `index`. -/
theorem C18_adoption_inverts (U : Unicode) (raw : GoString) (views : List GoString)
    (hstable : ∀ c ∈ raw, Spec.CaseStable U c) (hne : cmd.name U raw ≠ []) :
    (∃ files : routes.Files,
      routes.ResolvePaths U (cmd.name U raw) false = some files ∧
      (cmd.adoptCandidate U views files.React).Name = cmd.name U raw ∧
      (cmd.adoptCandidate U views files.React).Path = lit "/" ++ cmd.name U raw) ∧
    ('\\' ∉ cmd.name U raw →
      (∀ leaf : GoString, (cmd.pascalParts U raw).getLast? = some leaf →
        2 ≤ (cmd.pascalParts U raw).length → strings.ToLower U leaf ≠ lit "index") →
      ∃ files : routes.Files,
        routes.ResolvePaths U (cmd.name U raw) true = some files ∧
        (cmd.adoptCandidate U views files.React).Name = cmd.name U raw ∧
        (cmd.adoptCandidate U views files.React).Path = lit "/" ++ cmd.name U raw) := by
  have hst := cmd.pascalParts_stable U raw hstable
  have hname : cmd.name U raw = strings.Join (cmd.pascalParts U raw) (lit "/") := rfl
  have hsegne : cmd.pascalParts U raw ≠ [] := by
    intro h
    apply hne
    rw [hname, h]
    rfl
  constructor
  · refine ⟨_, rfl, ?_⟩
    rw [hname]
    exact cmd.adoptCandidate_nested U views _ hsegne
      (fun s h => ⟨(hst s h).1, (hst s h).2.1, (hst s h).2.2.2.1⟩)
  · intro hback hidx
    have hparts : routes.ResolvePaths.parts (cmd.name U raw) = cmd.pascalParts U raw := by
      rw [hname]
      apply routes.ResolvePaths.parts_Join _ hsegne
      intro s h
      refine ⟨(hst s h).1, (hst s h).2.1, fun hb => hback ?_⟩
      rw [hname]
      exact strings.mem_Join _ _ s hb _ h
    have hsplit := List.dropLast_append_getLast hsegne
    have hlast : (cmd.pascalParts U raw).getLast? = some ((cmd.pascalParts U raw).getLast hsegne) :=
      List.getLast?_eq_getLast_of_ne_nil hsegne
    have hleaf := hst _ (List.getLast_mem hsegne)
    rw [← hsplit] at hparts
    refine ⟨_, routes.ResolvePaths_flat_of_parts U _ _ _ hparts, ?_⟩
    have := cmd.adoptCandidate_flat U views (cmd.pascalParts U raw).dropLast
      ((cmd.pascalParts U raw).getLast hsegne)
      (fun s h => by
        have hm := List.dropLast_subset _ h
        exact ⟨(hst s hm).1, (hst s hm).2.1, (hst s hm).2.2.2.1⟩)
      ⟨hleaf.1, hleaf.2.2.1, by rw [hleaf.2.2.2.2, hleaf.2.2.2.1]⟩
      (fun hp => hidx _ hlast (by
        have hlen := congrArg List.length hsplit
        have hpos : 0 < (cmd.pascalParts U raw).dropLast.length := List.length_pos.2 hp
        simp only [List.length_append, List.length_singleton] at hlen
        omega))
    rw [hsplit] at this
    rw [hname]
    exact this

/-- C18, witness: the raw path `/admin/users`. -/
theorem C18_adoption_inverts_witness :
    (∃ files : routes.Files,
      routes.ResolvePaths Unicode.ascii (cmd.name Unicode.ascii (lit "/admin/users")) false
        = some files ∧
      (cmd.adoptCandidate Unicode.ascii [] files.React).Name
        = cmd.name Unicode.ascii (lit "/admin/users") ∧
      (cmd.adoptCandidate Unicode.ascii [] files.React).Path
        = lit "/" ++ cmd.name Unicode.ascii (lit "/admin/users")) ∧
    (∃ files : routes.Files,
      routes.ResolvePaths Unicode.ascii (cmd.name Unicode.ascii (lit "/admin/users")) true
        = some files ∧
      (cmd.adoptCandidate Unicode.ascii [] files.React).Name
        = cmd.name Unicode.ascii (lit "/admin/users") ∧
      (cmd.adoptCandidate Unicode.ascii [] files.React).Path
        = lit "/" ++ cmd.name Unicode.ascii (lit "/admin/users")) :=
  ⟨(C18_adoption_inverts Unicode.ascii (lit "/admin/users") []
      (fun c hc => Spec.CaseStable_ascii _ c
        ((by decide : ∀ c ∈ lit "/admin/users", c.toNat ≤ 0x7F) c hc))
      (by decide)).1,
   (C18_adoption_inverts Unicode.ascii (lit "/admin/users") []
      (fun c hc => Spec.CaseStable_ascii _ c
        ((by decide : ∀ c ∈ lit "/admin/users", c.toNat ≤ 0x7F) c hc))
      (by decide)).2 (by decide)
      (fun leaf h _ => by
        have h2 : (cmd.pascalParts Unicode.ascii (lit "/admin/users")).getLast?
            = some (lit "Users") := rfl
        rw [h2] at h
        rw [← Option.some.inj h]
        decide)⟩

/-! ## C11: the signatures of an action after `EnsureController` -/

theorem strings.equalFoldRune_ascii (U : Unicode) (a b : Char) (ha : a.toNat < 0x80)
    (hb : b.toNat < 0x80) :
    strings.equalFoldRune U a b = strings.equalFoldRune Unicode.ascii a b := by
  unfold strings.equalFoldRune
  by_cases h : b = a
  · simp [h]
  · simp only [h, if_false]
    have : (if b.toNat < a.toNat then a else b).toNat < 0x80 := by
      split_ifs <;> assumption
    simp only [this, if_true]

set_option maxRecDepth 100000 in
theorem asciiIdentifier_facts : ∀ n, n < 128 → asciiSeparator (Char.ofNat n) = false →
    regexp.isSpace (Char.ofNat n) = false ∧
    (∀ x ∈ [' ', '\n', '\t', '\r', Char.ofNat 12],
      strings.equalFoldRune Unicode.ascii (Char.ofNat n) x = false) := by
  decide

theorem asciiSeparator_ascii (c : Char) (h : asciiSeparator c = false) : c.toNat ≤ 0x7F := by
  by_contra hc
  have h1 : ¬ c.toNat ≤ 0x7F := hc
  have e : asciiSeparator c = true := by
    unfold asciiSeparator
    have d1 : ¬ ('0'.toNat ≤ c.toNat ∧ c.toNat ≤ '9'.toNat) := by
      have : '9'.toNat = 57 := rfl
      omega
    have d2 : ¬ ('a'.toNat ≤ c.toNat ∧ c.toNat ≤ 'z'.toNat) := by
      have : 'z'.toNat = 122 := rfl
      omega
    have d3 : ¬ ('A'.toNat ≤ c.toNat ∧ c.toNat ≤ 'Z'.toNat) := by
      have : 'Z'.toNat = 90 := rfl
      omega
    have d4 : c ≠ '_' := by
      intro e
      rw [e] at h1
      exact h1 (by decide)
    rw [if_neg d1, if_neg d2, if_neg d3, if_neg d4]
  rw [e] at h
  cases h

theorem regexp.isSpace_mem (x : Char) (h : regexp.isSpace x = true) :
    x ∈ [' ', '\n', '\t', '\r', Char.ofNat 12] := by
  simp only [regexp.isSpace, Bool.or_eq_true, decide_eq_true_eq] at h
  simp only [List.mem_cons, List.mem_singleton, List.not_mem_nil, or_false]
  tauto

/-- A rune of an identifier is no space and folds to no space. -/
theorem Spec.Identifier.rune (U : Unicode) (c : Char) (h : asciiSeparator c = false) :
    regexp.isSpace c = false ∧
    ∀ x : Char, regexp.isSpace x = true → strings.equalFoldRune U c x = false := by
  have hc := asciiSeparator_ascii c h
  obtain ⟨f1, f2⟩ := ascii_cases
    (fun c => asciiSeparator c = false → regexp.isSpace c = false ∧
      (∀ x ∈ [' ', '\n', '\t', '\r', Char.ofNat 12],
        strings.equalFoldRune Unicode.ascii c x = false))
    asciiIdentifier_facts c hc h
  refine ⟨f1, fun x hx => ?_⟩
  have hm := regexp.isSpace_mem x hx
  have hx2 : x.toNat < 0x80 := by
    simp only [List.mem_cons, List.mem_singleton, List.not_mem_nil, or_false] at hm
    rcases hm with rfl | rfl | rfl | rfl | rfl <;> decide
  rw [strings.equalFoldRune_ascii U c x (by omega) hx2]
  exact f2 x hm

/-- The count is zero exactly when the pattern matches nowhere. -/
theorem Spec.signatureCount_eq_zero (U : Unicode) (action : GoString) :
    ∀ s : GoString, Spec.signatureCount U action s = 0 ↔ regexp.MatchAction U action s = false
  | [] => by
    simp only [Spec.signatureCount, regexp.MatchAction, List.tails, List.any_cons, List.any_nil,
      Bool.or_false]
    cases regexp.matchActionAt U action [] <;> simp
  | c :: s => by
    have ih := Spec.signatureCount_eq_zero U action s
    simp only [regexp.MatchAction] at ih
    simp only [Spec.signatureCount, regexp.MatchAction, List.tails, List.any_cons]
    cases regexp.matchActionAt U action (c :: s) with
    | true => simp
    | false =>
      simp only [Bool.false_eq_true, if_false, Nat.zero_add, Bool.false_or]
      exact ih

/-- A stretch of text in which no match starts adds nothing to the count. -/
theorem Spec.signatureCount_append (U : Unicode) (action : GoString) (b : GoString) :
    ∀ a : GoString,
      (∀ t : GoString, t ≠ [] → t <:+ a →
        regexp.matchActionAt U action (t ++ b) = false) →
      Spec.signatureCount U action (a ++ b) = Spec.signatureCount U action b
  | [], _ => rfl
  | c :: a, h => by
    have h1 := h (c :: a) (by simp) (List.suffix_refl _)
    have ih := Spec.signatureCount_append U action b a
      (fun t ht hs => h t ht (hs.trans (List.suffix_cons _ _)))
    rw [List.cons_append] at h1 ⊢
    simp only [Spec.signatureCount, h1, Bool.false_eq_true, if_false, Nat.zero_add, ih]

theorem Spec.signatureCount_cons_true (U : Unicode) (action : GoString) (c : Char)
    (s : GoString) (h : regexp.matchActionAt U action (c :: s) = true) :
    Spec.signatureCount U action (c :: s) = 1 + Spec.signatureCount U action s := by
  simp only [Spec.signatureCount, h, if_true]

theorem regexp.clash_sound (U : Unicode) :
    ∀ (l t z : GoString), regexp.clash l t = true → regexp.matchLiteral U l (t ++ z) = none
  | [], _, _, h => by cases h
  | _ :: _, [], _, h => by cases h
  | x :: l, y :: t, z, h => by
    simp only [regexp.clash] at h
    rw [List.cons_append]
    simp only [regexp.matchLiteral]
    by_cases hf : strings.equalFoldRune Unicode.ascii x y = true
    · rw [if_pos hf] at h
      have ih := regexp.clash_sound U l t z h
      split_ifs
      · exact ih
      · rfl
    · rw [if_neg hf] at h
      have hxy : x.toNat < 0x80 ∧ y.toNat < 0x80 := by simpa using h
      rw [strings.equalFoldRune_ascii U x y hxy.1 hxy.2, if_neg hf]

theorem regexp.noStart_sound (U : Unicode) (action w : GoString) (h : regexp.noStart w = true)
    (t : GoString) (ht : t ≠ []) (hs : t <:+ w) (z : GoString) :
    regexp.matchActionAt U action (t ++ z) = false := by
  unfold regexp.noStart at h
  rw [List.all_eq_true] at h
  have h1 := h t ((List.mem_tails _ _).2 hs)
  have h2 : regexp.clash (lit "IActionResult") t = true := by
    cases t with
    | nil => exact absurd rfl ht
    | cons c t => simpa using h1
  unfold regexp.matchActionAt
  rw [regexp.clash_sound U _ t z h2]

/-- In a stretch without spaces that is followed by a rune which is no space
and to which no rune of the literal folds, the rune after a match of the
literal is no space. -/
theorem regexp.matchLiteral_noSpace (U : Unicode) (c : Char) (z : GoString)
    (hc : regexp.isSpace c = false) :
    ∀ (l a : GoString), (∀ x ∈ l, strings.equalFoldRune U x c = false) →
      (∀ x ∈ a, regexp.isSpace x = false) →
      ∀ (d : Char) (rest : GoString),
        regexp.matchLiteral U l (a ++ c :: z) = some (d :: rest) → regexp.isSpace d = false
  | [], [], _, _, d, rest, h => by
    have h2 : c :: z = d :: rest := Option.some.inj h
    rw [← List.head_eq_of_cons_eq h2]; exact hc
  | [], y :: a, _, ha, d, rest, h => by
    have h2 : y :: (a ++ c :: z) = d :: rest := Option.some.inj h
    rw [← List.head_eq_of_cons_eq h2]; exact ha y (List.mem_cons_self _ _)
  | x :: l, [], hl, _, d, rest, h => by
    rw [List.nil_append] at h
    simp only [regexp.matchLiteral, hl x (List.mem_cons_self _ _), Bool.false_eq_true,
      if_false] at h
    cases h
  | x :: l, y :: a, hl, ha, d, rest, h => by
    rw [List.cons_append] at h
    simp only [regexp.matchLiteral] at h
    split_ifs at h
    exact regexp.matchLiteral_noSpace U c z hc l a
      (fun x hx => hl x (List.mem_cons_of_mem _ hx))
      (fun x hx => ha x (List.mem_cons_of_mem _ hx)) d rest h

theorem regexp.literal_facts (U : Unicode) :
    ∀ c ∈ ['(', '"', ' ', '\n'],
      ∀ x ∈ lit "IActionResult", strings.equalFoldRune U x c = false := by
  have h : ∀ c ∈ ['(', '"', ' ', '\n'], ∀ x ∈ lit "IActionResult",
      (x.toNat < 0x80 ∧ c.toNat < 0x80) ∧ strings.equalFoldRune Unicode.ascii x c = false := by
    decide
  intro c hc x hx
  obtain ⟨⟨h1, h2⟩, h3⟩ := h c hc x hx
  rw [strings.equalFoldRune_ascii U x c h1 h2]
  exact h3

/-- No match starts in a stretch without spaces that is followed by `(` or
by `"`. -/
theorem regexp.matchActionAt_noSpace (U : Unicode) (action a : GoString) (c : Char)
    (z : GoString) (ha : ∀ x ∈ a, regexp.isSpace x = false) (hc : c = '(' ∨ c = '"') :
    regexp.matchActionAt U action (a ++ c :: z) = false := by
  have hcs : regexp.isSpace c = false := by rcases hc with rfl | rfl <;> rfl
  have hlit : ∀ x ∈ lit "IActionResult", strings.equalFoldRune U x c = false := by
    rcases hc with rfl | rfl
    · exact regexp.literal_facts U '(' (by simp)
    · exact regexp.literal_facts U '"' (by simp)
  unfold regexp.matchActionAt
  cases hm : regexp.matchLiteral U (lit "IActionResult") (a ++ c :: z) with
  | none => rfl
  | some r =>
    cases r with
    | nil => rfl
    | cons d rest =>
      have := regexp.matchLiteral_noSpace U c z hcs _ a hlit ha d rest hm
      simp only [this, Bool.false_and]

/-- A literal that meets a rune to which none of its runes folds is matched
before that rune. -/
theorem regexp.matchLiteral_before (U : Unicode) (x0 : Char) (X : GoString) :
    ∀ (l t r : GoString), (∀ c ∈ l, strings.equalFoldRune U c x0 = false) →
      regexp.matchLiteral U l (t ++ x0 :: X) = some r →
      ∃ r', regexp.matchLiteral U l t = some r' ∧ r = r' ++ x0 :: X
  | [], t, r, _, h => by
    have e : regexp.matchLiteral U [] (t ++ x0 :: X) = some (t ++ x0 :: X) := by
      cases t <;> rfl
    rw [e] at h
    refine ⟨t, ?_, (Option.some.inj h).symm⟩
    cases t <;> rfl
  | c :: l, [], r, hl, h => by
    rw [List.nil_append] at h
    simp only [regexp.matchLiteral, hl c (List.mem_cons_self _ _), Bool.false_eq_true,
      if_false] at h
    cases h
  | c :: l, y :: t, r, hl, h => by
    rw [List.cons_append] at h
    simp only [regexp.matchLiteral] at h ⊢
    by_cases hf : strings.equalFoldRune U c y = true
    · rw [if_pos hf] at h ⊢
      exact regexp.matchLiteral_before U x0 X l t r
        (fun c hc => hl c (List.mem_cons_of_mem _ hc)) h
    · rw [if_neg hf] at h
      cases h

theorem regexp.matchLiteral_append (U : Unicode) (y : GoString) :
    ∀ (l t r : GoString), regexp.matchLiteral U l t = some r →
      regexp.matchLiteral U l (t ++ y) = some (r ++ y)
  | [], t, r, h => by
    have e : regexp.matchLiteral U [] t = some t := by cases t <;> rfl
    rw [e] at h
    rw [← Option.some.inj h]
    cases t <;> cases y <;> rfl
  | c :: l, [], r, h => by cases h
  | c :: l, z :: t, r, h => by
    rw [List.cons_append]
    simp only [regexp.matchLiteral] at h ⊢
    by_cases hf : strings.equalFoldRune U c z = true
    · rw [if_pos hf] at h ⊢
      exact regexp.matchLiteral_append U y l t r h
    · rw [if_neg hf] at h
      cases h

theorem regexp.matchLiteral_suffix (U : Unicode) :
    ∀ (l t r : GoString), regexp.matchLiteral U l t = some r → r <:+ t
  | [], t, r, h => by
    have e : regexp.matchLiteral U [] t = some t := by cases t <;> rfl
    rw [e] at h
    rw [← Option.some.inj h]
  | c :: l, [], r, h => by cases h
  | c :: l, z :: t, r, h => by
    simp only [regexp.matchLiteral] at h
    split_ifs at h
    exact (regexp.matchLiteral_suffix U l t r h).trans (List.suffix_cons _ _)

/-- After an identifier matched inside a word that a space follows, no `(`
comes next. -/
theorem regexp.matchLiteral_word (U : Unicode) (s : GoString) (c0 : Char) (s' : GoString)
    (hs : s = c0 :: s') (hc0 : regexp.isSpace c0 = true)
    (hparen : regexp.matchOpenParen s = false) :
    ∀ (action w : GoString), Spec.Identifier action →
      (∀ x ∈ w, regexp.isSpace x = false ∧ x ≠ '(') →
      ∀ rest, regexp.matchLiteral U action (w ++ s) = some rest →
        regexp.matchOpenParen rest = false
  | [], [], _, _, rest, h => by
    rw [List.nil_append] at h
    have e : regexp.matchLiteral U [] s = some s := by cases s <;> rfl
    rw [e] at h
    rw [← Option.some.inj h]; exact hparen
  | [], y :: w, _, hw, rest, h => by
    have e : regexp.matchLiteral U [] (y :: w ++ s) = some (y :: w ++ s) := rfl
    rw [e] at h
    rw [← Option.some.inj h]
    obtain ⟨h1, h2⟩ := hw y (List.mem_cons_self _ _)
    simp only [regexp.matchOpenParen, List.cons_append, List.dropWhile_cons, h1,
      Bool.false_eq_true, if_false, List.head?_cons, Option.some.injEq, h2, decide_False]
  | a :: as, [], ha, _, rest, h => by
    rw [List.nil_append, hs] at h
    have := (Spec.Identifier.rune U a (ha a (List.mem_cons_self _ _))).2 c0 hc0
    simp only [regexp.matchLiteral, this, Bool.false_eq_true, if_false] at h
    cases h
  | a :: as, y :: w, ha, hw, rest, h => by
    rw [List.cons_append] at h
    simp only [regexp.matchLiteral] at h
    split_ifs at h
    exact regexp.matchLiteral_word U s c0 s' hs hc0 hparen as w
      (fun c hc => ha c (List.mem_cons_of_mem _ hc))
      (fun c hc => hw c (List.mem_cons_of_mem _ hc)) rest h

theorem regexp.matchOpenParen_spaces (y : Char) (z : GoString)
    (hy : regexp.isSpace y = false ∧ y ≠ '(') :
    ∀ sp : GoString, (∀ x ∈ sp, regexp.isSpace x = true) →
      regexp.matchOpenParen (sp ++ y :: z) = false
  | [], _ => by
    simp only [regexp.matchOpenParen, List.nil_append, List.dropWhile_cons, hy.1,
      Bool.false_eq_true, if_false, List.head?_cons, Option.some.injEq, hy.2, decide_False]
  | c :: sp, h => by
    have ih := regexp.matchOpenParen_spaces y z hy sp (fun x hx => h x (List.mem_cons_of_mem _ hx))
    simp only [regexp.matchOpenParen] at ih ⊢
    simp only [List.cons_append, List.dropWhile_cons, h c (List.mem_cons_self _ _), if_true]
    exact ih

theorem regexp.matchSpacesAction_cons (U : Unicode) (action : GoString) (c : Char)
    (s : GoString) :
    regexp.matchSpacesAction U action (c :: s)
      = ((regexp.matchLiteral U action (c :: s)).any regexp.matchOpenParen
          || (regexp.isSpace c && regexp.matchSpacesAction U action s)) := by
  rw [regexp.matchSpacesAction]
  cases regexp.matchLiteral U action (c :: s) <;> rfl

theorem regexp.literalThenParen_false (U : Unicode) (action s : GoString)
    (h : ∀ rest, regexp.matchLiteral U action s = some rest →
      regexp.matchOpenParen rest = false) :
    (regexp.matchLiteral U action s).any regexp.matchOpenParen = false := by
  cases hm : regexp.matchLiteral U action s with
  | none => rfl
  | some rest => exact h rest hm

/-- After spaces, a word that is no `(` and is followed by a space and no
`(`: the rest of the pattern, `\s*<action>\s*\(`, does not match. -/
theorem regexp.matchSpacesAction_word (U : Unicode) (action : GoString)
    (ha : Spec.Identifier action) (y : Char) (w : GoString)
    (hw : ∀ x ∈ y :: w, regexp.isSpace x = false ∧ x ≠ '(') (c0 : Char) (s' : GoString)
    (hc0 : regexp.isSpace c0 = true) (hparen : regexp.matchOpenParen (c0 :: s') = false) :
    ∀ sp : GoString, (∀ x ∈ sp, regexp.isSpace x = true) →
      regexp.matchSpacesAction U action (sp ++ (y :: w ++ c0 :: s')) = false
  | [], _ => by
    rw [List.nil_append, List.cons_append, regexp.matchSpacesAction_cons]
    have h1 := regexp.literalThenParen_false U action (y :: (w ++ c0 :: s'))
      (fun rest h => regexp.matchLiteral_word U (c0 :: s') c0 s' rfl hc0 hparen action (y :: w)
        ha hw rest h)
    rw [h1, (hw y (List.mem_cons_self _ _)).1]
    rfl
  | c :: sp, hsp => by
    have ih := regexp.matchSpacesAction_word U action ha y w hw c0 s' hc0 hparen sp
      (fun x hx => hsp x (List.mem_cons_of_mem _ hx))
    rw [List.cons_append, regexp.matchSpacesAction_cons]
    have hp : regexp.matchOpenParen (c :: (sp ++ (y :: w ++ c0 :: s'))) = false := by
      have := regexp.matchOpenParen_spaces y (w ++ c0 :: s') (hw y (List.mem_cons_self _ _))
        (c :: sp) hsp
      simpa using this
    have h1 := regexp.literalThenParen_false U action (c :: (sp ++ (y :: w ++ c0 :: s')))
      (fun rest h => regexp.matchLiteral_word U (c :: (sp ++ (y :: w ++ c0 :: s'))) c _ rfl
        (hsp c (List.mem_cons_self _ _)) hp action [] ha (fun x hx => by cases hx) rest h)
    rw [h1, ih]
    simp

theorem regexp.matchOpenParen_mono (x y : GoString) (hx : regexp.matchOpenParen x = false) :
    ∀ r : GoString, regexp.matchOpenParen (r ++ x) = true →
      regexp.matchOpenParen (r ++ y) = true
  | [], h => by rw [List.nil_append, hx] at h; cases h
  | c :: r, h => by
    have ih := regexp.matchOpenParen_mono x y hx r
    simp only [regexp.matchOpenParen] at ih h ⊢
    rw [List.cons_append, List.dropWhile_cons] at h ⊢
    by_cases hc : regexp.isSpace c = true
    · rw [if_pos hc] at h ⊢
      exact ih h
    · rw [if_neg hc] at h ⊢
      exact h

/-- A match of the rest of the pattern that starts before an inserted text
which begins with a space and admits no match is a match without the
inserted text. -/
theorem regexp.matchSpacesAction_mono (U : Unicode) (action : GoString)
    (ha : Spec.Identifier action) (x0 : Char) (X y : GoString)
    (hx0 : regexp.isSpace x0 = true)
    (hX : regexp.matchSpacesAction U action (x0 :: X) = false)
    (hparen : regexp.matchOpenParen (x0 :: X) = false) :
    ∀ r : GoString, regexp.matchSpacesAction U action (r ++ x0 :: X) = true →
      regexp.matchSpacesAction U action (r ++ y) = true
  | [], h => by rw [List.nil_append, hX] at h; cases h
  | c :: r, h => by
    have ih := regexp.matchSpacesAction_mono U action ha x0 X y hx0 hX hparen r
    rw [List.cons_append, regexp.matchSpacesAction_cons] at h ⊢
    simp only [Bool.or_eq_true, Bool.and_eq_true] at h ⊢
    rcases h with h | ⟨h1, h2⟩
    · left
      cases hm : regexp.matchLiteral U action (c :: (r ++ x0 :: X)) with
      | none => rw [hm] at h; cases h
      | some rest =>
        rw [hm] at h
        obtain ⟨r1, hr1, hrest⟩ := regexp.matchLiteral_before U x0 X action (c :: r) rest
          (fun a haa => (Spec.Identifier.rune U a (ha a haa)).2 x0 hx0) hm
        have := regexp.matchLiteral_append U y action (c :: r) r1 hr1
        rw [List.cons_append] at this
        rw [this]
        rw [hrest] at h
        exact regexp.matchOpenParen_mono (x0 :: X) y hparen r1 h
    · exact Or.inr ⟨h1, ih h2⟩

/-- A match that starts before an inserted text which begins with a newline
and admits no match of the rest of the pattern is a match without the
inserted text. -/
theorem regexp.matchActionAt_mono (U : Unicode) (action : GoString)
    (ha : Spec.Identifier action) (X y : GoString)
    (hX : regexp.matchSpacesAction U action X = false)
    (hX2 : regexp.matchSpacesAction U action ('\n' :: X) = false)
    (hparen : regexp.matchOpenParen ('\n' :: X) = false) (t : GoString)
    (h : regexp.matchActionAt U action (t ++ '\n' :: X) = true) :
    regexp.matchActionAt U action (t ++ y) = true := by
  unfold regexp.matchActionAt at h ⊢
  cases hm : regexp.matchLiteral U (lit "IActionResult") (t ++ '\n' :: X) with
  | none => rw [hm] at h; cases h
  | some r =>
    rw [hm] at h
    obtain ⟨r', hr', hr⟩ := regexp.matchLiteral_before U '\n' X _ t r
      (regexp.literal_facts U '\n' (by simp)) hm
    cases r' with
    | nil =>
      rw [hr, List.nil_append] at h
      simp only [hX, Bool.and_false] at h
      cases h
    | cons d r'' =>
      rw [hr, List.cons_append] at h
      simp only [Bool.and_eq_true] at h
      rw [regexp.matchLiteral_append U y _ t _ hr', List.cons_append]
      simp only [Bool.and_eq_true]
      exact ⟨h.1, regexp.matchSpacesAction_mono U action ha '\n' X y rfl hX2 hparen r'' h.2⟩

theorem regexp.matchActionAt_signature (U : Unicode) (action b : GoString) :
    regexp.matchActionAt U action (lit "IActionResult " ++ (action ++ (lit "(" ++ b)))
      = true := by
  have e : lit "IActionResult " ++ (action ++ (lit "(" ++ b))
      = lit "IActionResult" ++ (' ' :: (action ++ (lit "(" ++ b))) := rfl
  have hlit := regexp.matchLiteral_self U action (lit "(" ++ b)
  have hsp := regexp.matchSpacesAction_of_literal U action _ _ hlit rfl
  rw [e]
  unfold regexp.matchActionAt
  rw [regexp.matchLiteral_self U (lit "IActionResult") (' ' :: (action ++ (lit "(" ++ b)))]
  simp only [hsp, Bool.and_true]
  rfl

theorem Spec.Identifier.noSpace (action : GoString) (ha : Spec.Identifier action) :
    Spec.NoSpace action := by
  intro c hc
  exact (Spec.Identifier.rune Unicode.ascii c (ha c hc)).1

theorem Spec.signatureCount_noSpace (U : Unicode) (action a : GoString) (c : Char)
    (z : GoString) (ha : Spec.NoSpace a) (hc : c = '(' ∨ c = '"') :
    Spec.signatureCount U action (a ++ c :: z) = Spec.signatureCount U action (c :: z) := by
  apply Spec.signatureCount_append
  intro t _ hs
  exact regexp.matchActionAt_noSpace U action t c z (fun x hx => ha x (hs.subset hx)) hc

theorem Spec.signatureCount_noStart (U : Unicode) (action w z : GoString)
    (h : regexp.noStart w = true) :
    Spec.signatureCount U action (w ++ z) = Spec.signatureCount U action z := by
  apply Spec.signatureCount_append
  intro t ht hs
  exact regexp.noStart_sound U action w h t ht hs z

set_option maxRecDepth 1000000 in
theorem regexp.noStart_segments :
    regexp.noStart (lit "ActionResult ") = true ∧
    regexp.noStart (lit "()\n    \x7b\n        return View(\"~/") = true ∧
    regexp.noStart (lit "\");\n    \x7d\n") = true ∧
    regexp.noStart (lit "\n    public ") = true ∧
    regexp.noStart (lit " : Controller\n\x7b\n    public ") = true ∧
    regexp.noStart (lit
      "using Microsoft.AspNetCore.Mvc;\n\nnamespace Poyo.Server.Controllers;\n\npublic class ")
      = true ∧
    regexp.noStart (lit "\x7d\n") = true := by
  decide

/-- From the keyword of the signature to the end of the snippet there is
one match, the signature, when the action is an identifier, the view has no
space and no match follows the snippet. -/
theorem Spec.signatureCount_signature (U : Unicode) (action view z : GoString)
    (ha : Spec.Identifier action) (hv : Spec.NoSpace view)
    (hz : Spec.signatureCount U action z = 0) :
    Spec.signatureCount U action
      (lit "IActionResult " ++ (action ++ (lit "(" ++
        (lit ")\n    \x7b\n        return View(\"~/" ++ (view ++
          (lit "\");\n    \x7d\n" ++ z))))))
      = 1 := by
  have hsig := regexp.matchActionAt_signature U action
    (lit ")\n    \x7b\n        return View(\"~/" ++ (view ++
      (lit "\");\n    \x7d\n" ++ z)))
  have e1 : lit "IActionResult " ++ (action ++ (lit "(" ++
        (lit ")\n    \x7b\n        return View(\"~/" ++ (view ++
          (lit "\");\n    \x7d\n" ++ z)))))
      = 'I' :: (lit "ActionResult " ++ (action ++ ('(' ::
        (lit ")\n    \x7b\n        return View(\"~/" ++ (view ++
          ('"' :: (lit ");\n    \x7d\n" ++ z))))))) := rfl
  rw [e1] at hsig ⊢
  rw [Spec.signatureCount_cons_true U action _ _ hsig,
    Spec.signatureCount_noStart U action _ _ regexp.noStart_segments.1,
    Spec.signatureCount_noSpace U action action '(' _ (Spec.Identifier.noSpace action ha)
      (Or.inl rfl)]
  have e2 : '(' :: (lit ")\n    \x7b\n        return View(\"~/" ++ (view ++
          ('"' :: (lit ");\n    \x7d\n" ++ z))))
      = lit "()\n    \x7b\n        return View(\"~/" ++ (view ++
          ('"' :: (lit ");\n    \x7d\n" ++ z))) := rfl
  rw [e2, Spec.signatureCount_noStart U action _ _ regexp.noStart_segments.2.1,
    Spec.signatureCount_noSpace U action view '"' _ hv (Or.inr rfl)]
  have e3 : '"' :: (lit ");\n    \x7d\n" ++ z) = lit "\");\n    \x7d\n" ++ z := rfl
  rw [e3, Spec.signatureCount_noStart U action _ _ regexp.noStart_segments.2.2.1, hz]

/-- The file `EnsureController` creates holds one signature of the action. -/
theorem scaffold.signatureCount_ControllerTemplate (U : Unicode) (ctrl action view : GoString)
    (ha : Spec.Identifier action) (hv : Spec.NoSpace view) (hc : Spec.NoSpace ctrl) :
    Spec.signatureCount U action (scaffold.ControllerTemplate ctrl action view) = 1 := by
  have e : scaffold.ControllerTemplate ctrl action view =
      lit "using Microsoft.AspNetCore.Mvc;\n\nnamespace Poyo.Server.Controllers;\n\npublic class "
        ++ (ctrl ++ (' ' :: (lit ": Controller\n\x7b\n    public " ++
          (lit "IActionResult " ++ (action ++ (lit "(" ++
            (lit ")\n    \x7b\n        return View(\"~/" ++ (view ++
              (lit "\");\n    \x7d\n" ++ lit "\x7d\n"))))))))) := by
    simp [scaffold.ControllerTemplate]
  have hz : Spec.signatureCount U action (lit "\x7d\n") = 0 := by
    have := Spec.signatureCount_noStart U action (lit "\x7d\n") []
      regexp.noStart_segments.2.2.2.2.2.2
    rw [List.append_nil] at this
    rw [this]
    rfl
  have hone := Spec.signatureCount_signature U action view (lit "\x7d\n") ha hv hz
  have hctrl : Spec.signatureCount U action
      (ctrl ++ (' ' :: (lit ": Controller\n\x7b\n    public " ++
          (lit "IActionResult " ++ (action ++ (lit "(" ++
            (lit ")\n    \x7b\n        return View(\"~/" ++ (view ++
              (lit "\");\n    \x7d\n" ++ lit "\x7d\n")))))))))
      = Spec.signatureCount U action
          (' ' :: (lit ": Controller\n\x7b\n    public " ++
            (lit "IActionResult " ++ (action ++ (lit "(" ++
              (lit ")\n    \x7b\n        return View(\"~/" ++ (view ++
                (lit "\");\n    \x7d\n" ++ lit "\x7d\n")))))))) := by
    apply Spec.signatureCount_append
    intro t _ hs
    unfold regexp.matchActionAt
    cases hm : regexp.matchLiteral U (lit "IActionResult")
        (t ++ ' ' :: (lit ": Controller\n\x7b\n    public " ++
          (lit "IActionResult " ++ (action ++ (lit "(" ++
            (lit ")\n    \x7b\n        return View(\"~/" ++ (view ++
              (lit "\");\n    \x7d\n" ++ lit "\x7d\n")))))))) with
    | none => rfl
    | some r =>
      obtain ⟨r', hr', hr⟩ := regexp.matchLiteral_before U ' ' _ _ t r
        (regexp.literal_facts U ' ' (by simp)) hm
      cases r' with
      | nil =>
        rw [hr, List.nil_append]
        have hw := regexp.matchSpacesAction_word U action ha ':' [] (by
            intro x hx
            rw [List.mem_singleton.1 hx]
            exact ⟨rfl, by decide⟩) ' '
          (lit "Controller\n\x7b\n    public " ++
            (lit "IActionResult " ++ (action ++ (lit "(" ++
              (lit ")\n    \x7b\n        return View(\"~/" ++ (view ++
                (lit "\");\n    \x7d\n" ++ lit "\x7d\n")))))))
          rfl rfl [] (fun x hx => by cases hx)
        have e2 : ([] : GoString) ++ ([':'] ++ ' ' ::
            (lit "Controller\n\x7b\n    public " ++
              (lit "IActionResult " ++ (action ++ (lit "(" ++
                (lit ")\n    \x7b\n        return View(\"~/" ++ (view ++
                  (lit "\");\n    \x7d\n" ++ lit "\x7d\n"))))))))
            = lit ": Controller\n\x7b\n    public " ++
              (lit "IActionResult " ++ (action ++ (lit "(" ++
                (lit ")\n    \x7b\n        return View(\"~/" ++ (view ++
                  (lit "\");\n    \x7d\n" ++ lit "\x7d\n")))))) := rfl
        rw [e2] at hw
        simp only [hw, Bool.and_false]
      | cons d r'' =>
        rw [hr, List.cons_append]
        have hd : d ∈ t := (regexp.matchLiteral_suffix U _ t _ hr').subset
          (List.mem_cons_self _ _)
        simp only [hc d (hs.subset hd), Bool.false_and]
  have e3 : ' ' :: (lit ": Controller\n\x7b\n    public " ++
            (lit "IActionResult " ++ (action ++ (lit "(" ++
              (lit ")\n    \x7b\n        return View(\"~/" ++ (view ++
                (lit "\");\n    \x7d\n" ++ lit "\x7d\n")))))))
      = lit " : Controller\n\x7b\n    public " ++
            (lit "IActionResult " ++ (action ++ (lit "(" ++
              (lit ")\n    \x7b\n        return View(\"~/" ++ (view ++
                (lit "\");\n    \x7d\n" ++ lit "\x7d\n")))))) := rfl
  rw [e, Spec.signatureCount_noStart U action _ _ regexp.noStart_segments.2.2.2.2.2.1, hctrl, e3,
    Spec.signatureCount_noStart U action _ _ regexp.noStart_segments.2.2.2.2.1, hone]

theorem regexp.MatchAction_suffix (U : Unicode) (action s t : GoString) (hs : t <:+ s)
    (h : regexp.MatchAction U action s = false) : regexp.MatchAction U action t = false := by
  unfold regexp.MatchAction at h ⊢
  rw [List.any_eq_false] at h ⊢
  intro x hx
  exact h x ((List.mem_tails _ _).2 (((List.mem_tails _ _).1 hx).trans hs))

/-- A text without a match, with the action snippet put between its two
parts, holds one signature of the action. -/
theorem scaffold.signatureCount_ActionTemplate (U : Unicode) (action view pre post : GoString)
    (ha : Spec.Identifier action) (hv : Spec.NoSpace view)
    (hno : regexp.MatchAction U action (pre ++ post) = false) :
    Spec.signatureCount U action (pre ++ scaffold.ActionTemplate action view ++ post) = 1 := by
  have e : pre ++ scaffold.ActionTemplate action view ++ post =
      pre ++ ('\n' :: (lit "    public " ++ (lit "IActionResult " ++ (action ++ (lit "(" ++
          (lit ")\n    \x7b\n        return View(\"~/" ++ (view ++
          (lit "\");\n    \x7d\n" ++ post)))))))) := by
    simp [scaffold.ActionTemplate]
  have hz : Spec.signatureCount U action post = 0 :=
    (Spec.signatureCount_eq_zero U action post).2
      (regexp.MatchAction_suffix U action _ post (List.suffix_append _ _) hno)
  have hone := Spec.signatureCount_signature U action view post ha hv hz
  have hw : ∀ sp : GoString, (∀ x ∈ sp, regexp.isSpace x = true) →
      regexp.matchSpacesAction U action
        (sp ++ (lit "public " ++ (lit "IActionResult " ++ (action ++ (lit "(" ++
            (lit ")\n    \x7b\n        return View(\"~/" ++ (view ++
            (lit "\");\n    \x7d\n" ++ post)))))))) = false := by
    intro sp hsp
    exact regexp.matchSpacesAction_word U action ha 'p' (lit "ublic") (by decide) ' '
      (lit "IActionResult " ++ (action ++ (lit "(" ++
        (lit ")\n    \x7b\n        return View(\"~/" ++ (view ++
        (lit "\");\n    \x7d\n" ++ post)))))) rfl rfl sp hsp
  have hX := hw (lit "    ") (by decide)
  have hX2 := hw (lit "\n    ") (by decide)
  have hpre : Spec.signatureCount U action
      (pre ++ ('\n' :: (lit "    public " ++ (lit "IActionResult " ++ (action ++ (lit "(" ++
          (lit ")\n    \x7b\n        return View(\"~/" ++ (view ++
          (lit "\");\n    \x7d\n" ++ post)))))))))
      = Spec.signatureCount U action
        ('\n' :: (lit "    public " ++ (lit "IActionResult " ++ (action ++ (lit "(" ++
          (lit ")\n    \x7b\n        return View(\"~/" ++ (view ++
          (lit "\");\n    \x7d\n" ++ post)))))))) := by
    apply Spec.signatureCount_append
    intro t _ hs
    cases hm : regexp.matchActionAt U action
        (t ++ ('\n' :: (lit "    public " ++ (lit "IActionResult " ++ (action ++ (lit "(" ++
            (lit ")\n    \x7b\n        return View(\"~/" ++ (view ++
            (lit "\");\n    \x7d\n" ++ post))))))))) with
    | false => rfl
    | true =>
      exfalso
      have h2 := regexp.matchActionAt_mono U action ha _ post hX hX2 rfl t hm
      have hmem : t ++ post ∈ (pre ++ post).tails := by
        rw [List.mem_tails]
        obtain ⟨u, hu⟩ := hs
        exact ⟨u, by rw [← hu, List.append_assoc]⟩
      have : regexp.MatchAction U action (pre ++ post) = true := by
        unfold regexp.MatchAction
        rw [List.any_eq_true]
        exact ⟨_, hmem, h2⟩
      rw [hno] at this
      cases this
  have e3 : ('\n' :: (lit "    public " ++ (lit "IActionResult " ++ (action ++ (lit "(" ++
      (lit ")\n    \x7b\n        return View(\"~/" ++ (view ++
      (lit "\");\n    \x7d\n" ++ post))))))))
      = lit "\n    public " ++
        (lit "IActionResult " ++ (action ++ (lit "(" ++
          (lit ")\n    \x7b\n        return View(\"~/" ++ (view ++
          (lit "\");\n    \x7d\n" ++ post)))))) := rfl
  rw [e, hpre, e3, Spec.signatureCount_noStart U action _ _ regexp.noStart_segments.2.2.2.1,
    hone]

/-- A successful `EnsureController` wrote the controller file: the template
on creation, or the former content, which held no signature of the action,
with the action snippet put in. -/
theorem scaffold.EnsureController_success (U : Unicode) (path : Path)
    (name action view : GoString) (fs : Node)
    (hok : (scaffold.EnsureController U path name action view fs).1.2 = none) :
    ∃ content : GoString,
      os.WriteFile fs (scaffold.controllerFile path name) content
        = .ok (scaffold.EnsureController U path name action view fs).2 ∧
      (content = scaffold.ControllerTemplate (scaffold.safeName name) action view ∨
       ∃ pre post : GoString, regexp.MatchAction U action (pre ++ post) = false ∧
         content = pre ++ scaffold.ActionTemplate action view ++ post) := by
  revert hok
  simp only [scaffold.EnsureController, scaffold.controllerFile, scaffold.safeName]
  generalize (if ¬ strings.HasSuffix name (lit "Controller") then name ++ lit "Controller"
    else name) = name'
  generalize filepath.Join path (name' ++ lit ".cs") = file
  cases hs : os.Stat fs file with
  | error e =>
    simp only
    cases hw : os.WriteFile fs file (scaffold.ControllerTemplate name' action view) with
    | error e2 => intro hok; cases hok
    | ok fs1 => intro _; exact ⟨_, hw, Or.inl rfl⟩
  | ok n =>
    simp only
    cases hr : os.ReadFile fs file with
    | error e => intro hok; cases hok
    | ok content =>
      simp only
      cases hm : regexp.MatchAction U action content with
      | true => intro hok; cases hok
      | false =>
        simp only [Bool.false_eq_true, if_false]
        cases hi : scaffold.lastIndexBrace content with
        | none => intro hok; cases hok
        | some idx =>
          simp only
          cases hw : os.WriteFile fs file
              (content.take idx ++ scaffold.ActionTemplate action view ++ content.drop idx) with
          | error e2 => intro hok; cases hok
          | ok fs1 =>
            intro _
            exact ⟨_, hw, Or.inr ⟨content.take idx, content.drop idx,
              by rw [List.take_append_drop]; exact hm, rfl⟩⟩

set_option maxRecDepth 1000000 in
set_option maxHeartbeats 8000000 in
/-- C11, counterexample: `route add "/iactionresult list(" --controller Blog
--action List` gives the view `Views/Iactionresult List(/Index.cshtml`; on
a fresh project `EnsureController` creates `BlogController.cs`, whose line
`return View("~/Views/Iactionresult List(/Index.cshtml");` is matched by the
pattern of the action as well: the file holds two matches, not one. -/
theorem C11_counterexample :
    ¬ (∀ (U : Unicode) (path : Path) (name action view : GoString) (fs : Node)
        (content : GoString),
        (scaffold.EnsureController U path name action view fs).1.2 = none →
        os.ReadFile (scaffold.EnsureController U path name action view fs).2
          (scaffold.controllerFile path name) = .ok content →
        Spec.signatureCount U action content = 1) ∧
    (routes.ResolvePaths Unicode.ascii (cmd.name Unicode.ascii (lit "/iactionresult list("))
        false).map (fun f => f.View) = some (lit "Views/Iactionresult List(/Index.cshtml") ∧
    (scaffold.EnsureController Unicode.ascii Example.cfg.ControllersDir (lit "Blog") (lit "List")
        (lit "Views/Iactionresult List(/Index.cshtml") Example.tree).1
      = (lit "BlogController", none) ∧
    Spec.signatureCount Unicode.ascii (lit "List")
        (scaffold.ControllerTemplate (lit "BlogController") (lit "List")
          (lit "Views/Iactionresult List(/Index.cshtml")) = 2 := by
  have hrun : (scaffold.EnsureController Unicode.ascii Example.cfg.ControllersDir (lit "Blog")
        (lit "List") (lit "Views/Iactionresult List(/Index.cshtml") Example.tree).1
      = (lit "BlogController", none) := rfl
  have hread : os.ReadFile
      (scaffold.EnsureController Unicode.ascii Example.cfg.ControllersDir (lit "Blog")
        (lit "List") (lit "Views/Iactionresult List(/Index.cshtml") Example.tree).2
      (scaffold.controllerFile Example.cfg.ControllersDir (lit "Blog"))
      = .ok (scaffold.ControllerTemplate (lit "BlogController") (lit "List")
          (lit "Views/Iactionresult List(/Index.cshtml")) := rfl
  have hcount : Spec.signatureCount Unicode.ascii (lit "List")
        (scaffold.ControllerTemplate (lit "BlogController") (lit "List")
          (lit "Views/Iactionresult List(/Index.cshtml")) = 2 := by decide
  refine ⟨?_, rfl, hrun, hcount⟩
  intro hall
  have h := hall Unicode.ascii Example.cfg.ControllersDir (lit "Blog") (lit "List")
    (lit "Views/Iactionresult List(/Index.cshtml") Example.tree _
    (congrArg Prod.snd hrun) hread
  rw [hcount] at h
  cases h

/-- C11: whenever a first `EnsureController` succeeds (it created the
controller file or put the action in), a second call with the same
arguments answers "action already exists" and leaves the tree, and so the
controller file, as it is; the file then holds at least one signature of the
action, and exactly one when the action is an identifier (ASCII letters,
digits, underscores) and neither the view path nor the completed controller
name has a space. -/
theorem C11_injection_idempotent (U : Unicode) (path : Path) (name action view : GoString)
    (fs : Node) (hok : (scaffold.EnsureController U path name action view fs).1.2 = none) :
    scaffold.EnsureController U path name action view
        (scaffold.EnsureController U path name action view fs).2
      = (([], some .actionExists), (scaffold.EnsureController U path name action view fs).2) ∧
    ∃ content : GoString,
      os.ReadFile (scaffold.EnsureController U path name action view fs).2
        (scaffold.controllerFile path name) = .ok content ∧
      1 ≤ Spec.signatureCount U action content ∧
      (Spec.Identifier action → Spec.NoSpace view → Spec.NoSpace (scaffold.safeName name) →
        Spec.signatureCount U action content = 1) := by
  obtain ⟨content, hw, hshape⟩ :=
    scaffold.EnsureController_success U path name action view fs hok
  have hself := os.Stat_WriteFile_self content _ fs _ hw
  have hm : regexp.MatchAction U action content = true := by
    rcases hshape with rfl | ⟨pre, post, _, rfl⟩
    · exact scaffold.MatchAction_ControllerTemplate U _ action view
    · exact scaffold.MatchAction_ActionTemplate U action view pre post
  refine ⟨scaffold.EnsureController_of_action U path name action view _ content hself hm,
    content, by simp only [os.ReadFile, hself], ?_, ?_⟩
  · have hne : Spec.signatureCount U action content ≠ 0 := by
      intro h0
      rw [(Spec.signatureCount_eq_zero U action content).1 h0] at hm
      cases hm
    omega
  · intro ha hv hc
    rcases hshape with rfl | ⟨pre, post, hno, rfl⟩
    · exact scaffold.signatureCount_ControllerTemplate U _ action view ha hv hc
    · exact scaffold.signatureCount_ActionTemplate U action view pre post ha hv hno

set_option maxRecDepth 1000000 in
set_option maxHeartbeats 8000000 in
/-- C11, witness: `EnsureController` for the controller `Blog`, the action
`List` and the view `Views/Blog/Posts/Index.cshtml` on the fresh project. -/
theorem C11_injection_idempotent_witness :
    (Spec.Identifier (lit "List") ∧ Spec.NoSpace (lit "Views/Blog/Posts/Index.cshtml") ∧
      Spec.NoSpace (scaffold.safeName (lit "Blog"))) ∧
    scaffold.EnsureController Unicode.ascii Example.cfg.ControllersDir (lit "Blog") (lit "List")
        (lit "Views/Blog/Posts/Index.cshtml")
        (scaffold.EnsureController Unicode.ascii Example.cfg.ControllersDir (lit "Blog")
          (lit "List") (lit "Views/Blog/Posts/Index.cshtml") Example.tree).2
      = (([], some .actionExists),
         (scaffold.EnsureController Unicode.ascii Example.cfg.ControllersDir (lit "Blog")
          (lit "List") (lit "Views/Blog/Posts/Index.cshtml") Example.tree).2) ∧
    ∃ content : GoString,
      os.ReadFile (scaffold.EnsureController Unicode.ascii Example.cfg.ControllersDir
          (lit "Blog") (lit "List") (lit "Views/Blog/Posts/Index.cshtml") Example.tree).2
        (scaffold.controllerFile Example.cfg.ControllersDir (lit "Blog")) = .ok content ∧
      1 ≤ Spec.signatureCount Unicode.ascii (lit "List") content ∧
      (Spec.Identifier (lit "List") → Spec.NoSpace (lit "Views/Blog/Posts/Index.cshtml") →
        Spec.NoSpace (scaffold.safeName (lit "Blog")) →
        Spec.signatureCount Unicode.ascii (lit "List") content = 1) :=
  ⟨⟨by unfold Spec.Identifier; decide, by unfold Spec.NoSpace; decide,
      by unfold Spec.NoSpace; decide⟩,
    C11_injection_idempotent Unicode.ascii Example.cfg.ControllersDir (lit "Blog") (lit "List")
      (lit "Views/Blog/Posts/Index.cshtml") Example.tree rfl⟩

/-! ## C3: `route add` on a project whose directories are in place -/

/-- Writing a file changes no failing `Stat` at a path that does not pass
through the file. -/
theorem os.WriteFile_error_frame (data : GoString) : ∀ (p : Path) (fs fs' : Node),
    os.WriteFile fs p data = .ok fs' → ∀ (q : Path) (e : Errno), ¬ p <+: q →
      os.Stat fs q = .error e → os.Stat fs' q = .error e
  | [], fs, fs', h, _, _, _, _ => by cases fs <;> cases h
  | c :: cs, fs, fs', h, q, e, hq, hs => by
    cases fs with
    | file d => rw [os.WriteFile_file] at h; cases h
    | dir es =>
      cases q with
      | nil => rw [os.Stat_nil] at hs; cases hs
      | cons c' qs =>
        by_cases hc : c' = c
        · subst hc
          rcases os.WriteFile_cons_ok es c' cs data fs' h with
            ⟨rfl, _, rfl⟩ | ⟨_, child, n, hl, hw, rfl⟩
          · exact absurd (by simp) hq
          · rw [os.Stat_setEntry_same]
            rw [os.Stat_dir_cons, hl] at hs
            exact os.WriteFile_error_frame data cs child n hw qs e
              (fun hp => hq ((List.prefix_cons_inj c').2 hp)) hs
        · have hshape : ∃ n, fs' = .dir (Node.setEntry es c n) := by
            rcases os.WriteFile_cons_ok es c cs data fs' h with
              ⟨_, _, e1⟩ | ⟨_, _, n, _, _, e1⟩
            · exact ⟨_, e1⟩
            · exact ⟨n, e1⟩
          obtain ⟨n, rfl⟩ := hshape
          rw [os.Stat_setEntry_other _ _ _ _ _ hc]
          exact hs

/-- Making directories leaves "does not exist" at every path that is not one
of the directories made. -/
theorem os.MkdirAll_ENOENT_frame : ∀ (p : Path) (fs fs' : Node),
    os.MkdirAll fs p = .ok fs' → ∀ q : Path, ¬ q <+: p →
      os.Stat fs q = .error .ENOENT → os.Stat fs' q = .error .ENOENT
  | [], fs, fs', h, q, _, hs => by
    cases fs with
    | file d => rw [os.MkdirAll_file] at h; cases h
    | dir es =>
      have : fs' = .dir es := (Except.ok.inj h).symm
      rw [this]; exact hs
  | c :: cs, fs, fs', h, q, hq, hs => by
    cases fs with
    | file d => rw [os.MkdirAll_file] at h; cases h
    | dir es =>
      obtain ⟨child, n, hl, hm, rfl⟩ := os.MkdirAll_cons_ok es c cs fs' h
      cases q with
      | nil => exact absurd (List.nil_prefix) hq
      | cons c' qs =>
        by_cases hc : c' = c
        · subst hc
          rw [os.Stat_setEntry_same]
          have hq2 : ¬ qs <+: cs := fun hp => hq ((List.prefix_cons_inj c').2 hp)
          apply os.MkdirAll_ENOENT_frame cs child n hm qs hq2
          rcases hl with hl | ⟨_, rfl⟩
          · rw [os.Stat_dir_cons, hl] at hs
            exact hs
          · cases qs with
            | nil => exact absurd (List.nil_prefix) hq2
            | cons q1 qs => rfl
        · rw [os.Stat_setEntry_other _ _ _ _ _ hc]
          exact hs

/-- A file can be written into a directory that is there. -/
theorem os.WriteFile_new (data : GoString) (c : GoString) : ∀ (p : Path) (fs : Node)
    (es : List (GoString × Node)), os.Stat fs p = .ok (.dir es) →
    os.Stat fs (p ++ [c]) = .error .ENOENT →
    ∃ fs', os.WriteFile fs (p ++ [c]) data = .ok fs'
  | [], fs, es, hd, hs => by
    rw [os.Stat_nil] at hd
    have hfs : fs = .dir es := Except.ok.inj hd
    subst hfs
    rw [List.nil_append, os.Stat_dir_cons] at hs
    cases hl : es.lookup c with
    | some child => rw [hl] at hs; simp only [os.Stat_nil] at hs; cases hs
    | none =>
      exact ⟨.dir (Node.setEntry es c (.file data)), by
        simp only [List.nil_append, os.WriteFile, hl]⟩
  | c1 :: p, fs, es, hd, hs => by
    cases fs with
    | file d => rw [os.Stat_file_cons] at hd; cases hd
    | dir es0 =>
      rw [os.Stat_dir_cons] at hd
      rw [List.cons_append, os.Stat_dir_cons] at hs
      cases hl : es0.lookup c1 with
      | none => rw [hl] at hd; cases hd
      | some child =>
        rw [hl] at hd hs
        dsimp only at hd hs
        obtain ⟨n, hn⟩ := os.WriteFile_new data c p child es hd hs
        cases hp : p ++ [c] with
        | nil => exact absurd hp (by simp)
        | cons c2 cs =>
          rw [hp] at hn
          exact ⟨.dir (Node.setEntry es0 c1 n), by
            simp only [List.cons_append, hp, os.WriteFile, hl, hn, Except.map]⟩

/-- The step `scaffoldFile` at a path that does not exist writes the file. -/
theorem scaffold.scaffoldFile_written (p : Path) (content : GoString) (fs : Node)
    (h : os.Stat fs p = .error .ENOENT) :
    os.Stat (scaffold.scaffoldFile p content fs).2 p = .ok (.file content) := by
  rcases scaffold.scaffoldFile_cases p content fs with ⟨hs, _⟩ | ⟨_, fs1, fs2, _, h2, he⟩
  · exact absurd h hs
  · rw [he]
    exact os.Stat_WriteFile_self content p fs1 fs2 h2

/-- The step `scaffoldFile` leaves "does not exist" at every path that is
neither the file, nor below it, nor one of its directories. -/
theorem scaffold.scaffoldFile_ENOENT_frame (p : Path) (content : GoString) (fs : Node)
    (q : Path) (h1 : ¬ q <+: filepath.Dir p) (h2 : ¬ p <+: q)
    (hs : os.Stat fs q = .error .ENOENT) :
    os.Stat (scaffold.scaffoldFile p content fs).2 q = .error .ENOENT := by
  rcases scaffold.scaffoldFile_cases p content fs with ⟨_, he⟩ | ⟨_, fs1, fs2, hm, hw, he⟩
  · rw [he]; exact hs
  · rw [he]
    exact os.WriteFile_error_frame content p fs1 fs2 hw q _ h2
      (os.MkdirAll_ENOENT_frame _ fs fs1 hm q h1 hs)

/-- On a tree without the controller file in which the file can be written,
`EnsureController` writes the template and returns the completed name. -/
theorem scaffold.EnsureController_create (U : Unicode) (path : Path)
    (name action view : GoString) (fs fs1 : Node) (e : Errno)
    (hfile : os.Stat fs (scaffold.controllerFile path name) = .error e)
    (hw : os.WriteFile fs (scaffold.controllerFile path name)
      (scaffold.ControllerTemplate (scaffold.safeName name) action view) = .ok fs1) :
    scaffold.EnsureController U path name action view fs
      = ((scaffold.safeName name, none), fs1) := by
  simp only [scaffold.controllerFile, scaffold.safeName] at hfile hw
  simp only [scaffold.EnsureController, hfile, hw, scaffold.safeName]

/-- Paths below two directories of which neither lies inside the other are
no prefixes of one another. -/
theorem List.not_prefix_of_incomparable {α : Type} (a b x y : List α)
    (h1 : ¬ a <+: b) (h2 : ¬ b <+: a) : ¬ a ++ x <+: b ++ y := by
  intro h
  have ha : a <+: b ++ y := (List.prefix_append a x).trans h
  have hb : b <+: b ++ y := List.prefix_append b y
  rcases Nat.le_total a.length b.length with hl | hl
  · exact h1 (List.prefix_of_prefix_length_le ha hb hl)
  · exact h2 (List.prefix_of_prefix_length_le hb ha hl)

theorem Example.paths (cfg : config.Config) :
    filepath.Join cfg.ClientDir (lit "src/pages/Blog/Posts/index.page.tsx")
      = cfg.ClientDir ++ [lit "src", lit "pages", lit "Blog", lit "Posts", lit "index.page.tsx"] ∧
    filepath.Join cfg.ServerDir (lit "Views/Blog/Posts/Index.cshtml")
      = cfg.ServerDir ++ [lit "Views", lit "Blog", lit "Posts", lit "Index.cshtml"] ∧
    cfg.ControllersDir = cfg.ServerDir ++ [lit "Controllers"] ∧
    filepath.Join cfg.ControllersDir (lit "BlogController.cs")
      = cfg.ControllersDir ++ [lit "BlogController.cs"] ∧
    scaffold.controllerFile cfg.ControllersDir (lit "Blog")
      = filepath.Join cfg.ControllersDir (lit "BlogController.cs") := by
  have s1 : strings.Split (lit "src/pages/Blog/Posts/index.page.tsx") '/'
      = [lit "src", lit "pages", lit "Blog", lit "Posts", lit "index.page.tsx"] := rfl
  have s2 : strings.Split (lit "Views/Blog/Posts/Index.cshtml") '/'
      = [lit "Views", lit "Blog", lit "Posts", lit "Index.cshtml"] := rfl
  have s3 : strings.Split (lit "Controllers") '/' = [lit "Controllers"] := rfl
  have s4 : strings.Split (lit "BlogController.cs") '/' = [lit "BlogController.cs"] := rfl
  refine ⟨?_, ?_, ?_, ?_, rfl⟩
  · simp only [filepath.Join, s1, List.foldl_cons, List.foldl_nil]
    simp [lit]
  · simp only [filepath.Join, s2, List.foldl_cons, List.foldl_nil]
    simp [lit]
  · simp only [config.Config.ControllersDir, filepath.Join, s3, List.foldl_cons, List.foldl_nil]
    simp [lit]
  · simp only [filepath.Join, s4, List.foldl_cons, List.foldl_nil]
    simp [lit]

theorem routes.Write_of_Read (U : Unicode) (file : routes.RegistryFile)
    (rs : List routes.Route) (h : routes.Read U file = .ok rs) (out : List routes.Route) :
    routes.Write file out = .ok (.json (routes.Marshal (routes.sortSlice out))) := by
  cases file with
  | directory => cases h
  | absent => rfl
  | text => rfl
  | json doc => rfl

set_option maxRecDepth 1000000 in
set_option maxHeartbeats 8000000 in
/-- C3, counterexample: a project with an empty registry and no page, view
or controller file, but without the `Controllers` directory.
`EnsureController` does not make the directory, its `os.WriteFile` fails,
and `route add /blog/posts --controller Blog --action List` ends with that
error before the registry is written: no route, no file. -/
theorem C3_counterexample :
    ¬ (∀ (U : Unicode) (cfg : config.Config) (w : World),
        routes.Read U w.routesJSON = .ok [] →
        os.Stat w.fs (filepath.Join cfg.ClientDir (lit "src/pages/Blog/Posts/index.page.tsx"))
          = .error .ENOENT →
        os.Stat w.fs (filepath.Join cfg.ServerDir (lit "Views/Blog/Posts/Index.cshtml"))
          = .error .ENOENT →
        os.Stat w.fs (filepath.Join cfg.ControllersDir (lit "BlogController.cs"))
          = .error .ENOENT →
        (cmd.runAdd U cfg Example.blogList (lit "/blog/posts") w).1 = none) ∧
    cmd.runAdd Unicode.ascii Example.cfg Example.blogList (lit "/blog/posts")
        { routesJSON := .absent, fs := Example.bareTree }
      = (some (.os (lit "no such file or directory")),
         { routesJSON := .absent, fs := Example.bareTree }) := by
  have h1 : strings.Contains (lit "/blog/posts") (lit ":") = false := rfl
  have h2 : cmd.pascalPath Unicode.ascii (lit "/blog/posts") = lit "/Blog/Posts" := rfl
  have h3 : cmd.name Unicode.ascii (lit "/blog/posts") = lit "Blog/Posts" := rfl
  have h4 : routes.ResolvePaths Unicode.ascii (lit "Blog/Posts") Example.blogList.addFlat
      = some Example.blogPosts.Files := rfl
  have h5 : cmd.runAdd.ensure Unicode.ascii Example.cfg Example.blogPosts.Files
      (cmd.runAdd.newRoute Example.blogList (lit "/Blog/Posts") (lit "Blog/Posts")
        Example.blogPosts.Files (cmd.runAdd.controllerInfo Example.blogList))
      Example.bareTree (cmd.runAdd.controllerInfo Example.blogList)
      = (some (.os (lit "no such file or directory")),
         cmd.runAdd.newRoute Example.blogList (lit "/Blog/Posts") (lit "Blog/Posts")
           Example.blogPosts.Files (cmd.runAdd.controllerInfo Example.blogList),
         Example.bareTree) := rfl
  have h8 : ¬ (Example.blogList.addController ≠ [] ∧ Example.blogList.addAction = []) := by
    decide
  have hread : routes.Read Unicode.ascii .absent = .ok [] := rfl
  have hrun : cmd.runAdd Unicode.ascii Example.cfg Example.blogList (lit "/blog/posts")
        { routesJSON := .absent, fs := Example.bareTree }
      = (some (.os (lit "no such file or directory")),
         { routesJSON := .absent, fs := Example.bareTree }) := by
    simp only [cmd.runAdd, h1, h2, h3, hread, List.any_nil, Bool.false_eq_true, if_false, h4, h8,
      h5, cmd.runAdd.finish]
  refine ⟨fun hall => ?_, hrun⟩
  have h := hall Unicode.ascii Example.cfg { routesJSON := .absent, fs := Example.bareTree }
    rfl rfl rfl rfl
  rw [hrun] at h
  cases h

set_option maxRecDepth 1000000 in
set_option maxHeartbeats 8000000 in
/-- C3, as amended: for every project in which the registry is empty, `os.Stat` reports
that the page, the view and the controller file do not exist, the
`Controllers` directory is there, and neither of the client and server
directories lies inside the other, `route add /blog/posts --controller Blog
--action List` succeeds; the registry then holds exactly one route, with
`Path` `/Blog/Posts`, `Controller` `BlogController` and `Action` `List`; the
page file `src/pages/Blog/Posts/index.page.tsx` and the view file
`Views/Blog/Posts/Index.cshtml` hold their stubs; and `BlogController.cs`
holds the controller template, with an action `List` that returns
`~/Views/Blog/Posts/Index.cshtml`. -/
theorem C3_end_to_end (U : Unicode) (cfg : config.Config) (w : World)
    (hread : routes.Read U w.routesJSON = .ok [])
    (hsib : ¬ cfg.ServerDir <+: cfg.ClientDir ∧ ¬ cfg.ClientDir <+: cfg.ServerDir)
    (hctl : ∃ es, os.Stat w.fs cfg.ControllersDir = .ok (.dir es))
    (hpage : os.Stat w.fs
        (filepath.Join cfg.ClientDir (lit "src/pages/Blog/Posts/index.page.tsx"))
      = .error .ENOENT)
    (hview : os.Stat w.fs (filepath.Join cfg.ServerDir (lit "Views/Blog/Posts/Index.cshtml"))
      = .error .ENOENT)
    (hcf : os.Stat w.fs (filepath.Join cfg.ControllersDir (lit "BlogController.cs"))
      = .error .ENOENT) :
    ∃ w' : World,
      (∀ file ∈ [routes.RegistryFile.absent, .json .null, .json (.array [])],
        routes.Read U file = .ok []) ∧
      cmd.runAdd U cfg Example.blogList (lit "/blog/posts") w = (none, w') ∧
      (routes.Read U w'.routesJSON = .ok [Example.blogPosts] ∧
       Example.blogPosts.Path = lit "/Blog/Posts" ∧
       Example.blogPosts.Controller = lit "BlogController" ∧
       Example.blogPosts.Action = lit "List") ∧
      os.ReadFile w'.fs (filepath.Join cfg.ClientDir (lit "src/pages/Blog/Posts/index.page.tsx"))
        = .ok (scaffold.ReactPage (lit "Blog/Posts")) ∧
      os.ReadFile w'.fs (filepath.Join cfg.ServerDir (lit "Views/Blog/Posts/Index.cshtml"))
        = .ok (scaffold.MVCView (lit "Blog/Posts")) ∧
      os.ReadFile w'.fs (filepath.Join cfg.ControllersDir (lit "BlogController.cs"))
        = .ok (lit "using Microsoft.AspNetCore.Mvc;\n\nnamespace Poyo.Server.Controllers;\n\npublic class BlogController : Controller\n\x7b\n    public IActionResult List()\n    \x7b\n        return View(\"~/Views/Blog/Posts/Index.cshtml\");\n    \x7d\n\x7d\n") := by
  obtain ⟨es, hctl⟩ := hctl
  obtain ⟨pP, pV, pC, pF, pCF⟩ := Example.paths cfg
  -- the controller file
  have hcf2 : os.Stat w.fs (cfg.ControllersDir ++ [lit "BlogController.cs"]) = .error .ENOENT := by
    rw [← pF]; exact hcf
  obtain ⟨fs1, hw⟩ := os.WriteFile_new
    (scaffold.ControllerTemplate (scaffold.safeName (lit "Blog")) (lit "List")
      (lit "Views/Blog/Posts/Index.cshtml"))
    (lit "BlogController.cs") cfg.ControllersDir w.fs es hctl hcf2
  rw [← pF] at hw
  have hens := scaffold.EnsureController_create U cfg.ControllersDir (lit "Blog") (lit "List")
    (lit "Views/Blog/Posts/Index.cshtml") w.fs fs1 .ENOENT (by rw [pCF]; exact hcf)
    (by rw [pCF]; exact hw)
  have h5 : cmd.runAdd.ensure U cfg Example.blogPosts.Files
      (cmd.runAdd.newRoute Example.blogList (lit "/Blog/Posts") (lit "Blog/Posts")
        Example.blogPosts.Files (cmd.runAdd.controllerInfo Example.blogList))
      w.fs (cmd.runAdd.controllerInfo Example.blogList)
      = (none, Example.blogPosts, fs1) := by
    have hci : cmd.runAdd.controllerInfo Example.blogList
        = some { Name := lit "Blog", Action := lit "List" } := rfl
    have hv : Example.blogPosts.Files.View = lit "Views/Blog/Posts/Index.cshtml" := rfl
    rw [hci]
    simp only [cmd.runAdd.ensure, hv, hens]
    rfl
  -- the prefix facts
  have n1 : ¬ filepath.Join cfg.ControllersDir (lit "BlogController.cs")
      <+: filepath.Join cfg.ClientDir (lit "src/pages/Blog/Posts/index.page.tsx") := by
    rw [pF, pC, pP, List.append_assoc]
    exact List.not_prefix_of_incomparable _ _ _ _ hsib.1 hsib.2
  have n2 : ¬ filepath.Join cfg.ControllersDir (lit "BlogController.cs")
      <+: filepath.Join cfg.ServerDir (lit "Views/Blog/Posts/Index.cshtml") := by
    rw [pF, pC, pV, List.append_assoc, List.prefix_append_right_inj]
    decide
  have n3 : ¬ filepath.Join cfg.ServerDir (lit "Views/Blog/Posts/Index.cshtml")
      <+: filepath.Dir
        (filepath.Join cfg.ClientDir (lit "src/pages/Blog/Posts/index.page.tsx")) := by
    have hd : filepath.Dir
        (cfg.ClientDir ++ [lit "src", lit "pages", lit "Blog", lit "Posts", lit "index.page.tsx"])
        = cfg.ClientDir ++ [lit "src", lit "pages", lit "Blog", lit "Posts"] := by
      unfold filepath.Dir
      rw [List.dropLast_append_of_ne_nil _ (by simp)]
      rfl
    rw [pP, pV, hd]
    exact List.not_prefix_of_incomparable _ _ _ _ hsib.1 hsib.2
  have n4 : ¬ filepath.Join cfg.ClientDir (lit "src/pages/Blog/Posts/index.page.tsx")
      <+: filepath.Join cfg.ServerDir (lit "Views/Blog/Posts/Index.cshtml") := by
    rw [pP, pV]
    exact List.not_prefix_of_incomparable _ _ _ _ hsib.2 hsib.1
  -- the page and the view
  have hpage1 := os.WriteFile_error_frame _ _ w.fs fs1 hw _ _ n1 hpage
  have hview1 := os.WriteFile_error_frame _ _ w.fs fs1 hw _ _ n2 hview
  have hcf1 := os.Stat_WriteFile_self _ _ w.fs fs1 hw
  have hpage2 := scaffold.scaffoldFile_written _ (scaffold.ReactPage (lit "Blog/Posts")) fs1 hpage1
  have hview2 := scaffold.scaffoldFile_ENOENT_frame _ (scaffold.ReactPage (lit "Blog/Posts")) fs1
    _ n3 n4 hview1
  have hcf2 := (scaffold.scaffoldFile_frame
    (filepath.Join cfg.ClientDir (lit "src/pages/Blog/Posts/index.page.tsx"))
    (scaffold.ReactPage (lit "Blog/Posts")) fs1 _).1 _ hcf1
  have hview3 := scaffold.scaffoldFile_written _ (scaffold.MVCView (lit "Blog/Posts")) _ hview2
  have hpage3 := (scaffold.scaffoldFile_frame
    (filepath.Join cfg.ServerDir (lit "Views/Blog/Posts/Index.cshtml"))
    (scaffold.MVCView (lit "Blog/Posts")) _ _).1 _ hpage2
  have hcf3 := (scaffold.scaffoldFile_frame
    (filepath.Join cfg.ServerDir (lit "Views/Blog/Posts/Index.cshtml"))
    (scaffold.MVCView (lit "Blog/Posts")) _ _).1 _ hcf2
  -- the run
  have h1 : strings.Contains (lit "/blog/posts") (lit ":") = false := rfl
  have h2 : cmd.pascalPath U (lit "/blog/posts") = lit "/Blog/Posts" := rfl
  have h3 : cmd.name U (lit "/blog/posts") = lit "Blog/Posts" := rfl
  have h4 : routes.ResolvePaths U (lit "Blog/Posts") Example.blogList.addFlat
      = some Example.blogPosts.Files := rfl
  have h7 : routes.sortSlice ([] ++ [Example.blogPosts]) = [Example.blogPosts] := rfl
  have h8 : ¬ (Example.blogList.addController ≠ [] ∧ Example.blogList.addAction = []) := by
    decide
  have hwrite := routes.Write_of_Read U w.routesJSON [] hread
  have hscaf := scaffold.ScaffoldRouteFiles_none U cfg (lit "Blog/Posts") Example.blogPosts.Files
    { NoView := Example.blogList.addNoView } fs1
  have hnv : Example.blogList.addNoView = false := rfl
  have hfr : Example.blogPosts.Files.React = lit "src/pages/Blog/Posts/index.page.tsx" := rfl
  have hfv : Example.blogPosts.Files.View = lit "Views/Blog/Posts/Index.cshtml" := rfl
  rw [hnv, hfr, hfv] at hscaf
  simp only [Bool.false_eq_true, if_false] at hscaf
  refine ⟨{ routesJSON := .json (routes.Marshal [Example.blogPosts]),
            fs := (scaffold.scaffoldFile
              (filepath.Join cfg.ServerDir (lit "Views/Blog/Posts/Index.cshtml"))
              (scaffold.MVCView (lit "Blog/Posts"))
              (scaffold.scaffoldFile
                (filepath.Join cfg.ClientDir (lit "src/pages/Blog/Posts/index.page.tsx"))
                (scaffold.ReactPage (lit "Blog/Posts")) fs1).2).2 }, ?_, ?_, ⟨rfl, rfl, rfl, rfl⟩,
    ?_, ?_, ?_⟩
  · intro file hfile
    simp only [List.mem_cons, List.mem_singleton, List.not_mem_nil, or_false] at hfile
    rcases hfile with rfl | rfl | rfl <;> rfl
  · simp only [cmd.runAdd, h1, h2, h3, hread, List.any_nil, Bool.false_eq_true, if_false, h4, h8,
      h5, cmd.runAdd.finish, hwrite, h7, hnv]
    rw [hscaf]
  · simp only [os.ReadFile, hpage3]
  · simp only [os.ReadFile, hview3]
  · simp only [os.ReadFile, hcf3]
    rfl

set_option maxRecDepth 1000000 in
set_option maxHeartbeats 8000000 in
/-- C3, witness: the fresh project `Example.tree` (client directory, server
directory with an empty `Controllers`) without `routes.json`. -/
theorem C3_end_to_end_witness :
    (routes.Read Unicode.ascii routes.RegistryFile.absent = .ok [] ∧
     (¬ Example.cfg.ServerDir <+: Example.cfg.ClientDir ∧
      ¬ Example.cfg.ClientDir <+: Example.cfg.ServerDir) ∧
     (∃ es, os.Stat Example.tree Example.cfg.ControllersDir = .ok (.dir es)) ∧
     os.Stat Example.tree
        (filepath.Join Example.cfg.ClientDir (lit "src/pages/Blog/Posts/index.page.tsx"))
      = .error .ENOENT ∧
     os.Stat Example.tree
        (filepath.Join Example.cfg.ServerDir (lit "Views/Blog/Posts/Index.cshtml"))
      = .error .ENOENT ∧
     os.Stat Example.tree (filepath.Join Example.cfg.ControllersDir (lit "BlogController.cs"))
      = .error .ENOENT) ∧
    ∃ w' : World,
      (∀ file ∈ [routes.RegistryFile.absent, .json .null, .json (.array [])],
        routes.Read Unicode.ascii file = .ok []) ∧
      cmd.runAdd Unicode.ascii Example.cfg Example.blogList (lit "/blog/posts")
        { routesJSON := .absent, fs := Example.tree } = (none, w') ∧
      (routes.Read Unicode.ascii w'.routesJSON = .ok [Example.blogPosts] ∧
       Example.blogPosts.Path = lit "/Blog/Posts" ∧
       Example.blogPosts.Controller = lit "BlogController" ∧
       Example.blogPosts.Action = lit "List") ∧
      os.ReadFile w'.fs
          (filepath.Join Example.cfg.ClientDir (lit "src/pages/Blog/Posts/index.page.tsx"))
        = .ok (scaffold.ReactPage (lit "Blog/Posts")) ∧
      os.ReadFile w'.fs
          (filepath.Join Example.cfg.ServerDir (lit "Views/Blog/Posts/Index.cshtml"))
        = .ok (scaffold.MVCView (lit "Blog/Posts")) ∧
      os.ReadFile w'.fs (filepath.Join Example.cfg.ControllersDir (lit "BlogController.cs"))
        = .ok (lit "using Microsoft.AspNetCore.Mvc;\n\nnamespace Poyo.Server.Controllers;\n\npublic class BlogController : Controller\n\x7b\n    public IActionResult List()\n    \x7b\n        return View(\"~/Views/Blog/Posts/Index.cshtml\");\n    \x7d\n\x7d\n") :=
  ⟨⟨rfl, by decide, ⟨[], rfl⟩, rfl, rfl, rfl⟩,
    C3_end_to_end Unicode.ascii Example.cfg { routesJSON := .absent, fs := Example.tree }
      rfl (by decide) ⟨[], rfl⟩ rfl rfl rfl⟩

/-! ## C14: the untracked views come in the order of the walk -/

theorem Node.walkEntries_lookup (c : GoString) : ∀ es : List (GoString × Node),
    (Node.walkEntries es).lookup c = (es.lookup c).map Node.walk
  | [] => rfl
  | (k, n) :: es => by
    have ih := Node.walkEntries_lookup c es
    simp only [Node.walkEntries, List.lookup_cons]
    cases h : c == k with
    | true => rfl
    | false => simpa using ih

theorem Node.wellFormedEntries_mem : ∀ es : List (GoString × Node),
    Node.wellFormedEntries es = true → ∀ e ∈ es, '/' ∉ e.1 ∧ Node.wellFormed e.2 = true
  | [], _, e, he => by cases he
  | (k, n) :: es, h, e, he => by
    simp only [Node.wellFormedEntries, Bool.and_eq_true, decide_eq_true_eq] at h
    rcases List.mem_cons.1 he with rfl | he
    · exact ⟨h.1.1, h.1.2⟩
    · exact Node.wellFormedEntries_mem es h.2 e he

theorem Node.mem_of_lookup (c : GoString) (n : Node) : ∀ es : List (GoString × Node),
    es.lookup c = some n → (c, n) ∈ es
  | [], h => by cases h
  | (k, m) :: es, h => by
    rw [List.lookup_cons] at h
    cases hck : c == k with
    | true =>
      rw [hck] at h
      have hk : c = k := by simpa using hck
      cases h
      rw [hk]
      exact List.mem_cons_self _ _
    | false =>
      rw [hck] at h
      exact List.mem_cons_of_mem _ (Node.mem_of_lookup c n es h)

/-- A well-formed tree stays well-formed below any path. -/
theorem os.Stat_wellFormed : ∀ (p : Path) (fs n : Node),
    Node.wellFormed fs = true → os.Stat fs p = .ok n → Node.wellFormed n = true
  | [], fs, n, h, hs => by
    rw [os.Stat_nil] at hs
    cases hs
    exact h
  | c :: cs, .file d, n, _, hs => by
    rw [os.Stat_file_cons] at hs
    cases hs
  | c :: cs, .dir es, n, h, hs => by
    simp only [os.Stat] at hs
    cases hl : es.lookup c with
    | none => rw [hl] at hs; cases hs
    | some child =>
      rw [hl] at hs
      simp only [Node.wellFormed, Bool.and_eq_true] at h
      exact os.Stat_wellFormed cs child n
        (Node.wellFormedEntries_mem es h.2 _ (Node.mem_of_lookup c child es hl)).2 hs

theorem sort.Strings_strict (x : List GoString) (h : x.Nodup) :
    (sort.Strings x).Pairwise (fun a b => strings.less a b = true) := by
  haveI : IsTotal GoString (fun a b => strings.less b a = false) :=
    ⟨fun a b => by
      cases h : strings.less b a with
      | false => exact Or.inl rfl
      | true => exact Or.inr (strings.less_asymm _ _ h)⟩
  haveI : IsTrans GoString (fun a b => strings.less b a = false) :=
    ⟨fun a b c h1 h2 => strings.notLess_trans a b c h1 h2⟩
  have hs : (sort.Strings x).Pairwise (fun a b => strings.less b a = false) :=
    List.sorted_insertionSort (fun a b => strings.less b a = false) x
  have hn : (sort.Strings x).Pairwise (fun a b => a ≠ b) :=
    ((List.perm_insertionSort _ x).nodup_iff).2 h
  refine (hs.and hn).imp ?_
  intro a b hab
  cases hl : strings.less a b with
  | true => rfl
  | false => exact absurd (strings.less_trichotomy a b hl hab.1) hab.2

theorem filepath.walkLess_cons_self (a : GoString) (p q : Path) :
    filepath.walkLess (a :: p) (a :: q) = filepath.walkLess p q := by
  simp [filepath.walkLess, strings.less_irrefl]

/-- The visit of `filepath.Walk` in a well-formed tree goes up in the order
`walkLess`, and no component of a visited path contains `/`. -/
theorem Node.walk_sorted : ∀ n : Node, Node.wellFormed n = true →
    (Node.walk n).Pairwise (fun a b => filepath.walkLess a.1 b.1 = true) ∧
    ∀ v ∈ Node.walk n, ∀ c ∈ v.1, '/' ∉ c
  | .file _, _ => by
    simp [Node.walk]
  | .dir es, h => by
    simp only [Node.wellFormed, Bool.and_eq_true, decide_eq_true_eq] at h
    have hmem := Node.wellFormedEntries_mem es h.2
    have ih : ∀ e ∈ es, (Node.walk e.2).Pairwise (fun a b => filepath.walkLess a.1 b.1 = true) ∧
        ∀ v ∈ Node.walk e.2, ∀ c ∈ v.1, '/' ∉ c := fun e he =>
      have : sizeOf e.2 < 1 + sizeOf es := by
        have := List.sizeOf_lt_of_mem he
        rcases e with ⟨k, m⟩
        simp only [Prod.mk.sizeOf_spec] at this ⊢
        omega
      Node.walk_sorted e.2 (hmem e he).2
    have hf : ∀ name, ∀ v ∈ (match (Node.walkEntries es).lookup name with
        | some visited => visited.map (fun (v : Path × Bool) => (name :: v.1, v.2))
        | none => []), ∃ m w, (name, m) ∈ es ∧ w ∈ Node.walk m ∧ v = (name :: w.1, w.2) := by
      intro name v hv
      rw [Node.walkEntries_lookup] at hv
      cases hl : es.lookup name with
      | none => rw [hl] at hv; cases hv
      | some m =>
        rw [hl] at hv
        simp only [Option.map_some', List.mem_map] at hv
        obtain ⟨w, hw, rfl⟩ := hv
        exact ⟨m, w, Node.mem_of_lookup name m es hl, hw, rfl⟩
    constructor
    · simp only [Node.walk]
      rw [List.pairwise_cons]
      constructor
      · intro b hb
        rw [List.mem_flatMap] at hb
        obtain ⟨name, _, hb⟩ := hb
        obtain ⟨m, w, _, _, rfl⟩ := hf name b hb
        rfl
      · rw [List.pairwise_flatMap]
        constructor
        · intro name _
          rw [Node.walkEntries_lookup]
          cases hl : es.lookup name with
          | none => exact List.Pairwise.nil
          | some m =>
            simp only [Option.map_some']
            rw [List.pairwise_map]
            refine (ih _ (Node.mem_of_lookup name m es hl)).1.imp ?_
            intro a b hab
            rw [filepath.walkLess_cons_self]
            exact hab
        · refine (sort.Strings_strict _ h.1).imp ?_
          intro a b hab x hx y hy
          obtain ⟨_, w, _, _, rfl⟩ := hf a x hx
          obtain ⟨_, w2, _, _, rfl⟩ := hf b y hy
          simp [filepath.walkLess, hab]
    · intro v hv c hc
      simp only [Node.walk, List.mem_cons] at hv
      rcases hv with rfl | hv
      · cases hc
      · rw [List.mem_flatMap] at hv
        obtain ⟨name, _, hv⟩ := hv
        obtain ⟨m, w, hm, hw, rfl⟩ := hf name v hv
        rcases List.mem_cons.1 hc with rfl | hc
        · exact (hmem _ hm).1
        · exact (ih _ hm).2 w hw c hc
termination_by n => sizeOf n

theorem filepath.walkLess_append_left : ∀ (p x y : Path),
    filepath.walkLess (p ++ x) (p ++ y) = filepath.walkLess x y
  | [], _, _ => rfl
  | a :: p, x, y => by
    rw [List.cons_append, List.cons_append, filepath.walkLess_cons_self,
      filepath.walkLess_append_left p x y]

theorem strings.less_append_self : ∀ a b : GoString, strings.less (a ++ b) a = false
  | [], [] => rfl
  | [], _ :: _ => rfl
  | c :: a, b => by
    simp [strings.less, strings.less_append_self a b]

theorem filepath.Rel_go_below : ∀ (root x : Path), filepath.Rel.go root (root ++ x) = x
  | [], x => by
    cases x <;> simp [filepath.Rel.go]
  | b :: root, x => by
    simp [filepath.Rel.go, filepath.Rel_go_below root x]

theorem filepath.Rel_below (root : Path) (c : GoString) (x : Path) :
    filepath.Rel root (root ++ c :: x) = strings.Join (c :: x) (lit "/") := by
  simp only [filepath.Rel, filepath.Rel_go_below]

theorem strings.Join_append_last (sep : GoString) (xs : List GoString) (y z : GoString) :
    strings.Join (xs ++ [y ++ z]) sep = strings.Join (xs ++ [y]) sep ++ z := by
  cases xs with
  | nil => simp [strings.Join, List.intercalate]
  | cons x xs =>
    rw [strings.Join_append sep (x :: xs) [y ++ z] (by simp) (by simp),
      strings.Join_append sep (x :: xs) [y] (by simp) (by simp)]
    simp [strings.Join, List.intercalate]

/-- The components of the two view candidates of a name: they part at the
last piece of the name, which the flat candidate extends by `.cshtml`. -/
theorem cmd.viewCandidate_split (name : GoString) :
    ∃ (init : List GoString) (last : GoString),
      strings.Split (cmd.viewCandidate name) '/'
        = (lit "Views" :: init) ++ [last, lit "Index.cshtml"] ∧
      strings.Split (cmd.viewCandidateFlat name) '/'
        = (lit "Views" :: init) ++ [last ++ lit ".cshtml"] := by
  obtain ⟨init, last, hsplit, _⟩ := strings.Split_eq_append_last name '/'
  have hfree := strings.Split_no_sep name '/'
  rw [hsplit] at hfree
  have hname : strings.Join (init ++ [last]) (lit "/") = name := by
    rw [← hsplit]
    exact List.intercalate_splitOn name '/'
  refine ⟨init, last, ?_, ?_⟩
  · have e : cmd.viewCandidate name
        = strings.Join ((lit "Views" :: init) ++ [last, lit "Index.cshtml"]) (lit "/") := by
      have e1 : (lit "Views" :: init) ++ [last, lit "Index.cshtml"]
          = [lit "Views"] ++ ((init ++ [last]) ++ [lit "Index.cshtml"]) := by simp
      rw [e1, strings.Join_append _ _ _ (by simp) (by simp),
        strings.Join_append _ _ _ (by simp) (by simp), hname]
      simp [cmd.viewCandidate, strings.Join, List.intercalate, lit]
    rw [e]
    refine strings.Split_Join _ (by simp) ?_
    intro s hs
    simp only [List.cons_append, List.mem_cons, List.mem_append, List.mem_singleton,
      List.not_mem_nil, or_false] at hs
    rcases hs with rfl | hs | rfl | rfl
    · decide
    · exact hfree s (List.mem_append_left _ hs)
    · exact hfree s (List.mem_append_right _ (List.mem_singleton.2 rfl))
    · decide
  · have e : cmd.viewCandidateFlat name
        = strings.Join ((lit "Views" :: init) ++ [last ++ lit ".cshtml"]) (lit "/") := by
      have e1 : (lit "Views" :: init) ++ [last ++ lit ".cshtml"]
          = [lit "Views"] ++ (init ++ [last ++ lit ".cshtml"]) := by simp
      rw [e1, strings.Join_append _ _ _ (by simp) (by simp), strings.Join_append_last, hname]
      simp [cmd.viewCandidateFlat, strings.Join, List.intercalate, lit]
    rw [e]
    refine strings.Split_Join _ (by simp) ?_
    intro s hs
    simp only [List.cons_append, List.mem_cons, List.mem_append, List.mem_singleton,
      List.not_mem_nil, or_false] at hs
    rcases hs with rfl | hs | rfl
    · decide
    · exact hfree s (List.mem_append_left _ hs)
    · intro hmem
      rcases List.mem_append.1 hmem with h | h
      · exact hfree last (List.mem_append_right _ (List.mem_singleton.2 rfl)) h
      · revert h; decide

/-- The flat candidate of a name never comes before the nested one in the
order of the walk. -/
theorem cmd.viewCandidateFlat_not_before (name : GoString) :
    filepath.walkLess (strings.Split (cmd.viewCandidateFlat name) '/')
      (strings.Split (cmd.viewCandidate name) '/') = false := by
  obtain ⟨init, last, h1, h2⟩ := cmd.viewCandidate_split name
  rw [h1, h2, filepath.walkLess_append_left]
  have hne : last ++ lit ".cshtml" ≠ last := by
    intro h
    have := congrArg List.length h
    simp [lit] at this
  simp [filepath.walkLess, strings.less_append_self, hne]

/-- The untracked views of `runSync` come in the order of the walk. -/
theorem cmd.syncUntrackedViews_sorted (cfg : config.Config) (fs : Node)
    (r : List routes.Route) (hfs : Node.wellFormed fs = true) :
    (cmd.syncUntrackedViews cfg fs r).Pairwise
      (fun a b => filepath.walkLess (strings.Split a '/') (strings.Split b '/') = true) := by
  unfold cmd.syncUntrackedViews
  refine List.Pairwise.sublist (List.filter_sublist _) ?_
  have hd : filepath.Join cfg.ServerDir (lit "Views") = cfg.ServerDir ++ [lit "Views"] := by
    have s1 : strings.Split (lit "Views") '/' = [lit "Views"] := rfl
    simp only [filepath.Join, s1, List.foldl_cons, List.foldl_nil]
    simp [lit]
  simp only [cmd.syncViewPages, fsutil.FindFiles, hd]
  cases hs : os.Stat fs (cfg.ServerDir ++ [lit "Views"]) with
  | error e => exact List.Pairwise.nil
  | ok n =>
    simp only
    rw [List.pairwise_map]
    refine List.Pairwise.sublist (List.filter_sublist _) ?_
    obtain ⟨hsorted, hfree⟩ := Node.walk_sorted n (os.Stat_wellFormed _ fs n hfs hs)
    refine hsorted.imp_of_mem ?_
    intro a b ha hb hab
    have hsplit : ∀ v ∈ Node.walk n,
        strings.Split (filepath.ToSlash (filepath.Rel cfg.ServerDir
          (cfg.ServerDir ++ [lit "Views"] ++ v.1))) '/' = lit "Views" :: v.1 := by
      intro v hv
      rw [List.append_assoc, List.singleton_append, filepath.Rel_below, filepath.ToSlash]
      refine strings.Split_Join _ (by simp) ?_
      intro s hs
      rcases List.mem_cons.1 hs with rfl | hs
      · decide
      · exact hfree v hv s hs
    rw [hsplit a ha, hsplit b hb, filepath.walkLess_cons_self]
    exact hab

/-- In a list that goes up in an order, what is not before another in the
order is not listed before it. -/
theorem Spec.position_le_of_sorted (R : GoString → GoString → Prop) (n f : GoString)
    (hR : ¬ R f n) : ∀ views : List GoString, views.Pairwise R → n ∈ views →
      Spec.position views n ≤ Spec.position views f
  | [], _, h => by cases h
  | v :: vs, hp, hn => by
    unfold Spec.position
    by_cases h1 : v = n
    · simp [List.findIdx_cons, h1]
    · by_cases h2 : v = f
      · have hn2 : n ∈ vs := by
          rcases List.mem_cons.1 hn with h | h
          · exact absurd h.symm h1
          · exact h
        exact absurd (h2 ▸ List.rel_of_pairwise_cons hp hn2) hR
      · have hn2 : n ∈ vs := by
          rcases List.mem_cons.1 hn with h | h
          · exact absurd h.symm h1
          · exact h
        have ih := Spec.position_le_of_sorted R n f hR vs (List.Pairwise.of_cons hp) hn2
        unfold Spec.position at ih
        simp only [List.findIdx_cons, h1, h2, decide_False, cond_false]
        omega

/-- The pairing of the specification looks only at which views are listed. -/
theorem Spec.pairedView_congr (n f : GoString) (views views' : List GoString)
    (h : ∀ v, v ∈ views' ↔ v ∈ views) :
    Spec.pairedView n f views' = Spec.pairedView n f views := by
  unfold Spec.pairedView
  simp only [h]

/-- C14: for every well-formed file tree (as every file system is: in each
directory the names are distinct and free of `/`), every registry and every
untracked page, with the untracked views as the reverse pass of `runSync`
lists them (the files under `Views` that `fsutil.FindFiles` finds, in the
order of `filepath.Walk`, less the tracked ones): the derived `Name` is that
of the page alone; the candidate's view is the nested path
`Views/<Name>/Index.cshtml` if that path is among the untracked views,
otherwise the flat path `Views/<Name>.cshtml` if that one is, otherwise the
nested path; and the choice depends only on which views are untracked, not
on their order: two runs with the same untracked views, however the trees
hold them, choose the same view. -/
theorem C14_view_pairing (U : Unicode) (cfg : config.Config) (fs : Node)
    (r : List routes.Route) (page : GoString) (hfs : Node.wellFormed fs = true) :
    (cmd.adoptCandidate U (cmd.syncUntrackedViews cfg fs r) page).Name
      = (cmd.adoptCandidate U [] page).Name ∧
    (cmd.adoptCandidate U (cmd.syncUntrackedViews cfg fs r) page).Files.View
      = Spec.pairedView (cmd.viewCandidate (cmd.adoptCandidate U [] page).Name)
          (cmd.viewCandidateFlat (cmd.adoptCandidate U [] page).Name)
          (cmd.syncUntrackedViews cfg fs r) ∧
    (∀ (cfg' : config.Config) (fs' : Node) (r' : List routes.Route),
      Node.wellFormed fs' = true →
      (∀ v, v ∈ cmd.syncUntrackedViews cfg' fs' r' ↔ v ∈ cmd.syncUntrackedViews cfg fs r) →
      (cmd.adoptCandidate U (cmd.syncUntrackedViews cfg' fs' r') page).Files.View
        = (cmd.adoptCandidate U (cmd.syncUntrackedViews cfg fs r) page).Files.View) := by
  have key : ∀ (cfg : config.Config) (fs : Node) (r : List routes.Route),
      Node.wellFormed fs = true →
      (cmd.adoptCandidate U (cmd.syncUntrackedViews cfg fs r) page).Files.View
        = Spec.pairedView (cmd.viewCandidate (cmd.adoptCandidate U [] page).Name)
            (cmd.viewCandidateFlat (cmd.adoptCandidate U [] page).Name)
            (cmd.syncUntrackedViews cfg fs r) := by
    intro cfg fs r hfs
    rw [cmd.adoptCandidate_View U _ page]
    refine Spec.pairedView_of_order _ _ _ ?_
    refine Spec.position_le_of_sorted _ _ _ ?_ _ (cmd.syncUntrackedViews_sorted cfg fs r hfs)
    rw [cmd.viewCandidateFlat_not_before]
    exact Bool.false_ne_true
  refine ⟨rfl, key cfg fs r hfs, ?_⟩
  intro cfg' fs' r' hfs' hsame
  rw [key cfg fs r hfs, key cfg' fs' r' hfs']
  exact Spec.pairedView_congr _ _ _ _ hsame

/-- C14, witness: the project `Example.twoViews`, whose directory `Views`
holds `Foo.cshtml` before `Foo/Index.cshtml`, with an empty registry and the
page `src/pages/Foo/index.page.tsx`: the untracked views are listed as
`Views/Bar.cshtml`, `Views/Foo/Index.cshtml`, `Views/Foo.cshtml`, and the
candidate gets the nested view. -/
theorem C14_view_pairing_witness :
    Node.wellFormed Example.twoViews = true ∧
    cmd.syncUntrackedViews Example.cfg Example.twoViews []
      = [lit "Views/Bar.cshtml", lit "Views/Foo/Index.cshtml", lit "Views/Foo.cshtml"] ∧
    (cmd.adoptCandidate Unicode.ascii (cmd.syncUntrackedViews Example.cfg Example.twoViews [])
        (lit "src/pages/Foo/index.page.tsx")).Files.View
      = Spec.pairedView
          (cmd.viewCandidate
            (cmd.adoptCandidate Unicode.ascii [] (lit "src/pages/Foo/index.page.tsx")).Name)
          (cmd.viewCandidateFlat
            (cmd.adoptCandidate Unicode.ascii [] (lit "src/pages/Foo/index.page.tsx")).Name)
          (cmd.syncUntrackedViews Example.cfg Example.twoViews []) ∧
    Spec.pairedView
        (cmd.viewCandidate
          (cmd.adoptCandidate Unicode.ascii [] (lit "src/pages/Foo/index.page.tsx")).Name)
        (cmd.viewCandidateFlat
          (cmd.adoptCandidate Unicode.ascii [] (lit "src/pages/Foo/index.page.tsx")).Name)
        (cmd.syncUntrackedViews Example.cfg Example.twoViews [])
      = lit "Views/Foo/Index.cshtml" :=
  ⟨by decide, rfl,
    (C14_view_pairing Unicode.ascii Example.cfg Example.twoViews []
      (lit "src/pages/Foo/index.page.tsx") (by decide)).2.1, by decide⟩

end Poyo
